import Mathlib

/-!
# Universa.Web file synchronisation core

A shallow embedding of the path validator, the file store, the HTTP file
handlers and the tree builder of `Universa.Web`, together with the
properties established about them.

Go strings are modelled as `List Char`.  Every string constant the code
inspects (`".."`, `"/"`, `"."`) is ASCII, and UTF-8 never places an ASCII
byte inside a multi-byte sequence, so substring, prefix and split behave on
code points exactly as they do on bytes.  The path separator is `/`
(`os.PathSeparator` on the platforms the server is deployed on).
-/

namespace Universa

/-- Go `string`, as a list of code points. -/
abbrev Str := List Char

/-! ## Package `strings` -/

namespace strings

/-- Go `strings.HasPrefix(s, p)`. -/
def HasPrefix (s p : Str) : Bool := p.isPrefixOf s

/-- Go `strings.Contains(s, substr)`: `substr` occurs in `s` at some offset. -/
def Contains : Str → Str → Bool
  | [], substr => substr.isEmpty
  | c :: s, substr => substr.isPrefixOf (c :: s) || Contains s substr

/-- Go `strings.Split(s, sep)` for a one-character separator: the pieces of
`s` between consecutive occurrences of `sep` (always at least one piece). -/
def Split : Str → Char → List Str
  | [], _ => [[]]
  | c :: s, sep =>
    if c = sep then [] :: Split s sep
    else
      match Split s sep with
      | [] => [[c]]
      | piece :: rest => (c :: piece) :: rest

/-- Go `strings.Join(elems, sep)`. -/
def Join : List Str → Str → Str
  | [], _ => []
  | [a], _ => a
  | a :: b :: rest, sep => a ++ sep ++ Join (b :: rest) sep

end strings

/-! ## Package `path/filepath` (Unix) -/

namespace filepath

/-- The separator, `filepath.Separator` / `os.PathSeparator`. -/
def Separator : Char := '/'

/-- One step of the scan in `filepath.Clean`, on the stack of path elements
written so far (innermost element first): an empty element and `.` are
skipped; `..` removes the last real element, is dropped at the root of a
rooted path and is kept at the front of a relative one; any other element
is appended. -/
def cleanStep (rooted : Bool) (out : List Str) (elem : Str) : List Str :=
  if elem = [] ∨ elem = ['.'] then out
  else if elem = ['.', '.'] then
    match out with
    | [] => if rooted then [] else [['.', '.']]
    | top :: rest => if top = ['.', '.'] ∧ rooted = false then elem :: top :: rest else rest
  else elem :: out

/-- The path elements that `Clean` keeps as they are: all but the empty
element and `.` (and `..`, treated apart). -/
def keepElem (elem : Str) : Bool := !(decide (elem = []) || decide (elem = ['.']))

/-- Go `filepath.Clean(path)`: the shortest path equivalent to `path` by
purely lexical processing (the four rules of the Go documentation). -/
def Clean (path : Str) : Str :=
  if path = [] then ['.']
  else
    let rooted := strings.HasPrefix path [Separator]
    let out := (strings.Split path Separator).foldl (cleanStep rooted) []
    let body := strings.Join out.reverse [Separator]
    if rooted then Separator :: body
    else if body = [] then ['.'] else body

/-- Go `filepath.Join(elem...)`: the elements from the first non-empty one
on are joined with the separator and the result is cleaned; all-empty
arguments give the empty string. -/
def Join : List Str → Str
  | [] => []
  | e :: rest => if e = [] then Join rest else Clean (strings.Join (e :: rest) [Separator])

/-- Go `filepath.Dir(path)`: all but the last element of the path, cleaned. -/
def Dir (path : Str) : Str :=
  Clean (path.reverse.dropWhile (fun c => c != Separator)).reverse

/-- Go `filepath.Base(path)`: the last element of the path, after trailing
separators are removed; `.` for the empty path and `/` for a path of
separators only. -/
def Base (path : Str) : Str :=
  if path = [] then ['.']
  else
    let stripped := path.reverse.dropWhile (fun c => c == Separator)
    let last := (stripped.takeWhile (fun c => c != Separator)).reverse
    if last = [] then [Separator] else last

/-- Go `filepath.Ext(path)`: the suffix of the last element that starts at
its last dot, or the empty string when it has no dot. -/
def Ext (path : Str) : Str :=
  let last := path.reverse.takeWhile (fun c => c != Separator)
  if '.' ∈ last then '.' :: (last.takeWhile (fun c => c != '.')).reverse else []

end filepath

/-! ## `main.go`: the path validator -/

/-- `isPathSafe` of `main.go` (the log statements are omitted). -/
def isPathSafe (path : Str) : Bool :=
  if strings.Contains path ['.', '.'] then false
  else if strings.HasPrefix path ['/'] then false
  else
    let cleanPath := filepath.Clean path
    let segments := strings.Split cleanPath filepath.Separator
    if segments.any (fun segment => segment == ['.', '.']) then false else true

/-- The base directory with a separator appended, unless it is the root
(which already ends in the separator). -/
def withSeparator (base : Str) : Str :=
  if base = [filepath.Separator] then base else base ++ [filepath.Separator]

/-- A byte of file content. -/
abbrev Byte := Fin 256

/-! ## Package `crypto/sha256` and `encoding/hex` -/

namespace sha256

/-- Round constants of SHA-256 (FIPS 180-4, section 4.2.2). -/
def K : List Nat :=
  [0x428A2F98, 0x71374491, 0xB5C0FBCF, 0xE9B5DBA5, 0x3956C25B, 0x59F111F1, 0x923F82A4, 0xAB1C5ED5,
   0xD807AA98, 0x12835B01, 0x243185BE, 0x550C7DC3, 0x72BE5D74, 0x80DEB1FE, 0x9BDC06A7, 0xC19BF174,
   0xE49B69C1, 0xEFBE4786, 0x0FC19DC6, 0x240CA1CC, 0x2DE92C6F, 0x4A7484AA, 0x5CB0A9DC, 0x76F988DA,
   0x983E5152, 0xA831C66D, 0xB00327C8, 0xBF597FC7, 0xC6E00BF3, 0xD5A79147, 0x06CA6351, 0x14292967,
   0x27B70A85, 0x2E1B2138, 0x4D2C6DFC, 0x53380D13, 0x650A7354, 0x766A0ABB, 0x81C2C92E, 0x92722C85,
   0xA2BFE8A1, 0xA81A664B, 0xC24B8B70, 0xC76C51A3, 0xD192E819, 0xD6990624, 0xF40E3585, 0x106AA070,
   0x19A4C116, 0x1E376C08, 0x2748774C, 0x34B0BCB5, 0x391C0CB3, 0x4ED8AA4A, 0x5B9CCA4F, 0x682E6FF3,
   0x748F82EE, 0x78A5636F, 0x84C87814, 0x8CC70208, 0x90BEFFFA, 0xA4506CEB, 0xBEF9A3F7, 0xC67178F2]

/-- Addition of 32-bit words. -/
def add32 (x y : Nat) : Nat := (x + y) % 2 ^ 32

/-- Rotation of a 32-bit word to the right. -/
def rotr (x n : Nat) : Nat := ((x >>> n) ||| (x <<< (32 - n))) % 2 ^ 32

/-- The functions of FIPS 180-4, section 4.1.2, on 32-bit words. -/
def ch (x y z : Nat) : Nat := (x &&& y) ^^^ ((2 ^ 32 - 1 - x) &&& z)
def maj (x y z : Nat) : Nat := (x &&& y) ^^^ (x &&& z) ^^^ (y &&& z)
def bigSigma0 (x : Nat) : Nat := rotr x 2 ^^^ rotr x 13 ^^^ rotr x 22
def bigSigma1 (x : Nat) : Nat := rotr x 6 ^^^ rotr x 11 ^^^ rotr x 25
def smallSigma0 (x : Nat) : Nat := rotr x 7 ^^^ rotr x 18 ^^^ (x >>> 3)
def smallSigma1 (x : Nat) : Nat := rotr x 17 ^^^ rotr x 19 ^^^ (x >>> 10)

/-- The message with its padding: a `1` bit, zero bits up to 56 modulo 64
bytes, and the bit length as a 64-bit big-endian integer. -/
def pad (msg : List Nat) : List Nat :=
  let len := msg.length
  let zeros := (55 + 64 - len % 64) % 64
  let bits := (len * 8) % 2 ^ 64
  msg ++ [128] ++ List.replicate zeros 0 ++
    (List.range 8).map (fun i => (bits >>> (8 * (7 - i))) % 256)

/-- The big-endian 32-bit words of a block of bytes. -/
def toWords : List Nat → List Nat
  | b0 :: b1 :: b2 :: b3 :: rest =>
    (b0 * 2 ^ 24 + b1 * 2 ^ 16 + b2 * 2 ^ 8 + b3) :: toWords rest
  | _ => []

/-- The 64-word message schedule of a 16-word block. -/
def schedule (block : List Nat) : List Nat :=
  (List.range 48).foldl
    (fun w i =>
      let t := i + 16
      w ++ [add32 (add32 (smallSigma1 (w.getD (t - 2) 0)) (w.getD (t - 7) 0))
              (add32 (smallSigma0 (w.getD (t - 15) 0)) (w.getD (t - 16) 0))])
    block

/-- The eight working variables of the compression function. -/
structure Vars where
  a : Nat
  b : Nat
  c : Nat
  d : Nat
  e : Nat
  f : Nat
  g : Nat
  h : Nat

/-- One round of the compression function, with the round constant and the
schedule word. -/
def round (v : Vars) (kw : Nat × Nat) : Vars :=
  let t1 := add32 (add32 (add32 v.h (bigSigma1 v.e)) (add32 (ch v.e v.f v.g) kw.1)) kw.2
  let t2 := add32 (bigSigma0 v.a) (maj v.a v.b v.c)
  { a := add32 t1 t2, b := v.a, c := v.b, d := v.c, e := add32 v.d t1, f := v.e, g := v.f, h := v.g }

/-- The initial hash value of SHA-256 (FIPS 180-4, section 5.3.3). -/
def initial : Vars :=
  ⟨0x6A09E667, 0xBB67AE85, 0x3C6EF372, 0xA54FF53A, 0x510E527F, 0x9B05688C, 0x1F83D9AB,
    0x5BE0CD19⟩

/-- The compression of one 16-word block into the hash state. -/
def compress (s : Vars) (block : List Nat) : Vars :=
  let v := (K.zip (schedule block)).foldl round s
  { a := add32 s.a v.a, b := add32 s.b v.b, c := add32 s.c v.c, d := add32 s.d v.d,
    e := add32 s.e v.e, f := add32 s.f v.f, g := add32 s.g v.g, h := add32 s.h v.h }

/-- The 16-word blocks of a list of words. -/
def blocks : Nat → List Nat → List (List Nat)
  | 0, _ => []
  | n + 1, ws => if ws = [] then [] else ws.take 16 :: blocks n (ws.drop 16)

/-- The four bytes of a 32-bit word, most significant first. -/
def wordBytes (w : Nat) : List Byte :=
  [Fin.ofNat (w >>> 24), Fin.ofNat (w >>> 16), Fin.ofNat (w >>> 8), Fin.ofNat w]

/-- Go `sha256.Sum256` (equivalently `sha256.New()`, writing the bytes and
`Sum(nil)`): the 32-byte SHA-256 digest. -/
def Sum256 (data : List Byte) : List Byte :=
  let ws := toWords (pad (data.map (fun b => b.val)))
  let s := (blocks ws.length ws).foldl compress initial
  wordBytes s.a ++ wordBytes s.b ++ wordBytes s.c ++ wordBytes s.d ++
    wordBytes s.e ++ wordBytes s.f ++ wordBytes s.g ++ wordBytes s.h

end sha256

namespace hex

/-- The lowercase hexadecimal digit of a value below 16. -/
def digit (n : Nat) : Char := "0123456789abcdef".toList.getD n '0'

/-- Go `hex.EncodeToString(src)` (and `fmt.Sprintf("%x", src)` on a byte
slice): two lowercase hexadecimal digits per byte. -/
def EncodeToString : List Byte → Str
  | [] => []
  | b :: rest => digit (b.val / 16) :: digit (b.val % 16) :: EncodeToString rest

end hex

/-! ## The filesystem under the store

The calls of package `os` that the code makes are modelled on a flat table
from resolved paths (the list of path components from the root) to nodes.
A node is visible only when it is reached from the root through
directories, as in a real tree.  Of the permissions the read permission is
modelled: a file or directory that the process may not read is there for
`Stat`, and opening it for reading fails with `EACCES`.  The permission
belongs to the node and moves with it.  Write and search permissions,
symbolic links, modification times and I/O faults are not modelled: where
a statement depends on a call succeeding, it takes the success as a
hypothesis. -/

/-- The error numbers that the modelled calls can report. -/
inductive Errno where
  | ENOENT
  | ENOTDIR
  | EISDIR
  | ENOTEMPTY
  | EEXIST
  | EBUSY
  | EINVAL
  | EACCES
  deriving DecidableEq, Repr

/-- Go `os.IsNotExist(err)` on an error that carries an error number. -/
def Errno.IsNotExist (e : Errno) : Bool := decide (e = Errno.ENOENT)

/-- A filesystem node: a regular file with its bytes, or a directory. -/
inductive Node where
  | file (content : List Byte)
  | dir
  deriving DecidableEq, Repr

/-- The filesystem: the working directory of the process, the size that
`Stat` reports for a directory (system dependent), the table of nodes
other than the root directory, and the resolved paths of the nodes that the
process has no permission to read. -/
structure FS where
  cwd : List Str
  dirSize : Nat
  nodes : List (List Str × Node)
  noRead : List (List Str)
  deriving DecidableEq

/-- What `os.Stat` returns, as far as the code reads it. -/
structure StatInfo where
  size : Nat
  isDir : Bool
  deriving DecidableEq, Repr

namespace FS

/-- The table entry of a resolved path; the root is always a directory. -/
def get (fs : FS) (key : List Str) : Option Node :=
  if key = [] then some Node.dir
  else (fs.nodes.find? (fun e => decide (e.1 = key))).map (fun e => e.2)

/-- The table with the entry of `key` replaced by `node`. -/
def set (fs : FS) (key : List Str) (node : Node) : FS :=
  { fs with nodes := (key, node) :: fs.nodes.filter (fun e => decide (e.1 ≠ key)) }

/-- The table without the entry of `key`; its permission goes with it. -/
def erase (fs : FS) (key : List Str) : FS :=
  { fs with nodes := fs.nodes.filter (fun e => decide (e.1 ≠ key)),
            noRead := fs.noRead.filter (fun k => decide (k ≠ key)) }

/-- Path lookup from the directory `pre` along the components `rest`:
every component on the way must be a directory (`ENOTDIR` otherwise) and
every component must exist (`ENOENT` otherwise). -/
def walkFrom (fs : FS) : List Str → List Str → Except Errno Node
  | pre, [] =>
    match fs.get pre with
    | some node => .ok node
    | none => .error Errno.ENOENT
  | pre, comp :: rest =>
    match fs.get pre with
    | some Node.dir => walkFrom fs (pre ++ [comp]) rest
    | some (Node.file _) => .error Errno.ENOTDIR
    | none => .error Errno.ENOENT

/-- The node at a resolved path. -/
def lookup (fs : FS) (key : List Str) : Except Errno Node := fs.walkFrom [] key

/-- One component of path resolution. -/
def resolveStep (key : List Str) (comp : Str) : List Str :=
  if comp = [] ∨ comp = ['.'] then key
  else if comp = ['.', '.'] then key.dropLast
  else key ++ [comp]

/-- Resolution of a path name to the list of its components from the root:
a rooted name starts at the root, any other at the working directory; the
empty name does not resolve.  (The code passes only names produced by
`filepath.Join`, which are clean, so `..` occurs only at the front of a
relative name.) -/
def resolve (fs : FS) (name : Str) : Except Errno (List Str) :=
  if name = [] then .error Errno.ENOENT
  else
    .ok ((strings.Split name filepath.Separator).foldl resolveStep
      (if strings.HasPrefix name [filepath.Separator] then [] else fs.cwd))

/-- The names of the visible entries directly inside the directory `key`. -/
def childNames (fs : FS) (key : List Str) : List Str :=
  (fs.nodes.filterMap (fun e =>
    if e.1 ≠ [] ∧ e.1.dropLast = key then e.1.getLast? else none)).dedup

/-- Go `os.Stat(name)`. -/
def Stat (fs : FS) (name : Str) : Except Errno StatInfo :=
  match fs.resolve name with
  | .error e => .error e
  | .ok key =>
    match fs.lookup key with
    | .error e => .error e
    | .ok (Node.file content) => .ok { size := content.length, isDir := false }
    | .ok Node.dir => .ok { size := fs.dirSize, isDir := true }

/-- Go `os.Mkdir` on a resolved path: the parent must be a directory and the
path must not exist. -/
def mkdirKey (fs : FS) (key : List Str) : Except Errno FS :=
  match fs.lookup key.dropLast with
  | .error e => .error e
  | .ok (Node.file _) => .error Errno.ENOTDIR
  | .ok Node.dir =>
    match fs.get key with
    | some _ => .error Errno.EEXIST
    | none => .ok (fs.set key Node.dir)

/-- Go `os.MkdirAll` on a resolved path, given innermost component first:
an existing directory is left alone, an existing file is an error,
otherwise the parent is made first and then the directory itself. -/
def mkdirAllKey (fs : FS) : List Str → Except Errno FS
  | [] => .ok fs
  | comp :: rparent =>
    match fs.lookup (comp :: rparent).reverse with
    | .ok Node.dir => .ok fs
    | .ok (Node.file _) => .error Errno.ENOTDIR
    | .error _ =>
      match mkdirAllKey fs rparent with
      | .error e => .error e
      | .ok fs1 => fs1.mkdirKey (comp :: rparent).reverse

/-- Go `os.MkdirAll(path, perm)`. -/
def MkdirAll (fs : FS) (path : Str) : Except Errno FS :=
  match fs.resolve path with
  | .error e => .error e
  | .ok key => fs.mkdirAllKey key.reverse

/-- Go `os.WriteFile(name, data, perm)` (also `os.OpenFile` with
`O_WRONLY|O_CREATE|O_TRUNC` followed by writing `data`): the parent must be
a directory, the name must not be a directory, and the file then holds
exactly `data`. -/
def WriteFile (fs : FS) (name : Str) (data : List Byte) : Except Errno FS :=
  match fs.resolve name with
  | .error e => .error e
  | .ok key =>
    if key = [] then .error Errno.EISDIR
    else
      match fs.lookup key.dropLast with
      | .error e => .error e
      | .ok (Node.file _) => .error Errno.ENOTDIR
      | .ok Node.dir =>
        match fs.get key with
        | some Node.dir => .error Errno.EISDIR
        | _ => .ok (fs.set key (Node.file data))

/-- Go `os.ReadFile(name)` (also `os.Open` followed by reading to the end):
opening fails with `EACCES` without the read permission, and reading a
directory fails with `EISDIR`. -/
def ReadFile (fs : FS) (name : Str) : Except Errno (List Byte) :=
  match fs.resolve name with
  | .error e => .error e
  | .ok key =>
    match fs.lookup key with
    | .error e => .error e
    | .ok (Node.file content) => if key ∈ fs.noRead then .error Errno.EACCES else .ok content
    | .ok Node.dir => if key ∈ fs.noRead then .error Errno.EACCES else .error Errno.EISDIR

/-- Go `os.Remove(name)`: removes a file or an empty directory. -/
def Remove (fs : FS) (name : Str) : Except Errno FS :=
  match fs.resolve name with
  | .error e => .error e
  | .ok key =>
    if key = [] then .error Errno.EBUSY
    else
      match fs.lookup key with
      | .error e => .error e
      | .ok (Node.file _) => .ok (fs.erase key)
      | .ok Node.dir =>
        if fs.childNames key = [] then .ok (fs.erase key) else .error Errno.ENOTEMPTY

/-- Go `os.ReadDir(name)`: the names of the entries of a directory, sorted;
opening fails with `EACCES` without the read permission. -/
def ReadDir (fs : FS) (name : Str) : Except Errno (List Str) :=
  match fs.resolve name with
  | .error e => .error e
  | .ok key =>
    match fs.lookup key with
    | .error e => .error e
    | .ok (Node.file _) => if key ∈ fs.noRead then .error Errno.EACCES else .error Errno.ENOTDIR
    | .ok Node.dir =>
      if key ∈ fs.noRead then .error Errno.EACCES
      else .ok ((fs.childNames key).insertionSort (fun a b => a ≤ b))

/-- The paths without read permission after the node at `oldKey`, with what
lies below it, has been moved to `newKey`, in the place of what was there. -/
def movedNoRead (fs : FS) (oldKey newKey : List Str) : List (List Str) :=
  (fs.noRead.filter (fun k => decide (k ≠ newKey))).map (fun k =>
    if oldKey.isPrefixOf k then newKey ++ k.drop oldKey.length else k)

/-- The table after the subtree at `oldKey` has been moved to `newKey`. -/
def moveSubtree (fs : FS) (oldKey newKey : List Str) : FS :=
  { fs with nodes := (fs.erase newKey).nodes.map (fun e =>
      if oldKey.isPrefixOf e.1 then (newKey ++ e.1.drop oldKey.length, e.2) else e),
            noRead := fs.movedNoRead oldKey newKey }

/-- The table after the file at `oldKey` has been moved to `newKey`. -/
def moveFile (fs : FS) (oldKey newKey : List Str) (content : List Byte) : FS :=
  { (fs.erase oldKey).set newKey (Node.file content) with
    noRead := fs.movedNoRead oldKey newKey }

/-- Go `os.Rename(oldpath, newpath)`.  Go looks at the destination first:
when it is an existing directory the call fails, with the error of the
source when the source is missing and with `EEXIST` otherwise (two names
of one directory apart).  Otherwise the system call runs: the source must
exist and the parent of the destination must be a directory; a file takes
the place of a file, a directory does not take the place of a file, and a
directory cannot move into itself. -/
def Rename (fs : FS) (oldpath newpath : Str) : Except Errno FS :=
  match fs.resolve oldpath, fs.resolve newpath with
  | .error e, _ => .error e
  | _, .error e => .error e
  | .ok oldKey, .ok newKey =>
    match fs.lookup oldKey with
    | .error e => .error e
    | .ok node =>
      match fs.lookup newKey with
      | .ok Node.dir =>
        if oldpath = newpath ∨ oldKey ≠ newKey then .error Errno.EEXIST else .ok fs
      | _ =>
        if oldKey = [] then .error Errno.EBUSY
        else
          match fs.lookup newKey.dropLast with
          | .error e => .error e
          | .ok (Node.file _) => .error Errno.ENOTDIR
          | .ok Node.dir =>
            if oldKey = newKey then .ok fs
            else
              match node, fs.get newKey with
              | Node.file content, _ => .ok (fs.moveFile oldKey newKey content)
              | Node.dir, some _ => .error Errno.ENOTDIR
              | Node.dir, none =>
                if oldKey.isPrefixOf newKey then .error Errno.EINVAL
                else .ok (fs.moveSubtree oldKey newKey)

end FS
/-! ## `internal/storage/files/storage.go` -/

/-- The decimal digits of a natural number, most significant first. -/
def decimalDigits : Nat → Nat → Str
  | 0, _ => []
  | fuel + 1, n =>
    if n < 10 then [Char.ofNat (48 + n)]
    else decimalDigits fuel (n / 10) ++ [Char.ofNat (48 + n % 10)]

/-- Go `fmt.Sprintf("%d", n)` for an integer. -/
def fmtInt (n : Int) : Str :=
  if n < 0 then '-' :: decimalDigits (n.natAbs + 1) n.natAbs
  else decimalDigits (n.natAbs + 1) n.natAbs

/-- The `Storage` struct. -/
structure Storage where
  basePath : Str
  deriving DecidableEq

/-- The `FileInfo` struct of the store.  `LastModified`, which `GetInfo`
copies from `os.Stat`, is not modelled: two records are compared in their
other fields, and no statement compares the records of a directory before
and after a change of the entries of that directory. -/
structure FileInfo where
  Path : Str
  Size : Nat
  Hash : Str
  IsDirectory : Bool
  deriving DecidableEq, Repr

/-- The errors the store builds with `fmt.Errorf`, one constructor for each
message; the wrapped cause is kept where the message wraps one. -/
inductive StorageError where
  | failedToCreateDirectories (cause : Errno)
  | failedToWriteFile (cause : Errno)
  | failedToGetFileInfo (cause : Errno)
  | failedToCalculateHash (cause : Errno)
  | fileNotFound (path : Str)
  | failedToReadFile (cause : Errno)
  | failedToDeleteFile (cause : Errno)
  | directoryNotFound (path : Str)
  | failedToReadDirectory (cause : Errno)
  | failedToMoveFile (cause : Errno)
  | storeFailedToGetFileInfo (cause : StorageError)
  deriving DecidableEq, Repr

namespace Storage

/-- `Storage.getFullPath`. -/
def getFullPath (s : Storage) (userID : Int) (path : Str) : Str :=
  filepath.Join [s.basePath, fmtInt userID, path]

/-- `Storage.calculateHash`. -/
def calculateHash (_s : Storage) (fs : FS) (path : Str) : Except Errno Str :=
  match fs.ReadFile path with
  | .error e => .error e
  | .ok content => .ok (hex.EncodeToString (sha256.Sum256 content))

/-- `Storage.GetInfo`. -/
def GetInfo (s : Storage) (fs : FS) (userID : Int) (path : Str) :
    Except StorageError FileInfo :=
  let fullPath := s.getFullPath userID path
  match fs.Stat fullPath with
  | .error e =>
    if e.IsNotExist then .error (StorageError.fileNotFound path)
    else .error (StorageError.failedToGetFileInfo e)
  | .ok info =>
    if !info.isDir then
      match s.calculateHash fs fullPath with
      | .error e => .error (StorageError.failedToCalculateHash e)
      | .ok hash =>
        .ok { Path := path, Size := info.size, Hash := hash, IsDirectory := info.isDir }
    else .ok { Path := path, Size := info.size, Hash := [], IsDirectory := info.isDir }

/-- `Storage.Store`: the result and the filesystem afterwards. -/
def Store (s : Storage) (fs : FS) (userID : Int) (path : Str) (content : List Byte) :
    Except StorageError FileInfo × FS :=
  let fullPath := s.getFullPath userID path
  match fs.MkdirAll (filepath.Dir fullPath) with
  | .error e => (.error (StorageError.failedToCreateDirectories e), fs)
  | .ok fs1 =>
    match fs1.WriteFile fullPath content with
    | .error e => (.error (StorageError.failedToWriteFile e), fs1)
    | .ok fs2 =>
      match s.GetInfo fs2 userID path with
      | .error e => (.error (StorageError.storeFailedToGetFileInfo e), fs2)
      | .ok info => (.ok info, fs2)

/-- `Storage.Get`. -/
def Get (s : Storage) (fs : FS) (userID : Int) (path : Str) :
    Except StorageError (List Byte) :=
  let fullPath := s.getFullPath userID path
  match fs.ReadFile fullPath with
  | .error e =>
    if e.IsNotExist then .error (StorageError.fileNotFound path)
    else .error (StorageError.failedToReadFile e)
  | .ok content => .ok content

/-- `Storage.Delete`: the result and the filesystem afterwards. -/
def Delete (s : Storage) (fs : FS) (userID : Int) (path : Str) :
    Except StorageError Unit × FS :=
  let fullPath := s.getFullPath userID path
  match fs.Remove fullPath with
  | .error e =>
    if e.IsNotExist then (.error (StorageError.fileNotFound path), fs)
    else (.error (StorageError.failedToDeleteFile e), fs)
  | .ok fs1 => (.ok (), fs1)

/-- The loop of `Storage.List` over the directory entries: an entry whose
`GetInfo` fails is skipped. -/
def listEntries (s : Storage) (fs : FS) (userID : Int) (path : Str) :
    List Str → List FileInfo
  | [] => []
  | name :: rest =>
    let relativePath := filepath.Join [path, name]
    match s.GetInfo fs userID relativePath with
    | .error _ => listEntries s fs userID path rest
    | .ok fileInfo => fileInfo :: listEntries s fs userID path rest

/-- `Storage.Move`: the result and the filesystem afterwards. -/
def Move (s : Storage) (fs : FS) (userID : Int) (oldPath newPath : Str) :
    Except StorageError Unit × FS :=
  let oldFullPath := s.getFullPath userID oldPath
  let newFullPath := s.getFullPath userID newPath
  match fs.MkdirAll (filepath.Dir newFullPath) with
  | .error e => (.error (StorageError.failedToCreateDirectories e), fs)
  | .ok fs1 =>
    match fs1.Rename oldFullPath newFullPath with
    | .error e => (.error (StorageError.failedToMoveFile e), fs1)
    | .ok fs2 => (.ok (), fs2)

end Storage

/-- `Storage.List`. -/
def Storage.List (s : Storage) (fs : FS) (userID : Int) (path : Str) :
    Except StorageError (List FileInfo) :=
  let fullPath := s.getFullPath userID path
  match fs.ReadDir fullPath with
  | .error e =>
    if e.IsNotExist then .error (StorageError.directoryNotFound path)
    else .error (StorageError.failedToReadDirectory e)
  | .ok entries => .ok (s.listEntries fs userID path entries)

/-! ## `models/file.go` -/

/-- The `FileMetadata` struct (`ModTime` is not modelled). -/
structure FileMetadata where
  Name : Str
  Path : Str
  Size : Nat
  IsDir : Bool
  Hash : Str
  deriving DecidableEq, Repr

/-- `calculateFileHash` of `models/file.go`. -/
def calculateFileHash (fs : FS) (path : Str) : Except Errno Str :=
  match fs.ReadFile path with
  | .error e => .error e
  | .ok content => .ok (hex.EncodeToString (sha256.Sum256 content))

/-- `NewFileMetadata` of `models/file.go`. -/
def NewFileMetadata (fs : FS) (basePath relativePath : Str) : Except Errno FileMetadata :=
  let fullPath := filepath.Join [basePath, relativePath]
  match fs.Stat fullPath with
  | .error e => .error e
  | .ok info =>
    let hashed : Except Errno Str :=
      if !info.isDir then calculateFileHash fs fullPath else .ok []
    match hashed with
    | .error e => .error e
    | .ok hash =>
      .ok { Name := filepath.Base relativePath, Path := relativePath, Size := info.size,
            IsDir := info.isDir, Hash := hash }

/-! ## `main.go`: the HTTP file handlers

A handler takes the storage root (`SYNC_STORAGE_PATH`), the filesystem, the
authenticated user name and the request, and gives the response, the
filesystem afterwards and the changes it sent to the notifier. -/

/-- The `FileChange` struct. -/
structure FileChange where
  type : String
  file : FileMetadata
  deriving DecidableEq, Repr

/-- The body of a response. -/
inductive Body where
  | empty
  | text (message : String)
  | bytes (content : List Byte)
  | metadata (file : FileMetadata)
  deriving DecidableEq, Repr

/-- An HTTP response: status code and body. -/
structure Response where
  status : Nat
  body : Body
  deriving DecidableEq, Repr

/-- The outcome of a handler. -/
structure Outcome where
  response : Response
  fs : FS
  broadcast : List FileChange
  deriving DecidableEq

/-- Go `http.Error(w, message, code)`, leaving the filesystem as it is. -/
def httpError (fs : FS) (message : String) (code : Nat) : Outcome :=
  { response := { status := code, body := Body.text message }, fs := fs, broadcast := [] }

/-- The multipart form of an upload request: whether it parses, the `file`
part (its file name and bytes) and the `relativePath` value. -/
structure UploadForm where
  parses : Bool
  file : Option (Str × List Byte)
  relativePath : Str

/-- `handleFileUpload` (the error text appended to the message of a failed
`MkdirAll` is left out). -/
def handleFileUpload (basePath : Str) (fs : FS) (username : Str) (form : UploadForm) : Outcome :=
  if !form.parses then httpError fs "Failed to parse form" 400
  else
    match form.file with
    | none => httpError fs "Failed to get file from form" 400
    | some (filename, content) =>
      let relativePath := if form.relativePath = [] then filename else form.relativePath
      if !isPathSafe relativePath then httpError fs "Invalid path" 400
      else
        let userBasePath := filepath.Join [basePath, username]
        let targetPath := filepath.Join [userBasePath, relativePath]
        let dirPath := filepath.Dir targetPath
        match fs.MkdirAll dirPath with
        | .error _ => httpError fs "Failed to create directories" 500
        | .ok fs1 =>
          match fs1.WriteFile targetPath content with
          | .error _ => httpError fs1 "Failed to create file" 500
          | .ok fs2 => { response := { status := 200, body := Body.empty }, fs := fs2, broadcast := [] }

/-- `handleFileDownload`. -/
def handleFileDownload (basePath : Str) (fs : FS) (username : Str) (relativePath : Str) :
    Outcome :=
  if !isPathSafe relativePath then httpError fs "Invalid path" 400
  else
    let userBasePath := filepath.Join [basePath, username]
    let filePath := filepath.Join [userBasePath, relativePath]
    match fs.Stat filePath with
    | .error e =>
      if e.IsNotExist then httpError fs "File not found" 404
      else httpError fs "Failed to access file" 500
    | .ok info =>
      if info.isDir then httpError fs "Cannot download directories" 400
      else
        match fs.ReadFile filePath with
        | .error _ => httpError fs "Failed to open file" 500
        | .ok content =>
          { response := { status := 200, body := Body.bytes content }, fs := fs, broadcast := [] }

/-- `handleFileDelete`.  The notification is deferred: it is sent when the
handler returns, on every path, once the metadata could be read. -/
def handleFileDelete (basePath : Str) (fs : FS) (username : Str) (relativePath : Str) :
    Outcome :=
  let userBasePath := filepath.Join [basePath, username]
  let filePath := filepath.Join [userBasePath, relativePath]
  let deferred : List FileChange :=
    match NewFileMetadata fs userBasePath relativePath with
    | .ok metadata => [{ type := "delete", file := metadata }]
    | .error _ => []
  match fs.Remove filePath with
  | .error _ =>
    { response := { status := 500, body := Body.text "Failed to delete file" }, fs := fs,
      broadcast := deferred }
  | .ok fs1 => { response := { status := 200, body := Body.empty }, fs := fs1, broadcast := deferred }

/-- `handleDirectoryCreate`; `form` is the `path` value of the form, or
`none` when the form does not parse. -/
def handleDirectoryCreate (basePath : Str) (fs : FS) (username : Str) (form : Option Str) :
    Outcome :=
  match form with
  | none => httpError fs "Failed to parse form" 400
  | some relativePath =>
    if relativePath = [] then httpError fs "Path is required" 400
    else if !isPathSafe relativePath then httpError fs "Invalid path" 400
    else
      let userBasePath := filepath.Join [basePath, username]
      let fullPath := filepath.Join [userBasePath, relativePath]
      match fs.MkdirAll fullPath with
      | .error _ => httpError fs "Failed to create directory" 500
      | .ok fs1 =>
        match NewFileMetadata fs1 userBasePath relativePath with
        | .error _ => httpError fs1 "Failed to get directory metadata" 500
        | .ok metadata =>
          { response := { status := 200, body := Body.metadata metadata }, fs := fs1,
            broadcast := [] }

/-- `handleFileSave`; `body` is the request body, or `none` when reading it
fails. -/
def handleFileSave (basePath : Str) (fs : FS) (username : Str) (relativePath : Str)
    (body : Option (List Byte)) : Outcome :=
  if !isPathSafe relativePath then httpError fs "Invalid path" 400
  else if username = [] then httpError fs "Unauthorized" 401
  else
    let userBasePath := filepath.Join [basePath, username]
    let filePath := filepath.Join [userBasePath, relativePath]
    let dirPath := filepath.Dir filePath
    match fs.MkdirAll dirPath with
    | .error _ => httpError fs "Failed to create directory" 500
    | .ok fs1 =>
      match body with
      | none => httpError fs1 "Failed to read request body" 500
      | some content =>
        match fs1.WriteFile filePath content with
        | .error _ => httpError fs1 "Failed to write file" 500
        | .ok fs2 =>
          let sent : List FileChange :=
            match NewFileMetadata fs2 userBasePath relativePath with
            | .error _ => []
            | .ok metadata => [{ type := "update", file := metadata }]
          { response := { status := 200, body := Body.empty }, fs := fs2, broadcast := sent }

/-! ## `internal/api/handlers/files.go`: the handlers in front of the store -/

/-- Go `strings.TrimPrefix(s, p)`. -/
def strings.TrimPrefix (s p : Str) : Str :=
  if strings.HasPrefix s p then s.drop p.length else s

/-- Go `strings.TrimSuffix(s, p)`. -/
def strings.TrimSuffix (s p : Str) : Str :=
  if p.reverse.isPrefixOf s.reverse then s.take (s.length - p.length) else s

/-- What a handler of `files.go` writes: an error response
(`RespondWithError`: status code, error type and message), or a JSON or raw
payload with its status code. -/
inductive ApiResponse where
  | error (code : Nat) (errorType message : String)
  | info (code : Nat) (payload : FileInfo)
  | content (payload : List Byte)
  | infos (code : Nat) (payload : List FileInfo)
  | message (code : Nat) (text : String)
  deriving DecidableEq, Repr

/-- The `FileHandler` struct. -/
structure FileHandler where
  storage : Storage

namespace FileHandler

/-- `FileHandler.HandleUpload`; `userID` is the identity found in the request
context, `urlPath` the request path and `body` the request body (`none`
when reading it fails). -/
def HandleUpload (h : FileHandler) (fs : FS) (userID : Option Int) (urlPath : Str)
    (body : Option (List Byte)) : ApiResponse × FS :=
  match userID with
  | none => (ApiResponse.error 401 "unauthorized" "User not authenticated", fs)
  | some userID =>
    let filePath := strings.TrimPrefix urlPath "/api/files/".toList
    if filePath = [] then (ApiResponse.error 400 "invalid_request" "File path is required", fs)
    else
      match body with
      | none => (ApiResponse.error 500 "internal_server_error" "Failed to read request body", fs)
      | some content =>
        match h.storage.Store fs userID filePath content with
        | (.error _, fs1) =>
          (ApiResponse.error 500 "internal_server_error" "Failed to store file", fs1)
        | (.ok info, fs1) => (ApiResponse.info 200 info, fs1)

/-- `FileHandler.HandleDownload` (the content type header is not modelled). -/
def HandleDownload (h : FileHandler) (fs : FS) (userID : Option Int) (urlPath : Str) :
    ApiResponse × FS :=
  match userID with
  | none => (ApiResponse.error 401 "unauthorized" "User not authenticated", fs)
  | some userID =>
    let filePath := strings.TrimPrefix urlPath "/api/files/".toList
    if filePath = [] then (ApiResponse.error 400 "invalid_request" "File path is required", fs)
    else
      match h.storage.Get fs userID filePath with
      | .error _ => (ApiResponse.error 404 "not_found" "File not found", fs)
      | .ok content => (ApiResponse.content content, fs)

/-- `FileHandler.HandleDelete`. -/
def HandleDelete (h : FileHandler) (fs : FS) (userID : Option Int) (urlPath : Str) :
    ApiResponse × FS :=
  match userID with
  | none => (ApiResponse.error 401 "unauthorized" "User not authenticated", fs)
  | some userID =>
    let filePath := strings.TrimPrefix urlPath "/api/files/".toList
    if filePath = [] then (ApiResponse.error 400 "invalid_request" "File path is required", fs)
    else
      match h.storage.Delete fs userID filePath with
      | (.error _, fs1) => (ApiResponse.error 404 "not_found" "File not found", fs1)
      | (.ok _, fs1) => (ApiResponse.message 200 "File deleted successfully", fs1)

/-- `FileHandler.HandleInfo`. -/
def HandleInfo (h : FileHandler) (fs : FS) (userID : Option Int) (urlPath : Str) :
    ApiResponse × FS :=
  match userID with
  | none => (ApiResponse.error 401 "unauthorized" "User not authenticated", fs)
  | some userID =>
    let filePath := strings.TrimPrefix urlPath "/api/files/".toList
    let filePath := strings.TrimSuffix filePath "/info".toList
    if filePath = [] then (ApiResponse.error 400 "invalid_request" "File path is required", fs)
    else
      match h.storage.GetInfo fs userID filePath with
      | .error _ => (ApiResponse.error 404 "not_found" "File not found", fs)
      | .ok info => (ApiResponse.info 200 info, fs)

/-- `FileHandler.HandleList`. -/
def HandleList (h : FileHandler) (fs : FS) (userID : Option Int) (urlPath : Str) :
    ApiResponse × FS :=
  match userID with
  | none => (ApiResponse.error 401 "unauthorized" "User not authenticated", fs)
  | some userID =>
    let dirPath := strings.TrimPrefix urlPath "/api/files".toList
    let dirPath := if dirPath = [] then ['/'] else dirPath
    match h.storage.List fs userID dirPath with
    | .error _ => (ApiResponse.error 404 "not_found" "Directory not found", fs)
    | .ok files => (ApiResponse.infos 200 files, fs)

end FileHandler
/-! ## `main.go`: the file tree

Two library functions are taken as parameters, since their full behaviour
is not fixed by the code: `strings.ToLower` (Unicode case tables) and
`sort.Slice` (which promises a sorted permutation, not a stable one). -/

/-- The `TreeNode` struct, with its children as values. -/
inductive TreeNode where
  | mk (Name : Str) (Path : Str) (Icon : String) (IsDir : Bool) (Children : List TreeNode)

namespace TreeNode

def Name : TreeNode → Str
  | mk name _ _ _ _ => name

def Path : TreeNode → Str
  | mk _ path _ _ _ => path

def Icon : TreeNode → String
  | mk _ _ icon _ _ => icon

def IsDir : TreeNode → Bool
  | mk _ _ _ isDir _ => isDir

def Children : TreeNode → List TreeNode
  | mk _ _ _ _ children => children

end TreeNode

/-- The library functions the tree builder relies on. -/
structure Runtime where
  /-- Go `strings.ToLower`. -/
  ToLower : Str → Str
  /-- Go `sort.Slice`, given the comparison and the slice. -/
  sortSlice : (TreeNode → TreeNode → Bool) → List TreeNode → List TreeNode

/-- A comparison is a strict weak ordering, as `sort.Slice` requires. -/
def StrictWeakOrder (less : TreeNode → TreeNode → Bool) : Prop :=
  (∀ a b, less a b = true → less b a = false) ∧
  (∀ a b c, less a b = false → less b c = false → less a c = false)

/-- The contract of `sort.Slice`: for a strict weak ordering the result is a
permutation of the slice in which no element is less than an earlier one. -/
def Runtime.SortsCorrectly (rt : Runtime) : Prop :=
  ∀ less, StrictWeakOrder less → ∀ nodes,
    (rt.sortSlice less nodes).Perm nodes ∧
    (rt.sortSlice less nodes).Pairwise (fun a b => less b a = false)

/-- Insertion of a node into a sorted list, before the first node that is
not less than it. -/
def insertNode (less : TreeNode → TreeNode → Bool) (x : TreeNode) : List TreeNode → List TreeNode
  | [] => [x]
  | y :: rest => if less y x then y :: insertNode less x rest else x :: y :: rest

/-- Stable insertion sort: what `sort.Slice` runs on a slice of at most
twelve elements (`insertionSortLessFunc`). -/
def insertionSort (less : TreeNode → TreeNode → Bool) : List TreeNode → List TreeNode
  | [] => []
  | x :: rest => insertNode less x (insertionSort less rest)

/-- The library functions as they behave on ASCII names and on slices of at
most twelve nodes. -/
def goRuntime : Runtime where
  ToLower := fun s => s.map Char.toLower
  sortSlice := insertionSort

/-- `getFileIcon`. -/
def getFileIcon (rt : Runtime) (name : Str) (isDir : Bool) : String :=
  if isDir then "📁"
  else
    let ext := rt.ToLower (filepath.Ext name)
    if ext = ".txt".toList ∨ ext = ".md".toList then "📄"
    else if ext = ".pdf".toList then "📕"
    else if ext = ".jpg".toList ∨ ext = ".jpeg".toList ∨ ext = ".png".toList ∨
        ext = ".gif".toList then "🖼️"
    else if ext = ".mp3".toList ∨ ext = ".wav".toList ∨ ext = ".ogg".toList then "🎵"
    else if ext = ".mp4".toList ∨ ext = ".mov".toList ∨ ext = ".avi".toList then "🎬"
    else "📄"

/-- The comparison that `sortNodes` passes to `sort.Slice`: directories come
before files, and within a kind the lower-cased names are compared. -/
def sortLess (rt : Runtime) (a b : TreeNode) : Bool :=
  if a.IsDir ≠ b.IsDir then a.IsDir
  else decide (rt.ToLower a.Name < rt.ToLower b.Name)

mutual
/-- A node with its children sorted by `sortNodes`. -/
def sortNode (rt : Runtime) : TreeNode → TreeNode
  | TreeNode.mk name path icon isDir children =>
    TreeNode.mk name path icon isDir (rt.sortSlice (sortLess rt) (sortChildren rt children))
/-- The nodes of a list, each with its children sorted by `sortNodes`. -/
def sortChildren (rt : Runtime) : List TreeNode → List TreeNode
  | [] => []
  | node :: rest => sortNode rt node :: sortChildren rt rest
end

/-- `sortNodes`: the list is sorted and so are, recursively, the children of
its nodes.  (The comparison reads only `Name` and `IsDir`, so the two
commute; the children are sorted first here.) -/
def sortNodes (rt : Runtime) (nodes : List TreeNode) : List TreeNode :=
  rt.sortSlice (sortLess rt) (sortChildren rt nodes)

/-- A `TreeNode` in the map of `buildFileTree`; the map holds pointers, so a
child is named by its key in the map. -/
structure NodeCell where
  Name : Str
  Path : Str
  Icon : String
  IsDir : Bool
  Children : List Str
  deriving DecidableEq, Inhabited

/-- The variables of the loops of `buildFileTree`: the map (in order of
creation), `currentPath` and `currentNode` (by its key). -/
structure BuildState where
  root : List (Str × NodeCell)
  currentPath : Str
  currentNode : Option Str

/-- The map entry `root[key]`. -/
def findCell (root : List (Str × NodeCell)) (key : Str) : Option NodeCell :=
  (root.find? (fun e => decide (e.1 = key))).map (fun e => e.2)

/-- The map after `child` is appended to the children of the node `parent`. -/
def appendChild (root : List (Str × NodeCell)) (parent child : Str) : List (Str × NodeCell) :=
  root.map (fun e =>
    if e.1 = parent then (e.1, { e.2 with Children := e.2.Children ++ [child] }) else e)

/-- The body of the inner loop of `buildFileTree`, for the part `part` at
index `i` of the `nparts` parts of the path of `file`. -/
def addPart (rt : Runtime) (file : FileMetadata) (nparts : Nat) (st : BuildState)
    (ip : Nat × Str) : BuildState :=
  if ip.2 = [] then st
  else
    let currentPath :=
      if st.currentPath ≠ [] then filepath.Join [st.currentPath, ip.2] else ip.2
    match findCell st.root currentPath with
    | some _ => { st with currentPath := currentPath, currentNode := some currentPath }
    | none =>
      let isDir := decide (ip.1 < nparts - 1) || file.IsDir
      let node : NodeCell :=
        { Name := ip.2, Path := currentPath, Icon := getFileIcon rt ip.2 isDir, IsDir := isDir,
          Children := [] }
      let root1 := st.root ++ [(currentPath, node)]
      let root2 :=
        match st.currentNode with
        | some parent => appendChild root1 parent currentPath
        | none => root1
      { root := root2, currentPath := currentPath, currentNode := some currentPath }

/-- The body of the outer loop of `buildFileTree`: the map after `file`. -/
def addFile (rt : Runtime) (root : List (Str × NodeCell)) (file : FileMetadata) :
    List (Str × NodeCell) :=
  let parts := strings.Split file.Path filepath.Separator
  (parts.enum.foldl (addPart rt file parts.length)
    { root := root, currentPath := [], currentNode := none }).root

/-- The nodes of the map as values: each node with the values of its
children.  A child is created after its parent, so the nodes are turned
into values from the last created to the first. -/
def materialize : List (Str × NodeCell) → List (Str × TreeNode)
  | [] => []
  | (key, cell) :: rest =>
    let later := materialize rest
    (key, TreeNode.mk cell.Name cell.Path cell.Icon cell.IsDir
      (cell.Children.filterMap (fun child =>
        (later.find? (fun e => decide (e.1 = child))).map (fun e => e.2)))) :: later

/-- `buildFileTree`.  (Go ranges over the map in no fixed order; the nodes
are taken here in order of creation.  The list is sorted right after.) -/
def buildFileTree (rt : Runtime) (files : List FileMetadata) : List TreeNode :=
  let root := files.foldl (addFile rt) []
  let result := ((materialize root).map (fun e => e.2)).filter
    (fun node => !strings.Contains node.Path [filepath.Separator])
  sortNodes rt result

/-! ## Predicates on trees -/

/-- Siblings are in order: no file comes before a directory, and within a
kind the lower-cased names do not decrease. -/
def SiblingsOrdered (rt : Runtime) (nodes : List TreeNode) : Prop :=
  nodes.Pairwise (fun a b =>
    (a.IsDir = false → b.IsDir = false) ∧
    (a.IsDir = b.IsDir → rt.ToLower a.Name ≤ rt.ToLower b.Name))

mutual
/-- The children list of the node, and of every node below it, satisfies `P`. -/
def TreeNode.EveryLevel (P : List TreeNode → Prop) : TreeNode → Prop
  | TreeNode.mk _ _ _ _ children => P children ∧ EveryLevelOf P children
/-- Every node of the list satisfies `TreeNode.EveryLevel P`. -/
def EveryLevelOf (P : List TreeNode → Prop) : List TreeNode → Prop
  | [] => True
  | node :: rest => node.EveryLevel P ∧ EveryLevelOf P rest
end

/-- The names of the nodes of a list. -/
def nodeNames (nodes : List TreeNode) : List Str := nodes.map TreeNode.Name

/-- The names of the children of the nodes of a list. -/
def childNamesOf (nodes : List TreeNode) : List (List Str) :=
  nodes.map (fun node => nodeNames node.Children)
/-! ## The nodes a list of files asks for

One pass of the inner loop of `buildFileTree` asks for one node: it computes
the cumulative path and, when the map has no node under it yet, creates the
node and appends it to the children of the node of the previous pass. -/

/-- What a pass of the inner loop asks for: the key of the node of the
previous pass (`currentNode`), the cumulative path (`currentPath`), the part
and the kind a new node would get. -/
structure Step where
  parent : Option Str
  key : Str
  name : Str
  isDir : Bool
  deriving DecidableEq

/-- The passes of the inner loop over the parts `(index, part)` of the path
of `file`, from the loop variables `currentPath` and `currentNode`. -/
def stepsFrom (file : FileMetadata) (nparts : Nat) :
    Str → Option Str → List (Nat × Str) → List Step
  | _, _, [] => []
  | currentPath, currentNode, ip :: rest =>
    if ip.2 = [] then stepsFrom file nparts currentPath currentNode rest
    else
      let key := if currentPath ≠ [] then filepath.Join [currentPath, ip.2] else ip.2
      { parent := currentNode, key := key, name := ip.2,
        isDir := decide (ip.1 < nparts - 1) || file.IsDir } ::
        stepsFrom file nparts key (some key) rest

/-- The passes of the inner loop for one file. -/
def fileSteps (file : FileMetadata) : List Step :=
  stepsFrom file (strings.Split file.Path filepath.Separator).length [] none
    (strings.Split file.Path filepath.Separator).enum

/-- The passes of the inner loop for a list of files, in order. -/
def treeSteps (files : List FileMetadata) : List Step := files.flatMap fileSteps

/-- The effect of one pass on the map. -/
def ensureNode (rt : Runtime) (root : List (Str × NodeCell)) (e : Step) :
    List (Str × NodeCell) :=
  match findCell root e.key with
  | some _ => root
  | none =>
    let node : NodeCell :=
      { Name := e.name, Path := e.key, Icon := getFileIcon rt e.name e.isDir, IsDir := e.isDir,
        Children := [] }
    match e.parent with
    | some parent => appendChild (root ++ [(e.key, node)]) parent e.key
    | none => root ++ [(e.key, node)]

/-- Every cumulative path is asked for with one parent, one name and one
kind. -/
def Coherent (steps : List Step) : Prop :=
  ∀ e ∈ steps, ∀ e2 ∈ steps, e.key = e2.key → e = e2

/-- A cumulative path without separator: its node is returned at top level. -/
def isTopLevel (key : Str) : Bool := !strings.Contains key [filepath.Separator]

/-- No two nodes that end up as siblings (under one parent, or both at top
level) agree in kind and in lower-cased name unless they are the same
node. -/
def TieFree (rt : Runtime) (steps : List Step) : Prop :=
  ∀ e ∈ steps, ∀ e2 ∈ steps,
    (e.parent = e2.parent ∨ (isTopLevel e.key = true ∧ isTopLevel e2.key = true)) →
    e.isDir = e2.isDir → rt.ToLower e.name = rt.ToLower e2.name → e.key = e2.key

/-! ## Invariants of the map -/

/-- The keys of the map, in order of creation. -/
def keysOf (root : List (Str × NodeCell)) : List Str := root.map (fun e => e.1)

/-- The children of every node are keys of nodes created after it. -/
def ChildrenLater : List (Str × NodeCell) → Prop
  | [] => True
  | e :: rest => (∀ x ∈ e.2.Children, x ∈ keysOf rest) ∧ ChildrenLater rest

/-- Every pass names as parent a key that an earlier pass (or `seen`) has
asked for. -/
def ParentsFirst : List Str → List Step → Prop
  | _, [] => True
  | seen, e :: rest => (∀ p, e.parent = some p → p ∈ seen) ∧ ParentsFirst (e.key :: seen) rest

/-- The map after the node `child` is linked to its parent, if it has one. -/
def linkChild (root : List (Str × NodeCell)) (parent : Option Str) (child : Str) :
    List (Str × NodeCell) :=
  root.map (fun e =>
    if parent = some e.1 then (e.1, { e.2 with Children := e.2.Children ++ [child] }) else e)

/-- The node a pass creates. -/
def Step.cell (rt : Runtime) (e : Step) : NodeCell :=
  { Name := e.name, Path := e.key, Icon := getFileIcon rt e.name e.isDir, IsDir := e.isDir,
    Children := [] }

/-- What holds of the map `root` after the passes `done`. -/
structure RootInv (rt : Runtime) (done : List Step) (root : List (Str × NodeCell)) : Prop where
  nodup : (keysOf root).Nodup
  keys : ∀ k, k ∈ keysOf root ↔ ∃ e ∈ done, e.key = k
  cells : ∀ k c, (k, c) ∈ root →
    ∃ e ∈ done, e.key = k ∧ c.Name = e.name ∧ c.Path = e.key ∧ c.IsDir = e.isDir ∧
      c.Icon = getFileIcon rt e.name e.isDir
  childNodup : ∀ k c, (k, c) ∈ root → c.Children.Nodup
  children : ∀ k c, (k, c) ∈ root →
    ∀ x, x ∈ c.Children ↔ ∃ e ∈ done, e.key = x ∧ e.parent = some k
  parents : ∀ e ∈ done, ∀ p, e.parent = some p → p ∈ keysOf root
  later : ChildrenLater root

/-- The value of the node under `key`, when the map has one. -/
def treeOf (root : List (Str × NodeCell)) (key : Str) : Option TreeNode :=
  ((materialize root).find? (fun e => decide (e.1 = key))).map (fun e => e.2)

/-- The value of the node under `key`, with the children sorted at every level. -/
def sortedTreeOf (rt : Runtime) (root : List (Str × NodeCell)) (key : Str) : Option TreeNode :=
  (treeOf root key).map (sortNode rt)

/-! ## Well-formed inputs of the tree builder -/

/-- Every path of the input is a clean relative path: none of its parts is
empty, `.` or `..` (as for the paths that `filepath.Rel` gives the
directory walk). -/
def CleanPaths (files : List FileMetadata) : Prop :=
  ∀ f ∈ files, ∀ part ∈ strings.Split f.Path filepath.Separator,
    part ≠ [] ∧ part ≠ ['.'] ∧ part ≠ ['.', '.']

/-- The kinds of the input are consistent: two entries with the same path
have the same kind, and an entry whose path is a proper ancestor of the path
of another entry is a directory. -/
def KindsConsistent (files : List FileMetadata) : Prop :=
  ∀ f ∈ files, ∀ g ∈ files,
    (f.Path = g.Path → f.IsDir = g.IsDir) ∧
    (f.Path ++ [filepath.Separator] <+: g.Path → f.IsDir = true)
/-! ## Concrete inputs -/

/-- Bytes of an ASCII text. -/
def bytesOf (text : String) : List Byte := text.toList.map (fun c => Fin.ofNat c.toNat)

/-- A filesystem with the storage root `/data`, the directories of the users
`alice`, `bob`, `1` and `2`, and a few files. -/
def exampleFS : FS where
  cwd := []
  dirSize := 4096
  nodes :=
    [(["data".toList], Node.dir),
     (["data".toList, "alice".toList], Node.dir),
     (["data".toList, "alice".toList, "notes..bak".toList], Node.file (bytesOf "old")),
     (["data".toList, "bob".toList], Node.dir),
     (["data".toList, "bob".toList, "x".toList], Node.file (bytesOf "secret")),
     (["data".toList, "1".toList], Node.dir),
     (["data".toList, "2".toList], Node.dir)]
  noRead := []

/-- A filesystem with the storage root `/data` and the directories of the
users `1` and `2`.  User `1` has the file `b.txt` and the directory `docs`
with the file `a.txt` and the file `secret.txt`, which the process may not
read, and the directory `vault`, which the process may not read, with the
file `k.txt`.  User `2` has the file `x` and the directory `dir` with the
file `y`. -/
def usersFS : FS where
  cwd := []
  dirSize := 4096
  nodes :=
    [(["data".toList], Node.dir),
     (["data".toList, "1".toList], Node.dir),
     (["data".toList, "1".toList, "b.txt".toList], Node.file (bytesOf "b")),
     (["data".toList, "1".toList, "docs".toList], Node.dir),
     (["data".toList, "1".toList, "docs".toList, "a.txt".toList], Node.file (bytesOf "a")),
     (["data".toList, "1".toList, "docs".toList, "secret.txt".toList],
        Node.file (bytesOf "s")),
     (["data".toList, "1".toList, "vault".toList], Node.dir),
     (["data".toList, "1".toList, "vault".toList, "k.txt".toList], Node.file (bytesOf "k")),
     (["data".toList, "2".toList], Node.dir),
     (["data".toList, "2".toList, "x".toList], Node.file (bytesOf "two")),
     (["data".toList, "2".toList, "dir".toList], Node.dir),
     (["data".toList, "2".toList, "dir".toList, "y".toList], Node.file (bytesOf "why"))]
  noRead :=
    [["data".toList, "1".toList, "docs".toList, "secret.txt".toList],
     ["data".toList, "1".toList, "vault".toList]]

/-- A store rooted at `/data`. -/
def exampleStorage : Storage := { basePath := "/data".toList }

/-- A file entry with the given path. -/
def fileEntry (path : String) : FileMetadata :=
  { Name := filepath.Base path.toList, Path := path.toList, Size := 0, IsDir := false, Hash := [] }

/-- A directory entry with the given path. -/
def dirEntry (path : String) : FileMetadata :=
  { Name := filepath.Base path.toList, Path := path.toList, Size := 4096, IsDir := true,
    Hash := [] }
/-! ## `main.go`: the change notifier

The dispatcher `FileChangeNotifier.run` is the only goroutine that touches
the map `clients`; it handles one event of its three channels at a time.  A
state of the notifier is the map together with the channels that have left
the map (the goroutine of their connection still holds them).  A channel
belongs to one map entry only: `register` makes a fresh one. -/

/-- A connection (`*websocket.Conn`), by its identity. -/
abbrev Conn := Nat

/-- The capacity of the channel that `register` makes. -/
def queueCapacity : Nat := 10

/-- A `chan FileChange` of capacity `queueCapacity`: the pending events,
oldest first, and whether the channel has been closed. -/
structure Queue where
  pending : List FileChange
  closed : Bool
  deriving DecidableEq

/-- The run-time panics of channel operations. -/
inductive Panic where
  | sendOnClosedChannel
  | closeOfClosedChannel
  deriving DecidableEq, Repr

/-- The state of the notifier: the map `clients` (as a list of its entries)
and the channels that are no longer in the map. -/
structure FileChangeNotifier where
  clients : List (Conn × Queue)
  detached : List (Conn × Queue)
  deriving DecidableEq

/-- The events that the dispatcher receives. -/
inductive NotifierEvent where
  | register (client : Conn)
  | unregister (client : Conn)
  | broadcast (change : FileChange)

namespace FileChangeNotifier

/-- The notifier at start: an empty map. -/
def empty : FileChangeNotifier := { clients := [], detached := [] }

/-- The map entry `clients[client]`. -/
def channelOf (n : FileChangeNotifier) (client : Conn) : Option Queue :=
  (n.clients.find? (fun e => decide (e.1 = client))).map (fun e => e.2)

/-- The case `client := <-n.register`: the map entry of the client is set to
a new channel (a channel it replaces stays as it is, outside the map). -/
def register (n : FileChangeNotifier) (client : Conn) : FileChangeNotifier :=
  { clients := n.clients.filter (fun e => decide (e.1 ≠ client)) ++
      [(client, { pending := [], closed := false })]
    detached := n.detached ++ n.clients.filter (fun e => decide (e.1 = client)) }

/-- The case `client := <-n.unregister`: when the map has the client, its
channel is closed and the entry deleted. -/
def unregister (n : FileChangeNotifier) (client : Conn) : Except Panic FileChangeNotifier :=
  match n.channelOf client with
  | none => .ok n
  | some ch =>
    if ch.closed then .error Panic.closeOfClosedChannel
    else
      .ok { clients := n.clients.filter (fun e => decide (e.1 ≠ client))
            detached := n.detached ++ [(client, { ch with closed := true })] }

/-- The loop of the case `change := <-n.broadcast` over the map entries: the
entries that stay in the map and the entries deleted from it.  The `select`
sends when the channel has room and otherwise closes the channel and
deletes the entry; a send on a closed channel panics. -/
def broadcastLoop (change : FileChange) :
    List (Conn × Queue) → Except Panic (List (Conn × Queue) × List (Conn × Queue))
  | [] => .ok ([], [])
  | (client, ch) :: rest =>
    if ch.closed then .error Panic.sendOnClosedChannel
    else
      match broadcastLoop change rest with
      | .error p => .error p
      | .ok (kept, dropped) =>
        if ch.pending.length < queueCapacity then
          .ok ((client, { ch with pending := ch.pending ++ [change] }) :: kept, dropped)
        else .ok (kept, (client, { ch with closed := true }) :: dropped)

/-- The case `change := <-n.broadcast`. -/
def broadcast (n : FileChangeNotifier) (change : FileChange) : Except Panic FileChangeNotifier :=
  match broadcastLoop change n.clients with
  | .error p => .error p
  | .ok (kept, dropped) => .ok { clients := kept, detached := n.detached ++ dropped }

/-- One iteration of the loop of `run`. -/
def step (n : FileChangeNotifier) : NotifierEvent → Except Panic FileChangeNotifier
  | NotifierEvent.register client => .ok (n.register client)
  | NotifierEvent.unregister client => n.unregister client
  | NotifierEvent.broadcast change => n.broadcast change

/-- The loop of `run` over a sequence of events. -/
def run (n : FileChangeNotifier) : List NotifierEvent → Except Panic FileChangeNotifier
  | [] => .ok n
  | event :: rest =>
    match n.step event with
    | .error p => .error p
    | .ok n1 => run n1 rest

/-- The states in which the dispatcher leaves the map: one entry for each
client, and every channel in the map open. -/
def WellFormed (n : FileChangeNotifier) : Prop :=
  (n.clients.map (fun e => e.1)).Nodup ∧ ∀ e ∈ n.clients, e.2.closed = false

end FileChangeNotifier

/-- A change event. -/
def exampleChange : FileChange :=
  { type := "update"
    file := { Name := "a.txt".toList, Path := "a.txt".toList, Size := 3, IsDir := false, Hash := [] } }

/-- A channel that holds ten pending events. -/
def fullQueue : Queue := { pending := List.replicate 10 exampleChange, closed := false }

/-- A state of the notifier with three clients; the channel of client 2 is
full. -/
def exampleNotifier : FileChangeNotifier :=
  { clients := [(1, { pending := [], closed := false }), (2, fullQueue),
      (3, { pending := [exampleChange], closed := false })]
    detached := [] }
/-! ## `main.go`: `handleFileList` and the directory walk -/

/-- The length of the longest key of the table: no entry lies deeper. -/
def FS.depth (fs : FS) : Nat := (fs.nodes.map (fun e => e.1.length)).foldr max 0

/-- The recursion `walk` of Go `filepath.Walk`: the entries visited from the
entry at `key` on, in the order of the visits (an entry, then for a directory
its children by name, each with what lies below it).  Every entry is given by
its components below the root of the walk, `rel`, and comes with the error
that `walk` passes to the function: a directory that cannot be read is
visited once, with the error of reading it, and not entered.  `fuel` bounds
the depth of the descent. -/
def FS.walkBelow (fs : FS) : Nat → List Str → List Str → List (List Str × Option Errno)
  | 0, _, _ => []
  | fuel + 1, key, rel =>
    match fs.get key with
    | some Node.dir =>
      if key ∈ fs.noRead then [(rel, some Errno.EACCES)]
      else
        (rel, none) ::
          ((fs.childNames key).insertionSort (fun a b => a ≤ b)).flatMap
            (fun name => fs.walkBelow fuel (key ++ [name]) (rel ++ [name]))
    | _ => [(rel, none)]

/-- The entries that Go `filepath.Walk(root, fn)` passes to `fn`, in order,
when no call of `fn` returns an error.  The root has passed `os.Stat`. -/
def FS.Walk (fs : FS) (rootKey : List Str) : List (List Str × Option Errno) :=
  fs.walkBelow (fs.depth + 1) rootKey []

/-- Go `filepath.Rel(root, path)` for a path that `filepath.Walk` made from
`root`: `.` for the root itself, otherwise the components below the root,
joined by the separator. -/
def walkRel (rel : List Str) : Str :=
  if rel = [] then ['.'] else strings.Join rel [filepath.Separator]

/-- The function that `handleFileList` passes to `filepath.Walk`, at the
entry `rel` with the error `err` of the walk: an error of the walk is
returned; otherwise the result is the files collected so far with the
metadata of the entry appended, unless the entry is skipped. -/
def listVisit (fs : FS) (userBasePath : Str) (files : List FileMetadata) (rel : List Str)
    (err : Option Errno) : Except Errno (List FileMetadata) :=
  match err with
  | some e => .error e
  | none =>
    let relativePath := walkRel rel
    if relativePath = ['.'] ||
        strings.HasPrefix relativePath ['.'] ||
        strings.Contains relativePath "/.versions/".toList ||
        strings.Contains relativePath "\\.versions\\".toList then
      .ok files
    else
      match NewFileMetadata fs userBasePath relativePath with
      | .error e => .error e
      | .ok metadata => .ok (files ++ [metadata])

/-- The walk of `handleFileList` over the visited entries: an error of the
function ends it. -/
def listWalk (fs : FS) (userBasePath : Str) :
    List (List Str × Option Errno) → List FileMetadata → Except Errno (List FileMetadata)
  | [], files => .ok files
  | visit :: rest, files =>
    match listVisit fs userBasePath files visit.1 visit.2 with
    | .error e => .error e
    | .ok files1 => listWalk fs userBasePath rest files1

/-- The grouping of the files by directory for the desktop client, one group
for each directory in the order of its first file. -/
def groupByDir (files : List FileMetadata) : List (Str × List FileMetadata) :=
  match files with
  | [] => []
  | file :: rest =>
    let dirOf : FileMetadata → Str := fun f =>
      if filepath.Dir f.Path = ['.'] then [] else filepath.Dir f.Path
    (dirOf file, file :: rest.filter (fun f => decide (dirOf f = dirOf file))) ::
      groupByDir (rest.filter (fun f => decide (dirOf f ≠ dirOf file)))
termination_by files.length
decreasing_by
  simp only [List.length_cons]
  exact Nat.lt_succ_of_le (List.length_filter_le _ _)

/-- The body of the response of `handleFileList`. -/
inductive ListBody where
  | text (message : String)
  | walkError (cause : Errno)
  | files (files : List FileMetadata)
  | byDirectory (groups : List (Str × List FileMetadata))

/-- The outcome of `handleFileList`. -/
structure ListOutcome where
  status : Nat
  body : ListBody
  fs : FS

/-- `handleFileList`; `username` is the user name of the request context, if
any, and `client` the value of the header `X-Client`. -/
def handleFileList (basePath : Str) (fs : FS) (username : Option Str) (client : Str) :
    ListOutcome :=
  match username with
  | none => { status := 401, body := ListBody.text "Unauthorized", fs := fs }
  | some username =>
    let userBasePath := filepath.Join [basePath, username]
    match fs.Stat userBasePath with
    | .error e =>
      if e.IsNotExist then
        match fs.MkdirAll userBasePath with
        | .error _ => { status := 500, body := ListBody.text "Failed to create directory", fs := fs }
        | .ok fs1 =>
          if client = "web".toList then { status := 200, body := ListBody.files [], fs := fs1 }
          else { status := 200, body := ListBody.byDirectory [], fs := fs1 }
      else { status := 500, body := ListBody.text "Failed to access file storage", fs := fs }
    | .ok _ =>
      match fs.resolve userBasePath with
      | .error e => { status := 500, body := ListBody.walkError e, fs := fs }
      | .ok rootKey =>
        match listWalk fs userBasePath (fs.Walk rootKey) [] with
        | .error e => { status := 500, body := ListBody.walkError e, fs := fs }
        | .ok files =>
          if client = "web".toList then { status := 200, body := ListBody.files files, fs := fs }
          else { status := 200, body := ListBody.byDirectory (groupByDir files), fs := fs }

/-- A filesystem in which the tree of `alice` has a hidden file, a
`.versions` directory at the top and a `.versions` directory inside the
directory `docs`. -/
def walkFS : FS where
  cwd := []
  dirSize := 4096
  nodes :=
    [(["data".toList], Node.dir),
     (["data".toList, "alice".toList], Node.dir),
     (["data".toList, "alice".toList, "a.txt".toList], Node.file (bytesOf "hi")),
     (["data".toList, "alice".toList, ".hidden".toList], Node.file (bytesOf "h")),
     (["data".toList, "alice".toList, ".versions".toList], Node.dir),
     (["data".toList, "alice".toList, ".versions".toList, "a.txt.1".toList],
        Node.file (bytesOf "v")),
     (["data".toList, "alice".toList, "docs".toList], Node.dir),
     (["data".toList, "alice".toList, "docs".toList, ".versions".toList], Node.dir),
     (["data".toList, "alice".toList, "docs".toList, ".versions".toList, "b.txt.1".toList],
        Node.file (bytesOf "w"))]
  noRead := []

/-- The paths of a file list response. -/
def ListBody.paths : ListBody → List Str
  | ListBody.files listed => listed.map (fun f => f.Path)
  | ListBody.byDirectory groups => (groups.flatMap (fun g => g.2)).map (fun f => f.Path)
  | _ => []

/-- The example filesystem after user 1 has stored `b.txt` and
`docs/a.txt`. -/
def storedFS : FS :=
  (exampleStorage.Store (exampleStorage.Store exampleFS 1 "b.txt".toList (bytesOf "b")).2 1
    "docs/a.txt".toList (bytesOf "a")).2
/-! ## `pkg/protocol/sync.go` -/

/-- The bytes of a Go string (its UTF-8 encoding). -/
def utf8Bytes (s : Str) : List Byte :=
  s.flatMap (fun ch => (String.utf8EncodeChar ch).map (fun b => b.val))

namespace protocol

/-- The `FileMetadata` struct of the protocol (`LastModified` is not
modelled). -/
structure FileMetadata where
  Path : Str
  Size : Int
  Hash : Str
  IsDirectory : Bool
  deriving DecidableEq

/-- The `SyncState` struct; `LastSync` is a time stamp and `Files` the
entries of the map. -/
structure SyncState where
  LastSync : Nat
  Files : List (Str × FileMetadata)
  Conflicts : List Str
  deriving DecidableEq

/-- `ValidateHash`. -/
def ValidateHash (_content _hash : Str) : Bool := true

/-- `GenerateHash`. -/
def GenerateHash (_content : Str) : Str := []

/-- `ApplyDiff`: the result and the error, which is always `nil`. -/
def ApplyDiff (content _diff : Str) : Except Unit Str := .ok content

/-- `GenerateDiff`: the result and the error, which is always `nil`. -/
def GenerateDiff (_oldContent _newContent : Str) : Except Unit Str := .ok []

end protocol

/-! ## `internal/sync/websocket/handler.go` -/

namespace websocket

/-- The `Message` struct (`type` is its field `Type`); `Payload` is the JSON text of the payload, if the
message has one. -/
structure Message where
  type : String
  Payload : Option Str
  Error : String
  deriving DecidableEq

def TypeSync : String := "sync"
def TypeAck : String := "ack"
def TypeError : String := "error"
def TypePing : String := "ping"
def TypePong : String := "pong"

/-- The `switch` of `Connection.readPump` on a message that has been read
and decoded: the messages put on the channel `send` of the connection.
Nothing else is done for the message; the handler holds no sync state and
does not touch the store. -/
def readPumpReply (msg : Message) : List Message :=
  if msg.type = TypePing then [{ type := TypePong, Payload := none, Error := "" }]
  else if msg.type = TypeSync then [{ type := TypeAck, Payload := none, Error := "" }]
  else []

/-- The loop of `Connection.readPump` over the frames read from the socket,
up to the read error that ends it: the messages put on the channel `send`,
in order.  `none` is a frame that does not decode; it is skipped. -/
def readPump (frames : List (Option Message)) : List Message :=
  frames.flatMap (fun frame =>
    match frame with
    | none => []
    | some msg => readPumpReply msg)

end websocket

/-- A sync message of a client whose payload is a sync state with one path,
`a.txt`: the hash the client has for it differs from the hash of the content
`abc` that the store holds. -/
def conflictingSync : websocket.Message :=
  { type := "sync"
    Payload := some ("\x7b\"last_sync\":\"2024-01-01T00:00:00Z\",\"files\":\x7b\"a.txt\":" ++
      "\x7b\"path\":\"a.txt\",\"size\":3,\"hash\":" ++
      "\"2cf24dba5fb0a30e26e83b2ac5b9e29e1b161e5c1fa7425e73043362938b9824\"," ++
      "\"last_modified\":\"2024-01-02T00:00:00Z\",\"is_directory\":false\x7d\x7d\x7d").toList
    Error := "" }
/-! ## The validator as the specification words it -/

/-- The validator in the words of the specification: a path is safe when it
does not contain `..` and does not start with `/`. -/
def isPathSafeSpec (path : Str) : Bool :=
  !strings.Contains path ['.', '.'] && !strings.HasPrefix path ['/']
/-! ## `internal/sync/websocket/handler.go`: the connections of the handler -/

namespace websocket

/-- The capacity of the channel `send` that `HandleWebSocket` makes. -/
def sendCapacity : Nat := 256

/-- A `Connection`: the user id, the pending messages of its channel `send`,
oldest first, and whether the channel has been closed. -/
structure Connection where
  userID : Int
  send : List Message
  closed : Bool
  deriving DecidableEq

/-- The `Handler`: every connection made so far (a `*Connection` is the
index of its connection in this list) and the map `connections` from a user
id to a connection. -/
structure Handler where
  made : List Connection
  connections : List (Int × Nat)
  deriving DecidableEq

/-- How a call ends: it returns, it panics, or it waits for ever for the
lock `mu`. -/
inductive Ending where
  | returned (h : Handler)
  | panicked (cause : Panic)
  | blocked (h : Handler)

/-- `NewHandler`. -/
def NewHandler : Handler := { made := [], connections := [] }

namespace Handler

/-- `registerConnection`: `h.connections[c.userID] = c`. -/
def registerConnection (h : Handler) (c : Nat) (userID : Int) : Handler :=
  { h with connections :=
      h.connections.filter (fun e => decide (e.1 ≠ userID)) ++ [(userID, c)] }

/-- `HandleWebSocket` after the upgrade: a connection with an empty channel
is made and registered. -/
def HandleWebSocket (h : Handler) (userID : Int) : Handler :=
  registerConnection
    { h with made := h.made ++ [{ userID := userID, send := [], closed := false }] }
    h.made.length userID

/-- The endpoint `/ws` of `cmd/server/main.go`: every connection is handled
with the user id 0. -/
def wsEndpoint (h : Handler) : Handler := h.HandleWebSocket 0

/-- The connection `c`, with `f` applied to it. -/
def update (h : Handler) (c : Nat) (f : Connection → Connection) : Handler :=
  { h with made := h.made.enum.map (fun e => if e.1 = c then f e.2 else e.2) }

/-- The loop of `Broadcast` over the entries of the map.  The `select` sends
when the channel has room; otherwise it calls `unregisterConnection`, which
asks for the write lock `mu` while `Broadcast` holds the read lock, and so
never returns.  A send on a closed channel panics. -/
def broadcastLoop (message : Message) : Handler → List (Int × Nat) → Ending
  | h, [] => Ending.returned h
  | h, (_, c) :: rest =>
    match h.made.get? c with
    | none => Ending.panicked Panic.sendOnClosedChannel
    | some conn =>
      if conn.closed then Ending.panicked Panic.sendOnClosedChannel
      else if conn.send.length < sendCapacity then
        broadcastLoop message (h.update c (fun x => { x with send := x.send ++ [message] })) rest
      else Ending.blocked h

/-- `unregisterConnection`, called without the lock held: when the map has
an entry for the user id of the connection, the entry is deleted and the
channel of the connection closed. -/
def unregisterConnection (h : Handler) (c : Nat) : Ending :=
  match h.made.get? c with
  | none => Ending.returned h
  | some conn =>
    if (h.connections.map (fun e => e.1)).contains conn.userID then
      if conn.closed then Ending.panicked Panic.closeOfClosedChannel
      else
        Ending.returned
          (update { h with connections :=
              h.connections.filter (fun e => decide (e.1 ≠ conn.userID)) }
            c (fun x => { x with closed := true }))
    else Ending.returned h

/-- `Broadcast`. -/
def Broadcast (h : Handler) (message : Message) : Ending :=
  broadcastLoop message h h.connections

/-- The pending messages of the connection `c`. -/
def pending (h : Handler) (c : Nat) : Option (List Message) :=
  (h.made.get? c).map (fun conn => conn.send)

end Handler

/-- The handler after a call, when the call returns. -/
def Ending.handler? : Ending → Option Handler
  | Ending.returned h => some h
  | _ => none

end websocket

/-- A message to broadcast. -/
def exampleMessage : websocket.Message := { type := "sync", Payload := none, Error := "" }
/-! ## Notions for the frame properties of the store -/

/-- A name that a directory entry can have: not empty, not `.` or `..`, and
without separator. -/
def filepath.validName (name : Str) : Bool :=
  !(decide (name = []) || decide (name = ['.']) || decide (name = ['.', '.']) ||
    decide (filepath.Separator ∈ name))

/-- The segments of a path that `Clean` keeps (for a path without `..`
segment). -/
def filepath.parts (path : Str) : List Str :=
  (strings.Split path filepath.Separator).filter filepath.keepElem

/-- Every component of every key of the table is a name that a directory
entry can have. -/
def FS.ValidNames (fs : FS) : Prop :=
  ∀ e ∈ fs.nodes, ∀ comp ∈ e.1, filepath.validName comp = true

/-- The key that `resolve` gives a name that is not empty. -/
def FS.resolveKey (fs : FS) (name : Str) : List Str :=
  (strings.Split name filepath.Separator).foldl FS.resolveStep
    (if strings.HasPrefix name [filepath.Separator] then [] else fs.cwd)

/-- The filesystems `fs` and `fs2` differ at most below the directory `U`:
every key that is not `U` or below it has the same entry and the same read
permission in both. -/
def FS.AgreeOutside (U : List Str) (fs fs2 : FS) : Prop :=
  fs2.cwd = fs.cwd ∧ fs2.dirSize = fs.dirSize ∧
    (∀ key, ¬ U <+: key → fs2.get key = fs.get key) ∧
    ∀ key, ¬ U <+: key → (key ∈ fs2.noRead ↔ key ∈ fs.noRead)

/-- The key of the directory of a user: the key of the storage root, then
the user id in decimal. -/
def userKey (s : Storage) (fs : FS) (userID : Int) : List Str :=
  fs.resolveKey s.basePath ++ [fmtInt userID]
/-! ## The nodes of a tree -/

mutual
/-- The node and every node below it, a parent before its children. -/
def TreeNode.nodes : TreeNode → List TreeNode
  | TreeNode.mk name path icon isDir children =>
    TreeNode.mk name path icon isDir children :: nodesOf children
/-- Every node of the trees of a list. -/
def nodesOf : List TreeNode → List TreeNode
  | [] => []
  | node :: rest => node.nodes ++ nodesOf rest
end

/-- The cumulative paths of a path: the path up to its first segment, up to
its second segment, and so on up to the path itself. -/
def cumulativePaths (path : Str) : List Str :=
  (strings.Split path filepath.Separator).inits.tail.map
    (fun parts => strings.Join parts [filepath.Separator])

/-- Every cumulative path is asked for with one parent. -/
def ShapeCoherent (steps : List Step) : Prop :=
  ∀ e ∈ steps, ∀ e2 ∈ steps, e.key = e2.key → e.parent = e2.parent

/-- An entry of the input whose path is a proper ancestor of the path of
another entry is a directory. -/
def AncestorsAreDirs (files : List FileMetadata) : Prop :=
  ∀ f ∈ files, ∀ g ∈ files, f.Path ++ [filepath.Separator] <+: g.Path → f.IsDir = true

/-- Two paths of which neither is the other or an ancestor of it. -/
def Apart (x y : Str) : Prop :=
  ¬ strings.Split x filepath.Separator <+: strings.Split y filepath.Separator ∧
  ¬ strings.Split y filepath.Separator <+: strings.Split x filepath.Separator

/-- A node of the tree that is the value of its path in the map. -/
def IsValue (rt : Runtime) (files : List FileMetadata) (t : TreeNode) : Prop :=
  t.Path ∈ keysOf (files.foldl (addFile rt) []) ∧
  sortedTreeOf rt (files.foldl (addFile rt) []) t.Path = some t

/-- The shape of a tree for an input, as the specification words it: every
cumulative path of the input is the path of exactly one node of the tree;
a child has the path of its parent followed by a separator and its own
name, and is a child of that node only; every node with a separator in
its path is a child of a node of the tree; and the top-level list holds
exactly the nodes without a separator in their path. -/
def OneNodePerPath (files : List FileMetadata) (tree : List TreeNode) : Prop :=
  ((nodesOf tree).map TreeNode.Path).Nodup ∧
  (∀ p, p ∈ (nodesOf tree).map TreeNode.Path ↔ ∃ f ∈ files, p ∈ cumulativePaths f.Path) ∧
  (∀ parent ∈ nodesOf tree, ∀ child ∈ parent.Children,
    child.Path = parent.Path ++ filepath.Separator :: child.Name ∧
    filepath.Separator ∉ child.Name ∧
    ∀ other ∈ nodesOf tree, child ∈ other.Children → other = parent) ∧
  (∀ node ∈ nodesOf tree, strings.Contains node.Path [filepath.Separator] = true →
    ∃ parent ∈ nodesOf tree, node ∈ parent.Children) ∧
  (∀ node ∈ nodesOf tree,
    node ∈ tree ↔ strings.Contains node.Path [filepath.Separator] = false)

/-- Every proper ancestor path of an input path (the first segments of the
path, not all of them, joined by the separator) is the path of a node of
the tree that is a directory. -/
def AncestorNodesAreDirs (files : List FileMetadata) (tree : List TreeNode) : Prop :=
  ∀ f ∈ files, ∀ (first : List Str) (rest : List Str),
    strings.Split f.Path filepath.Separator = first ++ rest → first ≠ [] → rest ≠ [] →
    ∃ node ∈ nodesOf tree,
      node.Path = strings.Join first [filepath.Separator] ∧ node.IsDir = true
/-! # Properties -/

/-! ### Strings and paths -/

namespace strings

theorem Split_ne_nil (s : Str) (sep : Char) : Split s sep ≠ [] := by
  induction s with
  | nil => simp [Split]
  | cons c s ih =>
    unfold Split
    split
    · simp
    · split <;> simp

theorem Split_append_sep (a b : Str) (sep : Char) :
    Split (a ++ sep :: b) sep = Split a sep ++ Split b sep := by
  induction a with
  | nil => simp [Split]
  | cons c a ih =>
    simp only [List.cons_append, Split]
    by_cases hc : c = sep
    · simp [hc, ih]
    · simp only [hc, if_false]
      cases hs : Split a sep with
      | nil => exact absurd hs (Split_ne_nil a sep)
      | cons piece rest =>
        have ih2 : Split (a.append (sep :: b)) sep = piece :: rest ++ Split b sep := by
          rw [← hs]; exact ih
        rw [ih2]; simp

theorem Split_head_isPrefixOf (s : Str) (sep : Char) :
    ∀ piece rest, Split s sep = piece :: rest → piece.isPrefixOf s = true := by
  induction s with
  | nil => intro piece rest h; simp [Split] at h; simp [h.1]
  | cons c s ih =>
    intro piece rest h
    unfold Split at h
    split at h
    · simp at h; simp [h.1]
    · cases hs : Split s sep with
      | nil => exact absurd hs (Split_ne_nil s sep)
      | cons p r =>
        rw [hs] at h
        simp at h
        rw [← h.1]
        simp [List.isPrefixOf, ih p r hs]

theorem Contains_of_mem_Split (s : Str) (sep : Char) (seg : Str) :
    seg ∈ Split s sep → Contains s seg = true := by
  induction s with
  | nil => intro h; simp [Split] at h; simp [h, Contains]
  | cons c s ih =>
    intro h
    unfold Split at h
    unfold Contains
    split at h
    · simp at h
      rcases h with h | h
      · simp [h]
      · simp [ih h]
    · cases hs : Split s sep with
      | nil => exact absurd hs (Split_ne_nil s sep)
      | cons p r =>
        rw [hs] at h
        simp at h
        rcases h with h | h
        · simp [h, List.isPrefixOf, Split_head_isPrefixOf s sep p r hs]
        · have : seg ∈ Split s sep := by rw [hs]; exact List.mem_cons_of_mem _ h
          simp [ih this]

theorem Join_append (X F : List Str) (sep : Str) (hX : X ≠ []) (hF : F ≠ []) :
    Join (X ++ F) sep = Join X sep ++ sep ++ Join F sep := by
  induction X with
  | nil => exact absurd rfl hX
  | cons a X ih =>
    cases X with
    | nil =>
      cases F with
      | nil => exact absurd rfl hF
      | cons f F => simp [Join]
    | cons b X =>
      have := ih (by simp)
      simp only [List.cons_append] at this ⊢
      simp [Join, this]

end strings

namespace filepath

theorem foldl_cleanStep_no_dotdot (rooted : Bool) (segs : List Str)
    (h : ['.', '.'] ∉ segs) (out : List Str) :
    segs.foldl (cleanStep rooted) out = (segs.filter keepElem).reverse ++ out := by
  induction segs generalizing out with
  | nil => simp
  | cons e segs ih =>
    have he : e ≠ ['.', '.'] := fun hh => h (by simp [hh])
    have hs : ['.', '.'] ∉ segs := fun hh => h (List.mem_cons_of_mem _ hh)
    simp only [List.foldl_cons]
    rw [ih hs]
    by_cases hk : e = [] ∨ e = ['.']
    · have : keepElem e = false := by
        rcases hk with hk | hk <;> simp [keepElem, hk]
      simp [cleanStep, hk, this]
    · have : keepElem e = true := by
        simp only [not_or] at hk
        simp [keepElem, hk.1, hk.2]
      simp [cleanStep, hk, he, this]

theorem Clean_rooted (path : Str) (h : strings.HasPrefix path [Separator] = true) :
    Clean path = Separator ::
      strings.Join ((strings.Split path Separator).foldl (cleanStep true) []).reverse
        [Separator] := by
  have hne : path ≠ [] := by
    intro hh; subst hh; simp [strings.HasPrefix, List.isPrefixOf] at h
  simp [Clean, hne, h]

end filepath

theorem isPathSafe_no_dotdot_segment (p : Str) (h : isPathSafe p = true) :
    ['.', '.'] ∉ strings.Split p filepath.Separator := by
  intro hmem
  have := strings.Contains_of_mem_Split p _ _ hmem
  simp [isPathSafe, this] at h

/-- C1: every path that contains `..` as a substring, or that starts with the
separator `/`, is rejected by `isPathSafe`. -/
theorem isPathSafe_rejects_dotdot_and_absolute (p : Str)
    (h : strings.Contains p ['.', '.'] = true ∨ strings.HasPrefix p ['/'] = true) :
    isPathSafe p = false := by
  unfold isPathSafe
  rcases h with h | h
  · simp [h]
  · by_cases hc : strings.Contains p ['.', '.'] = true
    · simp [hc]
    · simp [hc, h]

/-- Witness for C1 at the path `a/../b`. -/
theorem isPathSafe_rejects_dotdot_and_absolute_witness :
    (strings.Contains "a/../b".toList ['.', '.'] = true ∨
      strings.HasPrefix "a/../b".toList ['/'] = true) ∧
    isPathSafe "a/../b".toList = false :=
  ⟨Or.inl (by decide), isPathSafe_rejects_dotdot_and_absolute _ (Or.inl (by decide))⟩

/-- C2 as stated fails at the root: `/` is a clean absolute directory and `a`
is accepted, but the target `/a` is neither `/` nor does it start with `/`
followed by a separator. -/
theorem target_under_root_lacks_separator : 
    strings.HasPrefix "/".toList [filepath.Separator] = true ∧
    filepath.Clean "/".toList = "/".toList ∧
    isPathSafe "a".toList = true ∧
    filepath.Join ["/".toList, "a".toList] = "/a".toList ∧
    filepath.Join ["/".toList, "a".toList] ≠ "/".toList ∧
    ¬ ("/".toList ++ [filepath.Separator] <+: filepath.Join ["/".toList, "a".toList]) := by
  decide

/-- C2 (amended): for a clean absolute base directory `B` and a path `p` that
`isPathSafe` accepts, the target `filepath.Join(B, p)` is `B` itself or
starts with `B` and a separator (with the root itself, which already ends
in the separator). -/
theorem target_stays_under_base (B p : Str)
    (hAbs : strings.HasPrefix B [filepath.Separator] = true)
    (hClean : filepath.Clean B = B) (hSafe : isPathSafe p = true) :
    filepath.Join [B, p] = B ∨ withSeparator B <+: filepath.Join [B, p] := by
  have hne : B ≠ [] := by
    intro hh; subst hh; simp [strings.HasPrefix, List.isPrefixOf] at hAbs
  have hB := filepath.Clean_rooted B hAbs
  rw [hClean] at hB
  have hpre : strings.HasPrefix (B ++ filepath.Separator :: p) [filepath.Separator] = true := by
    cases B with
    | nil => exact absurd rfl hne
    | cons c B => simpa [strings.HasPrefix, List.isPrefixOf] using hAbs
  have hJ : filepath.Join [B, p] = filepath.Clean (B ++ filepath.Separator :: p) := by
    simp [filepath.Join, hne, strings.Join]
  rw [hJ, filepath.Clean_rooted _ hpre, strings.Split_append_sep, List.foldl_append,
    filepath.foldl_cleanStep_no_dotdot true _ (isPathSafe_no_dotdot_segment p hSafe),
    List.reverse_append, List.reverse_reverse]
  set X := ((strings.Split B filepath.Separator).foldl (filepath.cleanStep true) []).reverse
    with hX
  set F := (strings.Split p filepath.Separator).filter filepath.keepElem with hF
  by_cases hF0 : F = []
  · left
    rw [hF0, List.append_nil, ← hB]
  · right
    by_cases hroot : B = [filepath.Separator]
    · simp only [withSeparator, hroot, if_true]
      exact ⟨_, rfl⟩
    · have hX0 : X ≠ [] := by
        intro hh
        apply hroot
        rw [hB, hh]; simp [strings.Join]
      rw [strings.Join_append X F _ hX0 hF0]
      simp only [withSeparator, hroot, if_false]
      refine ⟨strings.Join F [filepath.Separator], ?_⟩
      rw [hB]; simp

/-- Witness for C2 (amended) at the base `/app/data/alice` and the path
`docs/a.txt`. -/
theorem target_stays_under_base_witness :
    (strings.HasPrefix "/app/data/alice".toList [filepath.Separator] = true ∧
      filepath.Clean "/app/data/alice".toList = "/app/data/alice".toList ∧
      isPathSafe "docs/a.txt".toList = true) ∧
    (filepath.Join ["/app/data/alice".toList, "docs/a.txt".toList] = "/app/data/alice".toList ∨
      withSeparator "/app/data/alice".toList <+:
        filepath.Join ["/app/data/alice".toList, "docs/a.txt".toList]) :=
  ⟨by decide, target_stays_under_base _ _ (by decide) (by decide) (by decide)⟩

/-! ### The filesystem model -/

namespace FS

theorem get_set_ne (fs : FS) (key other : List Str) (node : Node) (h : other ≠ key) :
    (fs.set key node).get other = fs.get other := by
  unfold get set
  by_cases ho : other = []
  · simp [ho]
  · simp only [ho, if_false]
    have h1 : decide (key = other) = false := by simpa using fun hh => h hh.symm
    have hp : (fun a : List Str × Node =>
        decide (decide (a.1 ≠ key) = true ∧ decide (a.1 = other) = true)) =
        (fun a => decide (a.1 = other)) := by
      funext a
      by_cases ha : a.1 = other <;> simp [ha, h]
    simp only [List.find?_cons, h1, List.find?_filter, hp]

/-- A walk depends only on the table entries of the paths it visits. -/
theorem walkFrom_congr (fs fs2 : FS) (rest pre : List Str)
    (h : ∀ k, k <+: rest → fs2.get (pre ++ k) = fs.get (pre ++ k)) :
    fs2.walkFrom pre rest = fs.walkFrom pre rest := by
  induction rest generalizing pre with
  | nil =>
    have := h [] (List.nil_prefix)
    simp only [List.append_nil] at this
    simp [walkFrom, this]
  | cons c rest ih =>
    have h0 := h [] (List.nil_prefix)
    simp only [List.append_nil] at h0
    have hrec : fs2.walkFrom (pre ++ [c]) rest = fs.walkFrom (pre ++ [c]) rest := by
      apply ih
      intro k hk
      have := h (c :: k) (by simpa using hk)
      simpa using this
    simp [walkFrom, h0, hrec]

end FS

/-! ### Digests -/

theorem sha256.Sum256_length (data : List Byte) : (sha256.Sum256 data).length = 32 := by
  simp [sha256.Sum256, sha256.wordBytes]

theorem hex.EncodeToString_length (src : List Byte) :
    (hex.EncodeToString src).length = 2 * src.length := by
  induction src with
  | nil => rfl
  | cons b rest ih => simp [hex.EncodeToString, ih]; omega

theorem hex.digit_mem (n : Nat) (h : n < 16) : hex.digit n ∈ "0123456789abcdef".toList := by
  revert n
  decide

theorem hex.EncodeToString_lowercase (src : List Byte) :
    ∀ ch ∈ hex.EncodeToString src, ch ∈ "0123456789abcdef".toList := by
  induction src with
  | nil => intro ch h; simp [hex.EncodeToString] at h
  | cons b rest ih =>
    intro ch h
    simp only [hex.EncodeToString, List.mem_cons] at h
    rcases h with h | h | h
    · rw [h]; exact hex.digit_mem _ (by omega)
    · rw [h]; exact hex.digit_mem _ (by omega)
    · exact ih ch h

/-- The hexadecimal SHA-256 digest has 64 characters. -/
theorem hexDigest_length (data : List Byte) :
    (hex.EncodeToString (sha256.Sum256 data)).length = 64 := by
  rw [hex.EncodeToString_length, sha256.Sum256_length]

/-! ### The store -/

set_option maxRecDepth 1000000 in
/-- The SHA-256 digest of `abc` (the first test vector of FIPS 180-4). -/
theorem sha256_abc :
    hex.EncodeToString (sha256.Sum256 (bytesOf "abc")) =
      "ba7816bf8f01cfea414140de5dae2223b00361a396177a9cb410ff61f20015ad".toList := by
  rfl

/-- The store writes where an unsafe path leads.  `Store` with the path
`../2/x` for user `1` succeeds and writes the file `/data/2/x`, inside the
directory of user `2`; `Get` with the empty path goes to the filesystem and
comes back with a filesystem error. -/
theorem Store_accepts_unsafe_path :
    isPathSafe "../2/x".toList = false ∧
    (exampleStorage.Store exampleFS 1 "../2/x".toList (bytesOf "abc")).1 =
      .ok { Path := "../2/x".toList, Size := 3,
            Hash := hex.EncodeToString (sha256.Sum256 (bytesOf "abc")), IsDirectory := false } ∧
    exampleFS.ReadFile "/data/2/x".toList = .error Errno.ENOENT ∧
    (exampleStorage.Store exampleFS 1 "../2/x".toList (bytesOf "abc")).2.ReadFile
      "/data/2/x".toList = .ok (bytesOf "abc") ∧
    exampleStorage.Get exampleFS 1 [] = .error (StorageError.failedToReadFile Errno.EISDIR) := by
  exact ⟨by decide, by rfl, by rfl, by rfl, by rfl⟩

/-- C3: the operations of the store do not validate their path.  With the
path `../2/x`, which `isPathSafe` refuses, user 1 reads the file `x` of
user 2 (`Get`, `GetInfo`), lists the directory of user 2 (`List`), writes
into it (`Store`), removes the file (`Delete`) and takes it away (`Move`);
no operation returns a validation error, each one goes to the filesystem.
With the empty path `Get` comes back with the error of reading a directory,
and `Delete` removes the directory of the user when it is empty. -/
theorem Storage_operations_do_not_validate :
    (isPathSafe "../2/x".toList = false ∧ isPathSafe "../2".toList = false ∧
      isPathSafe "../2/z".toList = false) ∧
    exampleStorage.Get usersFS 1 "../2/x".toList = .ok (bytesOf "two") ∧
    exampleStorage.GetInfo usersFS 1 "../2/x".toList =
      .ok { Path := "../2/x".toList, Size := 3,
            Hash := hex.EncodeToString (sha256.Sum256 (bytesOf "two")),
            IsDirectory := false } ∧
    exampleStorage.List usersFS 1 "../2".toList =
      .ok [{ Path := "../2/dir".toList, Size := 4096, Hash := [], IsDirectory := true },
           { Path := "../2/x".toList, Size := 3,
             Hash := hex.EncodeToString (sha256.Sum256 (bytesOf "two")),
             IsDirectory := false }] ∧
    (exampleStorage.Get usersFS 2 "z".toList = .error (StorageError.fileNotFound "z".toList) ∧
      (exampleStorage.Store usersFS 1 "../2/z".toList (bytesOf "abc")).1 =
        .ok { Path := "../2/z".toList, Size := 3,
              Hash := hex.EncodeToString (sha256.Sum256 (bytesOf "abc")),
              IsDirectory := false } ∧
      exampleStorage.Get (exampleStorage.Store usersFS 1 "../2/z".toList (bytesOf "abc")).2 2
        "z".toList = .ok (bytesOf "abc")) ∧
    (exampleStorage.Get usersFS 2 "x".toList = .ok (bytesOf "two") ∧
      (exampleStorage.Delete usersFS 1 "../2/x".toList).1 = .ok () ∧
      exampleStorage.Get (exampleStorage.Delete usersFS 1 "../2/x".toList).2 2 "x".toList =
        .error (StorageError.fileNotFound "x".toList)) ∧
    ((exampleStorage.Move usersFS 1 "../2/x".toList "mine".toList).1 = .ok () ∧
      exampleStorage.Get (exampleStorage.Move usersFS 1 "../2/x".toList "mine".toList).2 2
        "x".toList = .error (StorageError.fileNotFound "x".toList) ∧
      exampleStorage.Get (exampleStorage.Move usersFS 1 "../2/x".toList "mine".toList).2 1
        "mine".toList = .ok (bytesOf "two")) ∧
    (exampleStorage.Get usersFS 1 [] = .error (StorageError.failedToReadFile Errno.EISDIR) ∧
      (exampleStorage.Delete exampleFS 1 []).1 = .ok () ∧
      (exampleStorage.Delete exampleFS 1 []).2.Stat "/data/1".toList = .error Errno.ENOENT) :=
  ⟨⟨by decide, by decide, by decide⟩, by rfl, by rfl, by rfl, ⟨by rfl, by rfl, by rfl⟩,
    ⟨by rfl, by rfl, by rfl⟩, ⟨by rfl, by rfl, by rfl⟩, ⟨by rfl, by rfl, by rfl⟩⟩

/-- The handlers in front of the store refuse the empty path, with a 400
response and the filesystem untouched, and nothing else: `HandleUpload`,
`HandleDownload` and `HandleDelete` when the request path has nothing after
`/api/files/`, `HandleInfo` when nothing is left of it without `/info`. -/
theorem empty_path_refused_by_handlers (h : FileHandler) (fs : FS) (userID : Int)
    (urlPath : Str) (body : Option (List Byte)) :
    (strings.TrimPrefix urlPath "/api/files/".toList = [] →
      h.HandleUpload fs (some userID) urlPath body =
        (ApiResponse.error 400 "invalid_request" "File path is required", fs) ∧
      h.HandleDownload fs (some userID) urlPath =
        (ApiResponse.error 400 "invalid_request" "File path is required", fs) ∧
      h.HandleDelete fs (some userID) urlPath =
        (ApiResponse.error 400 "invalid_request" "File path is required", fs)) ∧
    (strings.TrimSuffix (strings.TrimPrefix urlPath "/api/files/".toList) "/info".toList = [] →
      h.HandleInfo fs (some userID) urlPath =
        (ApiResponse.error 400 "invalid_request" "File path is required", fs)) := by
  refine ⟨fun hEmpty => ⟨?_, ?_, ?_⟩, fun hEmpty => ?_⟩
  · simp only [FileHandler.HandleUpload, hEmpty, if_true]
  · simp only [FileHandler.HandleDownload, hEmpty, if_true]
  · simp only [FileHandler.HandleDelete, hEmpty, if_true]
  · simp only [FileHandler.HandleInfo, hEmpty, if_true]

/-- The empty-path guard of the handlers at the request paths `/api/files/`
and `/api/files//info`. -/
theorem empty_path_refused_by_handlers_witness :
    (FileHandler.mk exampleStorage).HandleDelete exampleFS (some 1) "/api/files/".toList =
      (ApiResponse.error 400 "invalid_request" "File path is required", exampleFS) ∧
    (FileHandler.mk exampleStorage).HandleInfo exampleFS (some 1) "/api/files//info".toList =
      (ApiResponse.error 400 "invalid_request" "File path is required", exampleFS) :=
  ⟨((empty_path_refused_by_handlers (FileHandler.mk exampleStorage) exampleFS 1
      "/api/files/".toList none).1 (by decide)).2.2,
    (empty_path_refused_by_handlers (FileHandler.mk exampleStorage) exampleFS 1
      "/api/files//info".toList none).2 (by decide)⟩

/-- The handlers that check: upload, download, directory creation and save
refuse a path that `isPathSafe` rejects with `400 Invalid path` and leave
the filesystem as it is. -/
theorem checked_handlers_refuse_unsafe_path (basePath username relativePath filename : Str)
    (fs : FS) (content : List Byte) (body : Option (List Byte))
    (hne : relativePath ≠ []) (h : isPathSafe relativePath = false) :
    handleFileUpload basePath fs username
        { parses := true, file := some (filename, content), relativePath := relativePath } =
      httpError fs "Invalid path" 400 ∧
    handleFileDownload basePath fs username relativePath = httpError fs "Invalid path" 400 ∧
    handleDirectoryCreate basePath fs username (some relativePath) =
      httpError fs "Invalid path" 400 ∧
    handleFileSave basePath fs username relativePath body = httpError fs "Invalid path" 400 := by
  simp [handleFileUpload, handleFileDownload, handleDirectoryCreate, handleFileSave, h, hne]

/-- C4, the code at the failing input: `handleFileDelete` does not call
`isPathSafe`.  For the path `notes..bak`, which `isPathSafe` rejects, it
answers 200 and the file is gone; for `../bob/x` it removes a file of
another user. -/
theorem handleFileDelete_removes_at_unsafe_path :
    isPathSafe "notes..bak".toList = false ∧
    exampleFS.ReadFile "/data/alice/notes..bak".toList = .ok (bytesOf "old") ∧
    (handleFileDelete "/data".toList exampleFS "alice".toList
      "notes..bak".toList).response.status = 200 ∧
    (handleFileDelete "/data".toList exampleFS "alice".toList
      "notes..bak".toList).fs.ReadFile "/data/alice/notes..bak".toList =
        .error Errno.ENOENT ∧
    isPathSafe "../bob/x".toList = false ∧
    (handleFileDelete "/data".toList exampleFS "alice".toList
      "../bob/x".toList).response.status = 200 ∧
    (handleFileDelete "/data".toList exampleFS "alice".toList
      "../bob/x".toList).fs.ReadFile "/data/bob/x".toList = .error Errno.ENOENT :=
  ⟨by decide, by rfl, by decide, by rfl, by decide, by decide, by rfl⟩

/-- C7: in a record produced by `GetInfo` or by `NewFileMetadata` the hash is
non-empty exactly when the entry is not a directory; a directory has the
empty hash, and a regular file (an empty one too) has the hexadecimal
SHA-256 digest of its bytes, which is 64 lowercase hexadecimal characters. -/
theorem hash_present_iff_not_directory (s : Storage) (fs : FS) (userID : Int)
    (path basePath relativePath : Str) (info : FileInfo) (metadata : FileMetadata)
    (hInfo : s.GetInfo fs userID path = .ok info)
    (hMeta : NewFileMetadata fs basePath relativePath = .ok metadata) :
    ((info.Hash ≠ [] ↔ info.IsDirectory = false) ∧
      (info.IsDirectory = true → info.Hash = []) ∧
      (info.IsDirectory = false →
        ∃ content, fs.ReadFile (s.getFullPath userID path) = .ok content ∧
          info.Hash = hex.EncodeToString (sha256.Sum256 content) ∧
          info.Hash.length = 64 ∧ ∀ ch ∈ info.Hash, ch ∈ "0123456789abcdef".toList)) ∧
    ((metadata.Hash ≠ [] ↔ metadata.IsDir = false) ∧
      (metadata.IsDir = true → metadata.Hash = []) ∧
      (metadata.IsDir = false →
        ∃ content, fs.ReadFile (filepath.Join [basePath, relativePath]) = .ok content ∧
          metadata.Hash = hex.EncodeToString (sha256.Sum256 content) ∧
          metadata.Hash.length = 64 ∧ ∀ ch ∈ metadata.Hash, ch ∈ "0123456789abcdef".toList)) := by
  constructor
  · unfold Storage.GetInfo at hInfo
    cases hs : fs.Stat (s.getFullPath userID path) with
    | error e => 
      simp only [hs] at hInfo
      split at hInfo <;> simp at hInfo
    | ok st =>
      simp only [hs] at hInfo
      cases hd : st.isDir with
      | true =>
        simp [hd] at hInfo
        subst hInfo
        simp
      | false =>
        simp only [hd, Bool.not_false, if_true, Storage.calculateHash] at hInfo
        cases hr : fs.ReadFile (s.getFullPath userID path) with
        | error e => simp [hr] at hInfo
        | ok content =>
          simp only [hr, Except.ok.injEq] at hInfo
          subst hInfo
          have hl := hexDigest_length content
          refine ⟨?_, by simp, fun _ => ⟨content, rfl, rfl, hl, hex.EncodeToString_lowercase _⟩⟩
          simp only [iff_true]
          intro h0
          rw [h0] at hl
          simp at hl
  · unfold NewFileMetadata at hMeta
    cases hs : fs.Stat (filepath.Join [basePath, relativePath]) with
    | error e => simp [hs] at hMeta
    | ok st =>
      simp only [hs] at hMeta
      cases hd : st.isDir with
      | true =>
        simp [hd] at hMeta
        subst hMeta
        simp
      | false =>
        simp only [hd, Bool.not_false, if_true, calculateFileHash] at hMeta
        cases hr : fs.ReadFile (filepath.Join [basePath, relativePath]) with
        | error e => simp [hr] at hMeta
        | ok content =>
          simp only [hr, Except.ok.injEq] at hMeta
          subst hMeta
          have hl := hexDigest_length content
          refine ⟨?_, by simp, fun _ => ⟨content, rfl, rfl, hl, hex.EncodeToString_lowercase _⟩⟩
          simp only [iff_true]
          intro h0
          rw [h0] at hl
          simp at hl

/-- Witness for C7: the record of the file `/data/bob/x` from `GetInfo` and
from `NewFileMetadata` has a hash of 64 characters. -/
theorem hash_present_iff_not_directory_witness :
    (exampleStorage.GetInfo exampleFS 2 "../bob/x".toList =
        .ok { Path := "../bob/x".toList, Size := 6,
              Hash := hex.EncodeToString (sha256.Sum256 (bytesOf "secret")),
              IsDirectory := false } ∧
      NewFileMetadata exampleFS "/data/bob".toList "x".toList =
        .ok { Name := "x".toList, Path := "x".toList, Size := 6, IsDir := false,
              Hash := hex.EncodeToString (sha256.Sum256 (bytesOf "secret")) }) ∧
    (hex.EncodeToString (sha256.Sum256 (bytesOf "secret"))).length = 64 :=
  ⟨⟨by rfl, by rfl⟩,
    ((((hash_present_iff_not_directory exampleStorage exampleFS 2 "../bob/x".toList
      "/data/bob".toList "x".toList _ _ (by rfl) (by rfl)).1.2.2 rfl).choose_spec).2.2.1)⟩

/-! ### The tree -/

theorem sortLess_strictWeakOrder (rt : Runtime) : StrictWeakOrder (sortLess rt) := by
  constructor
  · intro a b
    unfold sortLess
    cases a.IsDir <;> cases b.IsDir <;> simp
    · intro h; exact le_of_lt h
    · intro h; exact le_of_lt h
  · intro a b c
    unfold sortLess
    cases a.IsDir <;> cases b.IsDir <;> cases c.IsDir <;> simp
    · intro h1 h2; exact le_trans h2 h1
    · intro h1 h2; exact le_trans h2 h1

theorem siblingsOrdered_of_sorted (rt : Runtime) (nodes : List TreeNode)
    (h : nodes.Pairwise (fun a b => sortLess rt b a = false)) : SiblingsOrdered rt nodes := by
  unfold SiblingsOrdered
  refine h.imp ?_
  intro a b
  unfold sortLess
  cases a.IsDir <;> cases b.IsDir <;> simp

theorem everyLevelOf_iff (P : List TreeNode → Prop) (nodes : List TreeNode) :
    EveryLevelOf P nodes ↔ ∀ node ∈ nodes, node.EveryLevel P := by
  induction nodes with
  | nil => simp [EveryLevelOf]
  | cons n rest ih => simp [EveryLevelOf, ih]

mutual
theorem sortNode_everyLevel (rt : Runtime) (hrt : rt.SortsCorrectly) :
    ∀ node : TreeNode, (sortNode rt node).EveryLevel (SiblingsOrdered rt)
  | TreeNode.mk name path icon isDir children => by
    have hs := hrt (sortLess rt) (sortLess_strictWeakOrder rt) (sortChildren rt children)
    unfold sortNode TreeNode.EveryLevel
    refine ⟨siblingsOrdered_of_sorted rt _ hs.2, ?_⟩
    rw [everyLevelOf_iff]
    intro node hnode
    exact (everyLevelOf_iff _ _).1 (sortChildren_everyLevel rt hrt children) node
      (hs.1.mem_iff.1 hnode)
theorem sortChildren_everyLevel (rt : Runtime) (hrt : rt.SortsCorrectly) :
    ∀ nodes : List TreeNode, EveryLevelOf (SiblingsOrdered rt) (sortChildren rt nodes)
  | [] => by simp [sortChildren, EveryLevelOf]
  | node :: rest => by
    unfold sortChildren EveryLevelOf
    exact ⟨sortNode_everyLevel rt hrt node, sortChildren_everyLevel rt hrt rest⟩
end

theorem insertNode_perm (less : TreeNode → TreeNode → Bool) (x : TreeNode)
    (nodes : List TreeNode) : (insertNode less x nodes).Perm (x :: nodes) := by
  induction nodes with
  | nil => simp [insertNode]
  | cons y rest ih =>
    unfold insertNode
    split
    · exact (List.Perm.cons y ih).trans (List.Perm.swap x y rest)
    · exact List.Perm.refl _

theorem insertionSort_perm (less : TreeNode → TreeNode → Bool) (nodes : List TreeNode) :
    (insertionSort less nodes).Perm nodes := by
  induction nodes with
  | nil => simp [insertionSort]
  | cons x rest ih =>
    unfold insertionSort
    exact (insertNode_perm less x _).trans (List.Perm.cons x ih)

theorem insertNode_sorted (less : TreeNode → TreeNode → Bool) (hless : StrictWeakOrder less)
    (x : TreeNode) (nodes : List TreeNode)
    (h : nodes.Pairwise (fun a b => less b a = false)) :
    (insertNode less x nodes).Pairwise (fun a b => less b a = false) := by
  induction nodes with
  | nil => simp [insertNode]
  | cons y rest ih =>
    rw [List.pairwise_cons] at h
    unfold insertNode
    by_cases hyx : less y x = true
    · simp only [hyx, if_true, List.pairwise_cons]
      refine ⟨?_, ih h.2⟩
      intro z hz
      have hz2 := (insertNode_perm less x rest).mem_iff.1 hz
      simp only [List.mem_cons] at hz2
      rcases hz2 with hzx | hzx
      · rw [hzx]; exact hless.1 y x hyx
      · exact h.1 z hzx
    · simp only [hyx, Bool.false_eq_true, if_false, List.pairwise_cons]
      have hyx2 : less y x = false := by simpa using hyx
      refine ⟨?_, h⟩
      intro z hz
      simp only [List.mem_cons] at hz
      rcases hz with hz | hz
      · rw [hz]; exact hyx2
      · exact hless.2 z y x (h.1 z hz) hyx2

theorem insertionSort_sorted (less : TreeNode → TreeNode → Bool) (hless : StrictWeakOrder less)
    (nodes : List TreeNode) :
    (insertionSort less nodes).Pairwise (fun a b => less b a = false) := by
  induction nodes with
  | nil => simp [insertionSort]
  | cons x rest ih =>
    unfold insertionSort
    exact insertNode_sorted less hless x _ ih

/-- The insertion sort meets the contract of `sort.Slice`. -/
theorem goRuntime_sortsCorrectly : goRuntime.SortsCorrectly := by
  intro less hless nodes
  exact ⟨insertionSort_perm less nodes, insertionSort_sorted less hless nodes⟩

/-- Two sorted arrangements of the same nodes coincide when no two distinct
nodes among them tie under the comparison. -/
theorem sorted_perm_unique (less : TreeNode → TreeNode → Bool) :
    ∀ (l1 l2 : List TreeNode), l1.Perm l2 →
      l1.Pairwise (fun a b => less b a = false) →
      l2.Pairwise (fun a b => less b a = false) →
      (∀ a ∈ l1, ∀ b ∈ l1, less a b = false → less b a = false → a = b) → l1 = l2
  | [], l2, hp, _, _, _ => (List.Perm.nil_eq hp)
  | a :: t1, [], hp, _, _, _ => absurd hp.symm (by simp)
  | a :: t1, b :: t2, hp, h1, h2, hties => by
    rw [List.pairwise_cons] at h1 h2
    have hab : a = b := by
      have ha : a ∈ b :: t2 := hp.mem_iff.1 (List.mem_cons_self a t1)
      have hb : b ∈ a :: t1 := hp.mem_iff.2 (List.mem_cons_self b t2)
      rcases List.mem_cons.1 ha with ha | ha
      · exact ha
      · rcases List.mem_cons.1 hb with hb | hb
        · exact hb.symm
        · exact hties a (List.mem_cons_self a t1) b (List.mem_cons_of_mem a hb)
            (h2.1 a ha) (h1.1 b hb)
    subst hab
    have ht : t1 = t2 :=
      sorted_perm_unique less t1 t2 (List.Perm.cons_inv hp) h1.2 h2.2
        (fun x hx y hy => hties x (List.mem_cons_of_mem a hx) y (List.mem_cons_of_mem a hy))
    rw [ht]

/-- Under the contract of `sort.Slice`, sorting two arrangements of the same
nodes gives the same list when no two distinct nodes tie. -/
theorem sortSlice_perm_unique (rt : Runtime) (hrt : rt.SortsCorrectly) (l1 l2 : List TreeNode)
    (hp : l1.Perm l2)
    (hties : ∀ a ∈ l1, ∀ b ∈ l1,
      sortLess rt a b = false → sortLess rt b a = false → a = b) :
    rt.sortSlice (sortLess rt) l1 = rt.sortSlice (sortLess rt) l2 := by
  have h1 := hrt (sortLess rt) (sortLess_strictWeakOrder rt) l1
  have h2 := hrt (sortLess rt) (sortLess_strictWeakOrder rt) l2
  apply sorted_perm_unique (sortLess rt) _ _ ((h1.1.trans hp).trans h2.1.symm) h1.2 h2.2
  intro a ha b hb
  exact hties a (h1.1.mem_iff.1 ha) b (h1.1.mem_iff.1 hb)

/-- Two nodes tie under the comparison exactly when they are of the same
kind and their lower-cased names are equal. -/
theorem sortLess_tie_iff (rt : Runtime) (a b : TreeNode) :
    (sortLess rt a b = false ∧ sortLess rt b a = false) ↔
      (a.IsDir = b.IsDir ∧ rt.ToLower a.Name = rt.ToLower b.Name) := by
  unfold sortLess
  cases a.IsDir <;> cases b.IsDir <;> simp
  · constructor
    · intro h; exact le_antisymm h.2 h.1
    · intro h; rw [h]; exact ⟨le_refl _, le_refl _⟩
  · constructor
    · intro h; exact le_antisymm h.2 h.1
    · intro h; rw [h]; exact ⟨le_refl _, le_refl _⟩

/-! ### From the loops to a sequence of passes -/

theorem foldl_addPart (rt : Runtime) (file : FileMetadata) (nparts : Nat) :
    ∀ (parts : List (Nat × Str)) (st : BuildState),
      (parts.foldl (addPart rt file nparts) st).root =
        (stepsFrom file nparts st.currentPath st.currentNode parts).foldl (ensureNode rt) st.root
  | [], st => rfl
  | ip :: rest, st => by
    simp only [List.foldl_cons]
    rw [foldl_addPart rt file nparts rest]
    by_cases hp : ip.2 = []
    · simp [addPart, stepsFrom, hp]
    · simp only [addPart, hp, if_false, stepsFrom, List.foldl_cons]
      cases hf : findCell st.root
          (if st.currentPath ≠ [] then filepath.Join [st.currentPath, ip.2] else ip.2) with
      | some cell => simp only [ensureNode, hf]
      | none =>
        cases hn : st.currentNode with
        | none => simp only [ensureNode, hf, hn]
        | some parent => simp only [ensureNode, hf, hn]

theorem addFile_eq (rt : Runtime) (root : List (Str × NodeCell)) (file : FileMetadata) :
    addFile rt root file = (fileSteps file).foldl (ensureNode rt) root := by
  unfold addFile fileSteps
  exact foldl_addPart rt file _ _ _

theorem foldl_addFile (rt : Runtime) :
    ∀ (files : List FileMetadata) (root : List (Str × NodeCell)),
      files.foldl (addFile rt) root = (treeSteps files).foldl (ensureNode rt) root
  | [], root => rfl
  | file :: rest, root => by
    simp only [List.foldl_cons, treeSteps, List.flatMap_cons, List.foldl_append]
    rw [foldl_addFile rt rest, addFile_eq]
    rfl

/-! ### The map after a sequence of passes -/

theorem findCell_eq_none (root : List (Str × NodeCell)) (key : Str) :
    findCell root key = none ↔ key ∉ keysOf root := by
  induction root with
  | nil => simp [findCell, keysOf]
  | cons e rest ih =>
    unfold findCell keysOf at ih ⊢
    by_cases he : e.1 = key
    · simp [List.find?_cons, he]
    · have he2 : ¬ key = e.1 := fun hh => he hh.symm
      simpa [List.find?_cons, he, he2] using ih

theorem findCell_some_mem (root : List (Str × NodeCell)) (key : Str) (c : NodeCell)
    (h : findCell root key = some c) : (key, c) ∈ root := by
  induction root with
  | nil => simp [findCell] at h
  | cons e rest ih =>
    unfold findCell at h ih
    by_cases he : e.1 = key
    · simp [List.find?_cons, he] at h
      rw [← h, ← he]
      exact List.mem_cons_self _ _
    · simp only [List.find?_cons, he, decide_False] at h
      exact List.mem_cons_of_mem _ (ih h)

theorem mem_findCell (root : List (Str × NodeCell)) (key : Str) (c : NodeCell)
    (hn : (keysOf root).Nodup) (h : (key, c) ∈ root) : findCell root key = some c := by
  induction root with
  | nil => simp at h
  | cons e rest ih =>
    unfold keysOf at hn ih
    rw [List.map_cons, List.nodup_cons] at hn
    unfold findCell at ih ⊢
    rcases List.mem_cons.1 h with h | h
    · simp [List.find?_cons, ← h]
    · have hne : ¬ e.1 = key := by
        intro hh
        apply hn.1
        rw [hh]
        exact List.mem_map.2 ⟨(key, c), h, rfl⟩
      simp only [List.find?_cons, hne, decide_False]
      exact ih hn.2 h

theorem appendChild_eq_linkChild (root : List (Str × NodeCell)) (parent child : Str) :
    appendChild root parent child = linkChild root (some parent) child := by
  unfold appendChild linkChild
  apply List.map_congr_left
  intro e _
  by_cases h : e.1 = parent
  · simp [h]
  · have h2 : ¬ parent = e.1 := fun hh => h hh.symm
    simp [h, h2]

theorem linkChild_none (root : List (Str × NodeCell)) (child : Str) :
    linkChild root none child = root := by
  unfold linkChild
  simp

theorem ensureNode_new (rt : Runtime) (root : List (Str × NodeCell)) (e : Step)
    (h : findCell root e.key = none) :
    ensureNode rt root e = linkChild (root ++ [(e.key, e.cell rt)]) e.parent e.key := by
  unfold ensureNode
  simp only [h]
  cases hp : e.parent with
  | none => simp only [linkChild_none]; rfl
  | some p => simp only [appendChild_eq_linkChild]; rfl

theorem keysOf_linkChild (root : List (Str × NodeCell)) (parent : Option Str) (child : Str) :
    keysOf (linkChild root parent child) = keysOf root := by
  unfold keysOf linkChild
  rw [List.map_map]
  apply List.map_congr_left
  intro e _
  simp only [Function.comp]
  split <;> rfl

theorem mem_linkChild (root : List (Str × NodeCell)) (parent : Option Str) (child : Str)
    (k : Str) (c : NodeCell) :
    (k, c) ∈ linkChild root parent child ↔
      ∃ c0, (k, c0) ∈ root ∧
        c = if parent = some k then { c0 with Children := c0.Children ++ [child] } else c0 := by
  unfold linkChild
  rw [List.mem_map]
  constructor
  · rintro ⟨⟨k0, c0⟩, hmem, heq⟩
    by_cases hp : parent = some k0
    · simp only [hp, if_true, Prod.mk.injEq] at heq
      obtain ⟨hk, hc⟩ := heq
      subst hk
      exact ⟨c0, hmem, by simp [hp, ← hc]⟩
    · simp only [hp, if_false, Prod.mk.injEq] at heq
      obtain ⟨hk, hc⟩ := heq
      subst hk
      exact ⟨c0, hmem, by simp [hp, ← hc]⟩
  · rintro ⟨c0, hmem, heq⟩
    refine ⟨(k, c0), hmem, ?_⟩
    by_cases hp : parent = some k
    · simp [hp, heq]
    · simp [hp, heq]

theorem childrenLater_linkChild (parent : Option Str) (nk : Str) (ncell : NodeCell)
    (hc : ncell.Children = []) (hp : parent ≠ some nk) :
    ∀ root : List (Str × NodeCell), ChildrenLater root →
      ChildrenLater (linkChild (root ++ [(nk, ncell)]) parent nk)
  | [], _ => by
    simp [linkChild, hp, ChildrenLater, hc]
  | e :: rest, h => by
    have ih := childrenLater_linkChild parent nk ncell hc hp rest h.2
    have hk : keysOf (linkChild (rest ++ [(nk, ncell)]) parent nk) = keysOf rest ++ [nk] := by
      rw [keysOf_linkChild]; simp [keysOf]
    have hcons : linkChild (e :: rest ++ [(nk, ncell)]) parent nk =
        (if parent = some e.1 then (e.1, { e.2 with Children := e.2.Children ++ [nk] }) else e) ::
          linkChild (rest ++ [(nk, ncell)]) parent nk := by
      simp [linkChild]
    rw [hcons]
    refine ⟨?_, ih⟩
    rw [hk]
    intro x hx
    by_cases hpe : parent = some e.1
    · simp only [hpe, if_true, List.mem_append, List.mem_singleton] at hx
      rcases hx with hx | hx
      · exact List.mem_append_left _ (h.1 x hx)
      · rw [hx]; simp
    · simp only [hpe, if_false] at hx
      exact List.mem_append_left _ (h.1 x hx)

theorem rootInv_nil (rt : Runtime) : RootInv rt [] [] where
  nodup := by simp [keysOf]
  keys := by simp [keysOf]
  cells := by simp
  childNodup := by simp
  children := by simp
  parents := by simp
  later := trivial

/-- A pass for a key that the map already has leaves the invariant in place. -/
theorem rootInv_step_old (rt : Runtime) (done : List Step) (root : List (Str × NodeCell))
    (e : Step) (hinv : RootInv rt done root) (hcoh : Coherent (done ++ [e]))
    (hold : e.key ∈ keysOf root) : RootInv rt (done ++ [e]) root := by
  have he_done : e ∈ done := by
    obtain ⟨e0, he0, hk⟩ := (hinv.keys e.key).1 hold
    have := hcoh e0 (List.mem_append_left _ he0) e (by simp) hk
    rw [← this]; exact he0
  have hsame : ∀ e2, e2 ∈ done ++ [e] ↔ e2 ∈ done := by
    intro e2
    simp only [List.mem_append, List.mem_singleton]
    constructor
    · rintro (h | h)
      · exact h
      · rw [h]; exact he_done
    · intro h; exact Or.inl h
  exact
    { nodup := hinv.nodup
      keys := fun k => by
        rw [hinv.keys k]
        exact ⟨fun ⟨e2, h2, hk⟩ => ⟨e2, (hsame e2).2 h2, hk⟩,
          fun ⟨e2, h2, hk⟩ => ⟨e2, (hsame e2).1 h2, hk⟩⟩
      cells := fun k c h => by
        obtain ⟨e2, h2, hr⟩ := hinv.cells k c h
        exact ⟨e2, (hsame e2).2 h2, hr⟩
      childNodup := hinv.childNodup
      children := fun k c h x => by
        rw [hinv.children k c h x]
        exact ⟨fun ⟨e2, h2, hk⟩ => ⟨e2, (hsame e2).2 h2, hk⟩,
          fun ⟨e2, h2, hk⟩ => ⟨e2, (hsame e2).1 h2, hk⟩⟩
      parents := fun e2 h2 p hp => hinv.parents e2 ((hsame e2).1 h2) p hp
      later := hinv.later }

/-- A pass for a new key creates the node and links it; the invariant stays
in place. -/
theorem rootInv_step_new (rt : Runtime) (done : List Step) (root : List (Str × NodeCell))
    (e : Step) (hinv : RootInv rt done root)
    (hpar : ∀ p, e.parent = some p → p ∈ keysOf root)
    (hnew : e.key ∉ keysOf root) :
    RootInv rt (done ++ [e]) (linkChild (root ++ [(e.key, e.cell rt)]) e.parent e.key) := by
  have hpne : e.parent ≠ some e.key := fun hh => hnew (hpar _ hh)
  have hkeys : keysOf (linkChild (root ++ [(e.key, e.cell rt)]) e.parent e.key) =
      keysOf root ++ [e.key] := by
    rw [keysOf_linkChild]; simp [keysOf]
  have hchild_old : ∀ k c, (k, c) ∈ root → e.key ∉ c.Children := by
    intro k c h hx
    obtain ⟨e2, h2, hk, _⟩ := (hinv.children k c h e.key).1 hx
    exact hnew ((hinv.keys e.key).2 ⟨e2, h2, hk⟩)
  have hno_child : ∀ e2 ∈ done ++ [e], e2.parent ≠ some e.key := by
    intro e2 h2 hh
    simp only [List.mem_append, List.mem_singleton] at h2
    rcases h2 with h2 | h2
    · exact hnew (hinv.parents e2 h2 _ hh)
    · rw [h2] at hh; exact hpne hh
  refine
    { nodup := ?_, keys := ?_, cells := ?_, childNodup := ?_, children := ?_, parents := ?_,
      later := ?_ }
  · rw [hkeys]
    exact List.Nodup.append hinv.nodup (List.nodup_singleton _)
      (List.disjoint_singleton.2 hnew)
  · intro k
    rw [hkeys]
    simp only [List.mem_append, List.mem_singleton]
    constructor
    · rintro (h | h)
      · obtain ⟨e2, h2, hk⟩ := (hinv.keys k).1 h
        exact ⟨e2, Or.inl h2, hk⟩
      · exact ⟨e, Or.inr rfl, h.symm⟩
    · rintro ⟨e2, h2 | h2, hk⟩
      · exact Or.inl ((hinv.keys k).2 ⟨e2, h2, hk⟩)
      · right; rw [← hk, h2]
  · intro k c h
    obtain ⟨c0, h0, hc⟩ := (mem_linkChild _ _ _ k c).1 h
    have hfields : c.Name = c0.Name ∧ c.Path = c0.Path ∧ c.IsDir = c0.IsDir ∧
        c.Icon = c0.Icon := by
      rw [hc]; split <;> simp
    rw [hfields.1, hfields.2.1, hfields.2.2.1, hfields.2.2.2]
    simp only [List.mem_append, List.mem_singleton] at h0
    rcases h0 with h0 | h0
    · obtain ⟨e2, h2, hr⟩ := hinv.cells k c0 h0
      exact ⟨e2, List.mem_append_left _ h2, hr⟩
    · simp only [Prod.mk.injEq] at h0
      refine ⟨e, by simp, h0.1.symm, ?_⟩
      rw [h0.2]
      simp [Step.cell]
  · intro k c h
    obtain ⟨c0, h0, hc⟩ := (mem_linkChild _ _ _ k c).1 h
    simp only [List.mem_append, List.mem_singleton] at h0
    rcases h0 with h0 | h0
    · by_cases hp : e.parent = some k
      · rw [hc]
        simp only [hp, if_true]
        exact List.Nodup.append (hinv.childNodup k c0 h0) (List.nodup_singleton _)
          (List.disjoint_singleton.2 (hchild_old k c0 h0))
      · rw [hc]
        simp only [hp, if_false]
        exact hinv.childNodup k c0 h0
    · simp only [Prod.mk.injEq] at h0
      rw [hc, h0.2]
      split <;> simp [Step.cell]
  · intro k c h x
    obtain ⟨c0, h0, hc⟩ := (mem_linkChild _ _ _ k c).1 h
    simp only [List.mem_append, List.mem_singleton] at h0
    rcases h0 with h0 | h0
    · by_cases hp : e.parent = some k
      · rw [hc]
        simp only [hp, if_true, List.mem_append, List.mem_singleton]
        rw [hinv.children k c0 h0 x]
        constructor
        · rintro (⟨e2, h2, hr⟩ | hx)
          · exact ⟨e2, Or.inl h2, hr⟩
          · exact ⟨e, Or.inr rfl, hx.symm, hp⟩
        · rintro ⟨e2, h2 | h2, hk, hpk⟩
          · exact Or.inl ⟨e2, h2, hk, hpk⟩
          · right; rw [← hk, h2]
      · rw [hc]
        simp only [hp, if_false, List.mem_append, List.mem_singleton]
        rw [hinv.children k c0 h0 x]
        constructor
        · rintro ⟨e2, h2, hr⟩
          exact ⟨e2, Or.inl h2, hr⟩
        · rintro ⟨e2, h2 | h2, hk, hpk⟩
          · exact ⟨e2, h2, hk, hpk⟩
          · rw [h2] at hpk; exact absurd hpk hp
    · simp only [Prod.mk.injEq] at h0
      have hck : c.Children = [] := by
        rw [hc, h0.2]
        have : ¬ e.parent = some k := by rw [h0.1]; exact hpne
        simp [this, Step.cell]
      rw [hck]
      simp only [List.not_mem_nil, false_iff, not_exists, not_and]
      intro e2 h2 _ hpk
      rw [h0.1] at hpk
      exact hno_child e2 h2 hpk
  · intro e2 h2 p hp
    rw [hkeys]
    simp only [List.mem_append, List.mem_singleton] at h2
    rcases h2 with h2 | h2
    · exact List.mem_append_left _ (hinv.parents e2 h2 p hp)
    · rw [h2] at hp; exact List.mem_append_left _ (hpar p hp)
  · exact childrenLater_linkChild e.parent e.key (e.cell rt) rfl hpne root hinv.later

theorem coherent_prefix (done rest : List Step) (h : Coherent (done ++ rest)) (e : Step)
    (rest2 : List Step) (hr : rest = e :: rest2) : Coherent (done ++ [e]) := by
  intro a ha b hb hk
  apply h a _ b _ hk
  · simp only [List.mem_append, List.mem_singleton] at ha ⊢
    rcases ha with ha | ha
    · exact Or.inl ha
    · right; rw [hr, ha]; exact List.mem_cons_self _ _
  · simp only [List.mem_append, List.mem_singleton] at hb ⊢
    rcases hb with hb | hb
    · exact Or.inl hb
    · right; rw [hr, hb]; exact List.mem_cons_self _ _

/-- The invariant after all passes. -/
theorem rootInv_foldl (rt : Runtime) :
    ∀ (rest done : List Step) (seen : List Str) (root : List (Str × NodeCell)),
      RootInv rt done root → Coherent (done ++ rest) → ParentsFirst seen rest →
      (∀ k ∈ seen, k ∈ keysOf root) →
      RootInv rt (done ++ rest) (rest.foldl (ensureNode rt) root)
  | [], done, _, root, hinv, _, _, _ => by simpa using hinv
  | e :: rest, done, seen, root, hinv, hcoh, hpf, hseen => by
    have hpar : ∀ p, e.parent = some p → p ∈ keysOf root :=
      fun p hp => hseen p (hpf.1 p hp)
    have hcoh1 := coherent_prefix done (e :: rest) hcoh e rest rfl
    have hstep : RootInv rt (done ++ [e]) (ensureNode rt root e) ∧
        ∀ k ∈ keysOf root, k ∈ keysOf (ensureNode rt root e) := by
      cases hf : findCell root e.key with
      | none =>
        rw [ensureNode_new rt root e hf]
        refine ⟨rootInv_step_new rt done root e hinv hpar ((findCell_eq_none _ _).1 hf), ?_⟩
        intro k hk
        rw [keysOf_linkChild]
        simp only [keysOf, List.map_append, List.mem_append]
        exact Or.inl hk
      | some c =>
        have hold : e.key ∈ keysOf root := by
          by_contra hh
          rw [(findCell_eq_none _ _).2 hh] at hf
          cases hf
        have : ensureNode rt root e = root := by simp [ensureNode, hf]
        rw [this]
        exact ⟨rootInv_step_old rt done root e hinv hcoh1 hold, fun k hk => hk⟩
    have hrec := rootInv_foldl rt rest (done ++ [e]) (e.key :: seen) (ensureNode rt root e)
      hstep.1 (by simpa using hcoh) hpf.2
      (by
        intro k hk
        rcases List.mem_cons.1 hk with hk | hk
        · exact (hstep.1.keys k).2 ⟨e, by simp, hk.symm⟩
        · exact hstep.2 k (hseen k hk))
    simpa using hrec

theorem parentsFirst_mono :
    ∀ (steps : List Step) (s1 s2 : List Str), (∀ k ∈ s1, k ∈ s2) →
      ParentsFirst s1 steps → ParentsFirst s2 steps
  | [], _, _, _, _ => trivial
  | e :: rest, s1, s2, hsub, h =>
    ⟨fun p hp => hsub p (h.1 p hp),
      parentsFirst_mono rest (e.key :: s1) (e.key :: s2)
        (fun k hk => by
          rcases List.mem_cons.1 hk with hk | hk
          · rw [hk]; exact List.mem_cons_self _ _
          · exact List.mem_cons_of_mem _ (hsub k hk))
        h.2⟩

theorem parentsFirst_append :
    ∀ (a b : List Step) (seen : List Str), ParentsFirst seen a → ParentsFirst seen b →
      ParentsFirst seen (a ++ b)
  | [], _, _, _, hb => hb
  | e :: rest, b, seen, ha, hb =>
    ⟨ha.1, parentsFirst_append rest b (e.key :: seen) ha.2
      (parentsFirst_mono b seen (e.key :: seen) (fun _ hk => List.mem_cons_of_mem _ hk) hb)⟩

theorem parentsFirst_stepsFrom (file : FileMetadata) (nparts : Nat) :
    ∀ (parts : List (Nat × Str)) (cur : Str) (node : Option Str) (seen : List Str),
      (∀ p, node = some p → p ∈ seen) →
      ParentsFirst seen (stepsFrom file nparts cur node parts)
  | [], _, _, _, _ => trivial
  | ip :: rest, cur, node, seen, h => by
    unfold stepsFrom
    by_cases hp : ip.2 = []
    · simp only [hp, if_true]
      exact parentsFirst_stepsFrom file nparts rest cur node seen h
    · simp only [hp, if_false]
      refine ⟨h, ?_⟩
      apply parentsFirst_stepsFrom file nparts rest
      intro p hp2
      simp only [Option.some.injEq] at hp2
      rw [← hp2]
      exact List.mem_cons_self _ _

theorem parentsFirst_treeSteps :
    ∀ (files : List FileMetadata) (seen : List Str), ParentsFirst seen (treeSteps files)
  | [], _ => trivial
  | file :: rest, seen => by
    simp only [treeSteps, List.flatMap_cons]
    apply parentsFirst_append
    · exact parentsFirst_stepsFrom file _ _ _ _ _ (by simp)
    · exact parentsFirst_treeSteps rest seen

/-- The map that `buildFileTree` builds satisfies the invariant. -/
theorem rootInv_build (rt : Runtime) (files : List FileMetadata)
    (hcoh : Coherent (treeSteps files)) :
    RootInv rt (treeSteps files) (files.foldl (addFile rt) []) := by
  rw [foldl_addFile]
  have := rootInv_foldl rt (treeSteps files) [] [] [] (rootInv_nil rt) (by simpa using hcoh)
    (parentsFirst_treeSteps files []) (by simp)
  simpa using this

/-! ### The nodes as values -/

theorem keys_materialize :
    ∀ root : List (Str × NodeCell), (materialize root).map (fun e => e.1) = keysOf root
  | [] => rfl
  | (key, cell) :: rest => by
    simp only [materialize, List.map_cons, keysOf]
    rw [keys_materialize rest]
    rfl

theorem treeOf_cons_ne (e : Str × NodeCell) (rest : List (Str × NodeCell)) (key : Str)
    (h : e.1 ≠ key) : treeOf (e :: rest) key = treeOf rest key := by
  obtain ⟨k0, c0⟩ := e
  simp only [treeOf, materialize, List.find?_cons]
  have : decide (k0 = key) = false := by simpa using h
  simp [this]

theorem treeOf_head (k0 : Str) (c0 : NodeCell) (rest : List (Str × NodeCell)) :
    treeOf ((k0, c0) :: rest) k0 =
      some (TreeNode.mk c0.Name c0.Path c0.Icon c0.IsDir
        (c0.Children.filterMap (treeOf rest))) := by
  have h : treeOf rest = fun child =>
      ((materialize rest).find? (fun e => decide (e.1 = child))).map (fun e => e.2) := rfl
  rw [h]
  simp [treeOf, materialize]

theorem treeOf_eq_none (root : List (Str × NodeCell)) (key : Str) (h : key ∉ keysOf root) :
    treeOf root key = none := by
  unfold treeOf
  rw [Option.map_eq_none', List.find?_eq_none]
  intro e he
  simp only [decide_eq_true_eq]
  intro hk
  apply h
  rw [← keys_materialize, ← hk]
  exact List.mem_map.2 ⟨e, he, rfl⟩

theorem childrenLater_mem :
    ∀ (root : List (Str × NodeCell)), ChildrenLater root → ∀ k c, (k, c) ∈ root →
      ∀ x ∈ c.Children, x ∈ keysOf root
  | [], _, _, _, h, _, _ => by simp at h
  | e :: rest, hl, k, c, h, x, hx => by
    simp only [keysOf, List.map_cons, List.mem_cons]
    right
    rcases List.mem_cons.1 h with h | h
    · have := hl.1 x (by rw [← h]; exact hx)
      exact this
    · exact childrenLater_mem rest hl.2 k c h x hx

/-- The value of a node is the node with the values of its children. -/
theorem treeOf_mem :
    ∀ (root : List (Str × NodeCell)), (keysOf root).Nodup → ChildrenLater root →
      ∀ k c, (k, c) ∈ root →
        treeOf root k =
          some (TreeNode.mk c.Name c.Path c.Icon c.IsDir (c.Children.filterMap (treeOf root)))
  | [], _, _, _, _, h => by simp at h
  | (k0, c0) :: rest, hn, hl, k, c, h => by
    have hn2 : k0 ∉ keysOf rest ∧ (keysOf rest).Nodup := by
      simpa [keysOf] using hn
    have hrest : ∀ x ∈ keysOf rest, treeOf ((k0, c0) :: rest) x = treeOf rest x := by
      intro x hx
      apply treeOf_cons_ne
      intro hh
      exact hn2.1 (by rw [show k0 = x from hh]; exact hx)
    rcases List.mem_cons.1 h with h | h
    · simp only [Prod.mk.injEq] at h
      obtain ⟨hk, hc⟩ := h
      subst hk hc
      have hfm : c.Children.filterMap (treeOf ((k, c) :: rest)) =
          c.Children.filterMap (treeOf rest) :=
        List.filterMap_congr (fun x hx => hrest x (hl.1 x hx))
      rw [hfm]
      exact treeOf_head k c rest
    · have hk : k ∈ keysOf rest := List.mem_map.2 ⟨(k, c), h, rfl⟩
      rw [hrest k hk, treeOf_mem rest hn2.2 hl.2 k c h]
      have hfm : c.Children.filterMap (treeOf ((k0, c0) :: rest)) =
          c.Children.filterMap (treeOf rest) :=
        List.filterMap_congr
          (fun x hx => hrest x (childrenLater_mem rest hl.2 k c h x hx))
      rw [hfm]

/-- The values of all nodes, in order of creation. -/
theorem materialize_values :
    ∀ (root : List (Str × NodeCell)), (keysOf root).Nodup →
      (materialize root).map (fun e => e.2) = (keysOf root).filterMap (treeOf root)
  | [], _ => rfl
  | (k0, c0) :: rest, hn => by
    have hn2 : k0 ∉ keysOf rest ∧ (keysOf rest).Nodup := by
      simpa [keysOf] using hn
    have hfm : (keysOf rest).filterMap (treeOf ((k0, c0) :: rest)) =
        (keysOf rest).filterMap (treeOf rest) :=
      List.filterMap_congr (fun x hx => treeOf_cons_ne _ _ _
        (fun hh => hn2.1 (by rw [show k0 = x from hh]; exact hx)))
    have hhead := treeOf_head k0 c0 rest
    have hm : (materialize ((k0, c0) :: rest)).map (fun e => e.2) =
        TreeNode.mk c0.Name c0.Path c0.Icon c0.IsDir (c0.Children.filterMap (treeOf rest)) ::
          (materialize rest).map (fun e => e.2) := rfl
    rw [hm, materialize_values rest hn2.2]
    simp only [keysOf, List.map_cons, List.filterMap_cons, hhead]
    rw [show List.map (fun e => e.1) rest = keysOf rest from rfl, hfm]

/-! ### Sorted values do not depend on the order of creation -/

theorem sortChildren_eq_map (rt : Runtime) :
    ∀ nodes : List TreeNode, sortChildren rt nodes = nodes.map (sortNode rt)
  | [] => by simp [sortChildren]
  | node :: rest => by
    simp only [sortChildren, List.map_cons]
    rw [sortChildren_eq_map rt rest]

theorem sortNode_mk (rt : Runtime) (name path : Str) (icon : String) (isDir : Bool)
    (children : List TreeNode) :
    sortNode rt (TreeNode.mk name path icon isDir children) =
      TreeNode.mk name path icon isDir
        (rt.sortSlice (sortLess rt) (children.map (sortNode rt))) := by
  simp only [sortNode]
  rw [sortChildren_eq_map]

theorem sortNode_Path (rt : Runtime) (node : TreeNode) : (sortNode rt node).Path = node.Path := by
  cases node with
  | mk name path icon isDir children => simp [sortNode, TreeNode.Path]

/-- The fields of a node are those of every pass that asks for its key. -/
theorem RootInv.cell_of_step {rt : Runtime} {steps : List Step} {root : List (Str × NodeCell)}
    (hinv : RootInv rt steps root) (hcoh : Coherent steps) {k : Str} {c : NodeCell}
    (h : (k, c) ∈ root) {e : Step} (he : e ∈ steps) (hk : e.key = k) :
    c.Name = e.name ∧ c.Path = k ∧ c.IsDir = e.isDir ∧
      c.Icon = getFileIcon rt e.name e.isDir := by
  obtain ⟨e0, h0, hk0, hr⟩ := hinv.cells k c h
  have : e0 = e := hcoh e0 h0 e he (hk0.trans hk.symm)
  subst this
  rw [← hk]
  exact hr

theorem RootInv.mem_of_key {rt : Runtime} {steps : List Step} {root : List (Str × NodeCell)}
    (_hinv : RootInv rt steps root) {k : Str} (h : k ∈ keysOf root) : ∃ c, (k, c) ∈ root := by
  obtain ⟨⟨k0, c0⟩, hmem, hk⟩ := List.mem_map.1 h
  simp only at hk
  subst hk
  exact ⟨c0, hmem⟩

/-- The sorted value of a node: the node with the sorted list of the sorted
values of its children. -/
theorem RootInv.sortedTreeOf_mem {rt : Runtime} {steps : List Step}
    {root : List (Str × NodeCell)} (hinv : RootInv rt steps root) {k : Str} {c : NodeCell}
    (h : (k, c) ∈ root) :
    sortedTreeOf rt root k =
      some (TreeNode.mk c.Name c.Path c.Icon c.IsDir
        (rt.sortSlice (sortLess rt) (c.Children.filterMap (sortedTreeOf rt root)))) := by
  unfold sortedTreeOf
  rw [treeOf_mem root hinv.nodup hinv.later k c h]
  simp only [Option.map_some', sortNode_mk, List.map_filterMap]

/-- A sorted value among the children of a node comes from a pass that names
the node as parent. -/
theorem RootInv.child_value {rt : Runtime} {steps : List Step} {root : List (Str × NodeCell)}
    (hinv : RootInv rt steps root) (hcoh : Coherent steps) {k : Str} {c : NodeCell}
    (h : (k, c) ∈ root) {a : TreeNode}
    (ha : a ∈ c.Children.filterMap (sortedTreeOf rt root)) :
    ∃ e ∈ steps, e.parent = some k ∧ a.Name = e.name ∧ a.IsDir = e.isDir ∧
      sortedTreeOf rt root e.key = some a := by
  obtain ⟨x, hx, hxa⟩ := List.mem_filterMap.1 ha
  obtain ⟨e, he, hek, hep⟩ := (hinv.children k c h x).1 hx
  have hxk : x ∈ keysOf root := (hinv.keys x).2 ⟨e, he, hek⟩
  obtain ⟨cx, hcx⟩ := hinv.mem_of_key hxk
  have hf := hinv.cell_of_step hcoh hcx he hek
  rw [hinv.sortedTreeOf_mem hcx] at hxa
  simp only [Option.some.injEq] at hxa
  refine ⟨e, he, hep, ?_, ?_, ?_⟩
  · rw [← hxa]; exact hf.1
  · rw [← hxa]; exact hf.2.2.1
  · rw [hek, hinv.sortedTreeOf_mem hcx, hxa]

/-- A sorted value of a node comes from a pass that asks for its path. -/
theorem RootInv.value_of_key {rt : Runtime} {steps : List Step} {root : List (Str × NodeCell)}
    (hinv : RootInv rt steps root) (hcoh : Coherent steps) {a : TreeNode}
    (ha : a ∈ (keysOf root).filterMap (sortedTreeOf rt root)) :
    ∃ e ∈ steps, a.Path = e.key ∧ a.Name = e.name ∧ a.IsDir = e.isDir ∧
      sortedTreeOf rt root e.key = some a := by
  obtain ⟨x, hx, hxa⟩ := List.mem_filterMap.1 ha
  obtain ⟨e, he, hek⟩ := (hinv.keys x).1 hx
  obtain ⟨cx, hcx⟩ := hinv.mem_of_key hx
  have hf := hinv.cell_of_step hcoh hcx he hek
  rw [hinv.sortedTreeOf_mem hcx] at hxa
  simp only [Option.some.injEq] at hxa
  refine ⟨e, he, ?_, ?_, ?_, ?_⟩
  · rw [← hxa, hek]; exact hf.2.1
  · rw [← hxa]; exact hf.1
  · rw [← hxa]; exact hf.2.2.1
  · rw [hek, hinv.sortedTreeOf_mem hcx, hxa]

theorem childrenLater_append :
    ∀ (A : List (Str × NodeCell)) (e : Str × NodeCell) (B : List (Str × NodeCell)),
      ChildrenLater (A ++ e :: B) → ∀ x ∈ e.2.Children, x ∈ keysOf B
  | [], _, _, h => h.1
  | _ :: A, e, B, h => childrenLater_append A e B h.2

/-- The sorted value under a key is the same in two maps built from the same
passes in different orders. -/
theorem sortedTreeOf_eq (rt : Runtime) (hrt : rt.SortsCorrectly) (steps1 steps2 : List Step)
    (root1 root2 : List (Str × NodeCell)) (h1 : RootInv rt steps1 root1)
    (h2 : RootInv rt steps2 root2) (hsame : ∀ e, e ∈ steps1 ↔ e ∈ steps2)
    (hcoh : Coherent steps1) (hties : TieFree rt steps1) :
    ∀ k, sortedTreeOf rt root1 k = sortedTreeOf rt root2 k := by
  have hcoh2 : Coherent steps2 := fun a ha b hb hk =>
    hcoh a ((hsame a).2 ha) b ((hsame b).2 hb) hk
  have hkeys : ∀ k, k ∈ keysOf root1 ↔ k ∈ keysOf root2 := by
    intro k
    rw [h1.keys, h2.keys]
    exact ⟨fun ⟨e, he, hk⟩ => ⟨e, (hsame e).1 he, hk⟩,
      fun ⟨e, he, hk⟩ => ⟨e, (hsame e).2 he, hk⟩⟩
  have aux : ∀ (B A : List (Str × NodeCell)), root1 = A ++ B → ∀ k c, (k, c) ∈ B →
      sortedTreeOf rt root1 k = sortedTreeOf rt root2 k := by
    intro B
    induction B with
    | nil => intro A _ k c h; simp at h
    | cons e0 B ih =>
      intro A hA k c h
      have ihB := ih (A ++ [e0]) (by rw [hA]; simp)
      rcases List.mem_cons.1 h with h | h
      swap
      · exact ihB k c h
      · have hmem1 : (k, c) ∈ root1 := by
          rw [hA, h]; simp
        obtain ⟨c2, hmem2⟩ := h2.mem_of_key ((hkeys k).1 (List.mem_map.2 ⟨(k, c), hmem1, rfl⟩))
        obtain ⟨e, he, hek, _⟩ := h1.cells k c hmem1
        have f1 := h1.cell_of_step hcoh hmem1 he hek
        have f2 := h2.cell_of_step hcoh2 hmem2 ((hsame e).1 he) hek
        have hlater : ∀ x ∈ c.Children, x ∈ keysOf B := by
          have := childrenLater_append A e0 B (by rw [← hA]; exact h1.later)
          rw [← h] at this
          exact this
        have hchild : ∀ x ∈ c.Children,
            sortedTreeOf rt root1 x = sortedTreeOf rt root2 x := by
          intro x hx
          obtain ⟨⟨kx, cx⟩, hcx, hkx⟩ := List.mem_map.1 (hlater x hx)
          simp only at hkx
          subst hkx
          exact ihB kx cx hcx
        have hperm : c.Children.Perm c2.Children := by
          rw [List.perm_ext_iff_of_nodup (h1.childNodup k c hmem1) (h2.childNodup k c2 hmem2)]
          intro x
          rw [h1.children k c hmem1 x, h2.children k c2 hmem2 x]
          exact ⟨fun ⟨e, he, hk⟩ => ⟨e, (hsame e).1 he, hk⟩,
            fun ⟨e, he, hk⟩ => ⟨e, (hsame e).2 he, hk⟩⟩
        have hl : (c.Children.filterMap (sortedTreeOf rt root1)).Perm
            (c2.Children.filterMap (sortedTreeOf rt root2)) := by
          rw [List.filterMap_congr hchild]
          exact hperm.filterMap _
        rw [h1.sortedTreeOf_mem hmem1, h2.sortedTreeOf_mem hmem2, f1.1, f1.2.1, f1.2.2.1,
          f1.2.2.2, f2.1, f2.2.1, f2.2.2.1, f2.2.2.2]
        congr 2
        apply sortSlice_perm_unique rt hrt _ _ hl
        intro a ha b hb hab hba
        obtain ⟨ea, hea, hpa, hna, hda, hva⟩ := h1.child_value hcoh hmem1 ha
        obtain ⟨eb, heb, hpb, hnb, hdb, hvb⟩ := h1.child_value hcoh hmem1 hb
        have htie := (sortLess_tie_iff rt a b).1 ⟨hab, hba⟩
        have hkab : ea.key = eb.key :=
          hties ea hea eb heb (Or.inl (hpa.trans hpb.symm))
            (by rw [← hda, ← hdb]; exact htie.1) (by rw [← hna, ← hnb]; exact htie.2)
        rw [hkab, hvb] at hva
        exact (Option.some.inj hva).symm
  intro k
  by_cases hk : k ∈ keysOf root1
  · obtain ⟨c, hc⟩ := h1.mem_of_key hk
    exact aux root1 [] rfl k c hc
  · have hk2 : k ∉ keysOf root2 := fun hh => hk ((hkeys k).2 hh)
    simp [sortedTreeOf, treeOf_eq_none _ _ hk, treeOf_eq_none _ _ hk2]

theorem map_sortNode_filter_topLevel (rt : Runtime) :
    ∀ nodes : List TreeNode,
      (nodes.filter (fun node => !strings.Contains node.Path [filepath.Separator])).map
          (sortNode rt) =
        (nodes.map (sortNode rt)).filter
          (fun node => !strings.Contains node.Path [filepath.Separator])
  | [] => rfl
  | node :: rest => by
    simp only [List.filter_cons, List.map_cons, sortNode_Path]
    split
    · simp only [List.map_cons]
      rw [map_sortNode_filter_topLevel rt rest]
    · exact map_sortNode_filter_topLevel rt rest

/-- `buildFileTree` in terms of the sorted values of the nodes of the map. -/
theorem buildFileTree_eq (rt : Runtime) (files : List FileMetadata)
    (hcoh : Coherent (treeSteps files)) :
    buildFileTree rt files =
      rt.sortSlice (sortLess rt)
        (((keysOf (files.foldl (addFile rt) [])).filterMap
          (sortedTreeOf rt (files.foldl (addFile rt) []))).filter
          (fun node => !strings.Contains node.Path [filepath.Separator])) := by
  have hinv := rootInv_build rt files hcoh
  unfold buildFileTree sortNodes
  simp only []
  rw [sortChildren_eq_map, map_sortNode_filter_topLevel, materialize_values _ hinv.nodup,
    List.map_filterMap]
  rfl

/-! ### Clean relative paths -/

theorem strings.not_mem_of_mem_Split (sep : Char) :
    ∀ (s : Str) (piece : Str), piece ∈ strings.Split s sep → sep ∉ piece
  | [], piece, h => by
    simp [strings.Split] at h
    simp [h]
  | c :: s, piece, h => by
    unfold strings.Split at h
    by_cases hc : c = sep
    · simp only [hc, if_true, List.mem_cons] at h
      rcases h with h | h
      · simp [h]
      · exact strings.not_mem_of_mem_Split sep s piece h
    · simp only [hc, if_false] at h
      cases hs : strings.Split s sep with
      | nil => exact absurd hs (strings.Split_ne_nil s sep)
      | cons p r =>
        rw [hs] at h
        simp only [List.mem_cons] at h
        rcases h with h | h
        · rw [h]
          simp only [List.mem_cons, not_or]
          exact ⟨fun hh => hc hh.symm,
            strings.not_mem_of_mem_Split sep s p (by rw [hs]; exact List.mem_cons_self _ _)⟩
        · exact strings.not_mem_of_mem_Split sep s piece
            (by rw [hs]; exact List.mem_cons_of_mem _ h)

theorem strings.Split_of_not_mem (sep : Char) :
    ∀ (s : Str), sep ∉ s → strings.Split s sep = [s]
  | [], _ => rfl
  | c :: s, h => by
    simp only [List.mem_cons, not_or] at h
    have hc : ¬ c = sep := fun hh => h.1 hh.symm
    unfold strings.Split
    simp only [hc, if_false]
    rw [strings.Split_of_not_mem sep s h.2]

theorem strings.Split_Join (sep : Char) :
    ∀ (parts : List Str), parts ≠ [] → (∀ part ∈ parts, sep ∉ part) →
      strings.Split (strings.Join parts [sep]) sep = parts
  | [], h, _ => absurd rfl h
  | [a], _, h => by
    simp only [strings.Join]
    exact strings.Split_of_not_mem sep a (h a (List.mem_cons_self _ _))
  | a :: b :: rest, _, h => by
    simp only [strings.Join, List.append_assoc, List.singleton_append]
    rw [strings.Split_append_sep, strings.Split_of_not_mem sep a (h a (List.mem_cons_self _ _)),
      strings.Split_Join sep (b :: rest) (by simp)
        (fun part hp => h part (List.mem_cons_of_mem _ hp))]
    rfl

theorem strings.Join_Split (sep : Char) :
    ∀ (s : Str), strings.Join (strings.Split s sep) [sep] = s
  | [] => rfl
  | c :: s => by
    have ih := strings.Join_Split sep s
    unfold strings.Split
    by_cases hc : c = sep
    · simp only [hc, if_true]
      cases hs : strings.Split s sep with
      | nil => exact absurd hs (strings.Split_ne_nil s sep)
      | cons p r =>
        rw [hs] at ih
        simp only [strings.Join, List.nil_append, List.singleton_append, ih]
    · simp only [hc, if_false]
      cases hs : strings.Split s sep with
      | nil => exact absurd hs (strings.Split_ne_nil s sep)
      | cons p r =>
        rw [hs] at ih
        cases r with
        | nil =>
          simp only [strings.Join] at ih ⊢
          rw [ih]
        | cons q r =>
          simp only [strings.Join, List.cons_append] at ih ⊢
          rw [ih]

theorem strings.Join_snoc (parts : List Str) (a : Str) (sep : Str) (h : parts ≠ []) :
    strings.Join (parts ++ [a]) sep = strings.Join parts sep ++ sep ++ a := by
  rw [strings.Join_append parts [a] sep h (by simp)]
  rfl

theorem strings.Join_ne_nil (sep : Str) :
    ∀ (parts : List Str), parts ≠ [] → (∀ part ∈ parts, part ≠ []) →
      strings.Join parts sep ≠ []
  | [], h, _ => absurd rfl h
  | [a], _, h => by simpa [strings.Join] using h a (List.mem_cons_self _ _)
  | a :: b :: rest, _, h => by
    simp only [strings.Join, List.append_assoc, ne_eq, List.append_eq_nil, not_and]
    intro ha
    exact absurd ha (h a (List.mem_cons_self _ _))

/-- A path of clean parts is its own `Clean`. -/
theorem filepath.Clean_Join (parts : List Str) (hne : parts ≠ [])
    (hparts : ∀ part ∈ parts,
      part ≠ [] ∧ part ≠ ['.'] ∧ part ≠ ['.', '.'] ∧ filepath.Separator ∉ part) :
    filepath.Clean (strings.Join parts [filepath.Separator]) =
      strings.Join parts [filepath.Separator] := by
  have hnonempty : strings.Join parts [filepath.Separator] ≠ [] :=
    strings.Join_ne_nil _ parts hne (fun part hp => (hparts part hp).1)
  have hrel : strings.HasPrefix (strings.Join parts [filepath.Separator])
      [filepath.Separator] = false := by
    cases parts with
    | nil => exact absurd rfl hne
    | cons a rest =>
      have ha := hparts a (List.mem_cons_self _ _)
      cases a with
      | nil => exact absurd rfl ha.1
      | cons c a =>
        have hc : ¬ filepath.Separator = c := by
          intro hh
          exact ha.2.2.2 (by rw [hh]; exact List.mem_cons_self _ _)
        cases rest with
        | nil => simp [strings.Join, strings.HasPrefix, List.isPrefixOf, hc]
        | cons b rest => simp [strings.Join, strings.HasPrefix, List.isPrefixOf, hc]
  have hsplit := strings.Split_Join filepath.Separator parts hne
    (fun part hp => (hparts part hp).2.2.2)
  have hfold := filepath.foldl_cleanStep_no_dotdot false parts
    (fun hh => (hparts _ hh).2.2.1 rfl) []
  have hfilter : parts.filter filepath.keepElem = parts := by
    rw [List.filter_eq_self]
    intro part hp
    have := hparts part hp
    simp [filepath.keepElem, this.1, this.2.1]
  unfold filepath.Clean
  simp only [hnonempty, if_false, hrel, hsplit, hfold, hfilter, List.append_nil,
    List.reverse_reverse, Bool.false_eq_true]

/-- The passes over the parts of a clean path: the pass for a part asks for
the path up to that part, with the path up to the part before as parent. -/
theorem mem_stepsFrom (file : FileMetadata) :
    ∀ (rest pre : List Str) (nparts : Nat) (cur : Str) (node : Option Str) (e : Step),
      (∀ part ∈ pre ++ rest,
        part ≠ [] ∧ part ≠ ['.'] ∧ part ≠ ['.', '.'] ∧ filepath.Separator ∉ part) →
      cur = strings.Join pre [filepath.Separator] →
      node = (if pre = [] then none else some cur) →
      nparts = pre.length + rest.length →
      e ∈ stepsFrom file nparts cur node (List.enumFrom pre.length rest) →
      ∃ a part b, rest = a ++ part :: b ∧
        e.key = strings.Join (pre ++ a ++ [part]) [filepath.Separator] ∧
        e.name = part ∧
        e.parent = (if pre ++ a = [] then none
          else some (strings.Join (pre ++ a) [filepath.Separator])) ∧
        e.isDir = (decide (b ≠ []) || file.IsDir)
  | [], _, _, _, _, _, _, _, _, _, h => by simp [stepsFrom] at h
  | part :: rest, pre, nparts, cur, node, e, hparts, hcur, hnode, hn, h => by
    have hpart := hparts part (by simp)
    have hkey : (if cur ≠ [] then filepath.Join [cur, part] else part) =
        strings.Join (pre ++ [part]) [filepath.Separator] := by
      by_cases hpre : pre = []
      · subst hpre
        simp [hcur, strings.Join]
      · have hcne : cur ≠ [] := by
          rw [hcur]
          exact strings.Join_ne_nil _ pre hpre
            (fun p hp => (hparts p (List.mem_append_left _ hp)).1)
        simp only [hcne, ne_eq, not_false_eq_true, if_true, filepath.Join, if_false]
        have hj : strings.Join [cur, part] [filepath.Separator] =
            strings.Join (pre ++ [part]) [filepath.Separator] := by
          rw [strings.Join_snoc pre part _ hpre, ← hcur]
          simp [strings.Join]
        rw [hj]
        apply filepath.Clean_Join _ (by simp)
        intro p hp
        apply hparts p
        simp only [List.mem_append, List.mem_singleton, List.mem_cons, List.not_mem_nil,
          or_false] at hp ⊢
        rcases hp with hp | hp
        · exact Or.inl hp
        · exact Or.inr (Or.inl hp)
    simp only [List.enumFrom_cons, stepsFrom, hpart.1, if_false, hkey, List.mem_cons] at h
    rcases h with h | h
    · refine ⟨[], part, rest, rfl, ?_, ?_, ?_, ?_⟩
      · rw [h]; simp
      · rw [h]
      · rw [h]; simp only [List.append_nil]; exact hnode.trans (by rw [hcur])
      · rw [h]
        simp only [hn, List.length_cons]
        congr 1
        cases rest with
        | nil => simp
        | cons r rest => simp
    · have hlen : (pre ++ [part]).length = pre.length + 1 := by simp
      rw [← hlen] at h
      obtain ⟨a, p2, b, hrest, hk, hname, hpar, hdir⟩ :=
        mem_stepsFrom file rest (pre ++ [part]) nparts
          (strings.Join (pre ++ [part]) [filepath.Separator])
          (some (strings.Join (pre ++ [part]) [filepath.Separator])) e
          (by simpa using hparts) rfl (by simp)
          (by rw [hn]; simp; omega) h
      refine ⟨part :: a, p2, b, by rw [hrest]; rfl, ?_, hname, ?_, hdir⟩
      · rw [hk]; simp
      · rw [hpar]; simp

/-- The passes of a file with a clean path. -/
theorem mem_fileSteps (file : FileMetadata)
    (hclean : ∀ part ∈ strings.Split file.Path filepath.Separator,
      part ≠ [] ∧ part ≠ ['.'] ∧ part ≠ ['.', '.'])
    (e : Step) (h : e ∈ fileSteps file) :
    ∃ a part b, strings.Split file.Path filepath.Separator = a ++ part :: b ∧
      (∀ p ∈ a ++ part :: b, p ≠ [] ∧ filepath.Separator ∉ p) ∧
      e.key = strings.Join (a ++ [part]) [filepath.Separator] ∧
      e.name = part ∧
      e.parent = (if a = [] then none else some (strings.Join a [filepath.Separator])) ∧
      e.isDir = (decide (b ≠ []) || file.IsDir) := by
  have hparts : ∀ part ∈ ([] : List Str) ++ strings.Split file.Path filepath.Separator,
      part ≠ [] ∧ part ≠ ['.'] ∧ part ≠ ['.', '.'] ∧ filepath.Separator ∉ part := by
    intro part hp
    simp only [List.nil_append] at hp
    have := hclean part hp
    exact ⟨this.1, this.2.1, this.2.2, strings.not_mem_of_mem_Split _ _ _ hp⟩
  obtain ⟨a, part, b, hsplit, hk, hname, hpar, hdir⟩ :=
    mem_stepsFrom file (strings.Split file.Path filepath.Separator) []
      (strings.Split file.Path filepath.Separator).length [] none e hparts
      rfl rfl (by simp) (by simpa [fileSteps, List.enum] using h)
  refine ⟨a, part, b, hsplit, ?_, by simpa using hk, hname, by simpa using hpar, hdir⟩
  intro p hp
  rw [← hsplit] at hp
  have := hparts p (by simpa using hp)
  exact ⟨this.1, this.2.2.2⟩

/-- For clean relative paths with consistent kinds, every cumulative path is
asked for with one parent, one name and one kind. -/
theorem coherent_of_clean (files : List FileMetadata) (hclean : CleanPaths files)
    (hkinds : KindsConsistent files) : Coherent (treeSteps files) := by
  intro e he e2 he2 hkey
  obtain ⟨f, hf, hef⟩ := List.mem_flatMap.1 he
  obtain ⟨g, hg, heg⟩ := List.mem_flatMap.1 he2
  obtain ⟨a, part, b, hsf, hpf, hk, hname, hpar, hdir⟩ := mem_fileSteps f (hclean f hf) e hef
  obtain ⟨a2, part2, b2, hsg, hpg, hk2, hname2, hpar2, hdir2⟩ :=
    mem_fileSteps g (hclean g hg) e2 heg
  have hlist : a ++ [part] = a2 ++ [part2] := by
    have h1 := strings.Split_Join filepath.Separator (a ++ [part]) (by simp)
      (fun p hp => (hpf p (by
        simp only [List.mem_append, List.mem_singleton, List.mem_cons, List.not_mem_nil,
          or_false] at hp ⊢
        rcases hp with hp | hp
        · exact Or.inl hp
        · exact Or.inr (Or.inl hp))).2)
    have h2 := strings.Split_Join filepath.Separator (a2 ++ [part2]) (by simp)
      (fun p hp => (hpg p (by
        simp only [List.mem_append, List.mem_singleton, List.mem_cons, List.not_mem_nil,
          or_false] at hp ⊢
        rcases hp with hp | hp
        · exact Or.inl hp
        · exact Or.inr (Or.inl hp))).2)
    rw [← h1, ← h2, ← hk, ← hk2, hkey]
  have ha : a = a2 ∧ part = part2 := by
    have := congrArg List.reverse hlist
    simp only [List.reverse_append, List.reverse_singleton, List.singleton_append,
      List.cons.injEq, List.reverse_inj] at this
    exact ⟨this.2, this.1⟩
  obtain ⟨ha1, ha2⟩ := ha
  subst ha1 ha2
  have hpathf : f.Path = strings.Join (a ++ part :: b) [filepath.Separator] := by
    rw [← hsf, strings.Join_Split]
  have hpathg : g.Path = strings.Join (a ++ part :: b2) [filepath.Separator] := by
    rw [← hsg, strings.Join_Split]
  have hjoin : ∀ (q : Str) (r : List Str),
      strings.Join (a ++ [part]) [filepath.Separator] ++ [filepath.Separator] <+:
        strings.Join (a ++ part :: (q :: r)) [filepath.Separator] := by
    intro q r
    have hj : strings.Join (a ++ part :: q :: r) [filepath.Separator] =
        strings.Join (a ++ [part]) [filepath.Separator] ++ [filepath.Separator] ++
          strings.Join (q :: r) [filepath.Separator] := by
      rw [show a ++ part :: q :: r = (a ++ [part]) ++ (q :: r) by simp]
      exact strings.Join_append (a ++ [part]) (q :: r) [filepath.Separator] (by simp) (by simp)
    rw [hj]
    exact ⟨strings.Join (q :: r) [filepath.Separator], rfl⟩
  have hdirs : (decide (b ≠ []) || f.IsDir) = (decide (b2 ≠ []) || g.IsDir) := by
    cases b with
    | nil =>
      cases b2 with
      | nil =>
        have : f.Path = g.Path := by rw [hpathf, hpathg]
        simp [(hkinds f hf g hg).1 this]
      | cons q r =>
        have hpre : f.Path ++ [filepath.Separator] <+: g.Path := by
          rw [hpathf, hpathg]
          exact hjoin q r
        simp [(hkinds f hf g hg).2 hpre]
    | cons q r =>
      cases b2 with
      | nil =>
        have hpre : g.Path ++ [filepath.Separator] <+: f.Path := by
          rw [hpathf, hpathg]
          exact hjoin q r
        simp [(hkinds g hg f hf).2 hpre]
      | cons q2 r2 => simp
  cases e with
  | mk parent key name isDir =>
    cases e2 with
    | mk parent2 key2 name2 isDir2 =>
      simp only at hkey hname hpar hdir hname2 hpar2 hdir2
      simp only [Step.mk.injEq]
      exact ⟨hpar.trans hpar2.symm, hkey, hname.trans hname2.symm,
        hdir.trans (hdirs.trans hdir2.symm)⟩

/-- `buildFileTree` returns the same tree for two inputs that are
permutations of one another, when every cumulative path of the input is
asked for with one parent, one name and one kind, and no two siblings of
the same kind have names that are equal after lower-casing. -/
theorem buildFileTree_eq_of_perm (rt : Runtime) (hrt : rt.SortsCorrectly)
    (files1 files2 : List FileMetadata) (hperm : files1.Perm files2)
    (hcoh : Coherent (treeSteps files1)) (hties : TieFree rt (treeSteps files1)) :
    buildFileTree rt files1 = buildFileTree rt files2 := by
  have hsteps : (treeSteps files1).Perm (treeSteps files2) := hperm.flatMap_right fileSteps
  have hsame : ∀ e, e ∈ treeSteps files1 ↔ e ∈ treeSteps files2 := fun e => hsteps.mem_iff
  have hcoh2 : Coherent (treeSteps files2) := fun a ha b hb hk =>
    hcoh a ((hsame a).2 ha) b ((hsame b).2 hb) hk
  have h1 := rootInv_build rt files1 hcoh
  have h2 := rootInv_build rt files2 hcoh2
  have hfun : sortedTreeOf rt (files1.foldl (addFile rt) []) =
      sortedTreeOf rt (files2.foldl (addFile rt) []) :=
    funext (sortedTreeOf_eq rt hrt _ _ _ _ h1 h2 hsame hcoh hties)
  have hkeys : (keysOf (files1.foldl (addFile rt) [])).Perm
      (keysOf (files2.foldl (addFile rt) [])) := by
    rw [List.perm_ext_iff_of_nodup h1.nodup h2.nodup]
    intro k
    rw [h1.keys, h2.keys]
    exact ⟨fun ⟨e, he, hk⟩ => ⟨e, (hsame e).1 he, hk⟩,
      fun ⟨e, he, hk⟩ => ⟨e, (hsame e).2 he, hk⟩⟩
  rw [buildFileTree_eq rt files1 hcoh, buildFileTree_eq rt files2 hcoh2, ← hfun]
  apply sortSlice_perm_unique rt hrt
  · exact (hkeys.filterMap _).filter _
  · intro a ha b hb hab hba
    rw [List.mem_filter] at ha hb
    obtain ⟨ea, hea, hpa, hna, hda, hva⟩ := h1.value_of_key hcoh ha.1
    obtain ⟨eb, heb, hpb, hnb, hdb, hvb⟩ := h1.value_of_key hcoh hb.1
    have htie := (sortLess_tie_iff rt a b).1 ⟨hab, hba⟩
    have hkab : ea.key = eb.key :=
      hties ea hea eb heb
        (Or.inr ⟨by rw [← hpa]; exact ha.2, by rw [← hpb]; exact hb.2⟩)
        (by rw [← hda, ← hdb]; exact htie.1) (by rw [← hna, ← hnb]; exact htie.2)
    rw [hkab, hvb] at hva
    exact (Option.some.inj hva).symm

/-- C8 as stated fails.  The files `d/a.txt` and `d/A.txt` tie under the
comparison, and the two orders of this input give trees whose children are
in different orders.  An entry `a` marked as a file next to `a/b` gives a
node `a` that is a file in one order and a directory in the other.  The
paths `./a` and `a` ask for the node `a` once under the node `.` and once
without parent, and only one order links it under `.`. -/
theorem buildFileTree_depends_on_order :
    [fileEntry "d/a.txt", fileEntry "d/A.txt"].Perm [fileEntry "d/A.txt", fileEntry "d/a.txt"] ∧
    childNamesOf (buildFileTree goRuntime [fileEntry "d/a.txt", fileEntry "d/A.txt"]) =
      [["a.txt".toList, "A.txt".toList]] ∧
    childNamesOf (buildFileTree goRuntime [fileEntry "d/A.txt", fileEntry "d/a.txt"]) =
      [["A.txt".toList, "a.txt".toList]] ∧
    buildFileTree goRuntime [fileEntry "d/a.txt", fileEntry "d/A.txt"] ≠
      buildFileTree goRuntime [fileEntry "d/A.txt", fileEntry "d/a.txt"] ∧
    (buildFileTree goRuntime [fileEntry "a", fileEntry "a/b"]).map TreeNode.IsDir = [false] ∧
    (buildFileTree goRuntime [fileEntry "a/b", fileEntry "a"]).map TreeNode.IsDir = [true] ∧
    childNamesOf (buildFileTree goRuntime [fileEntry "./a", fileEntry "a"]) =
      [["a".toList], []] ∧
    childNamesOf (buildFileTree goRuntime [fileEntry "a", fileEntry "./a"]) = [[], []] :=
  ⟨List.Perm.swap _ _ _, by decide, by decide,
    fun h => absurd (congrArg childNamesOf h) (by decide), by decide, by decide, by decide,
    by decide⟩

/-- C8 (amended): `buildFileTree` returns the same tree for two inputs that are
permutations of one another, when the paths are clean relative paths, the
kinds are consistent (equal paths have equal kinds and a proper ancestor
of an input path is a directory), and no two siblings of the same kind
have names that are equal after lower-casing. -/
theorem buildFileTree_order_independent (rt : Runtime) (hrt : rt.SortsCorrectly)
    (files1 files2 : List FileMetadata) (hperm : files1.Perm files2)
    (hclean : CleanPaths files1) (hkinds : KindsConsistent files1)
    (hties : TieFree rt (treeSteps files1)) :
    buildFileTree rt files1 = buildFileTree rt files2 :=
  buildFileTree_eq_of_perm rt hrt files1 files2 hperm
    (coherent_of_clean files1 hclean hkinds) hties

/-- Witness for C8 (amended): the files `d/b.txt` and `d/a.txt` and the
directory `d/A`, in two orders. -/
theorem buildFileTree_order_independent_witness :
    (goRuntime.SortsCorrectly ∧
      [fileEntry "d/b.txt", dirEntry "d/A", fileEntry "d/a.txt"].Perm
        [dirEntry "d/A", fileEntry "d/a.txt", fileEntry "d/b.txt"] ∧
      CleanPaths [fileEntry "d/b.txt", dirEntry "d/A", fileEntry "d/a.txt"] ∧
      KindsConsistent [fileEntry "d/b.txt", dirEntry "d/A", fileEntry "d/a.txt"] ∧
      TieFree goRuntime (treeSteps [fileEntry "d/b.txt", dirEntry "d/A", fileEntry "d/a.txt"])) ∧
    buildFileTree goRuntime [fileEntry "d/b.txt", dirEntry "d/A", fileEntry "d/a.txt"] =
      buildFileTree goRuntime [dirEntry "d/A", fileEntry "d/a.txt", fileEntry "d/b.txt"] :=
  ⟨⟨goRuntime_sortsCorrectly, by decide, by unfold CleanPaths; decide,
      by unfold KindsConsistent; decide, by unfold TieFree; decide⟩,
    buildFileTree_order_independent goRuntime goRuntime_sortsCorrectly _ _ (by decide)
      (by unfold CleanPaths; decide) (by unfold KindsConsistent; decide)
      (by unfold TieFree; decide)⟩

/-- C9: in the tree that `buildFileTree` returns, at every level (the
top-level list and the children of every node) no file comes before a
directory and, within a kind, the lower-cased names do not decrease. -/
theorem buildFileTree_levels_ordered (rt : Runtime) (hrt : rt.SortsCorrectly)
    (files : List FileMetadata) :
    SiblingsOrdered rt (buildFileTree rt files) ∧
    EveryLevelOf (SiblingsOrdered rt) (buildFileTree rt files) := by
  unfold buildFileTree sortNodes
  simp only []
  generalize ((materialize (files.foldl (addFile rt) [])).map (fun e => e.2)).filter
    (fun node => !strings.Contains node.Path [filepath.Separator]) = result
  have hs := hrt (sortLess rt) (sortLess_strictWeakOrder rt) (sortChildren rt result)
  refine ⟨siblingsOrdered_of_sorted rt _ hs.2, ?_⟩
  rw [everyLevelOf_iff]
  intro node hnode
  exact (everyLevelOf_iff _ _).1 (sortChildren_everyLevel rt hrt result) node
    (hs.1.mem_iff.1 hnode)

/-- Witness for C9, with the example of the claim: the siblings `b.txt`, `A/`
and `a.txt` of one directory come out as `A`, `a.txt`, `b.txt`. -/
theorem buildFileTree_levels_ordered_witness :
    goRuntime.SortsCorrectly ∧
    childNamesOf (buildFileTree goRuntime
      [fileEntry "d/b.txt", dirEntry "d/A", fileEntry "d/a.txt"]) =
      [["A".toList, "a.txt".toList, "b.txt".toList]] ∧
    EveryLevelOf (SiblingsOrdered goRuntime) (buildFileTree goRuntime
      [fileEntry "d/b.txt", dirEntry "d/A", fileEntry "d/a.txt"]) :=
  ⟨goRuntime_sortsCorrectly, by decide,
    (buildFileTree_levels_ordered goRuntime goRuntime_sortsCorrectly
      [fileEntry "d/b.txt", dirEntry "d/A", fileEntry "d/a.txt"]).2⟩

/-- C10 as stated fails: the siblings `d/a.txt` and `d/A.txt` have distinct
paths, yet neither is ordered before the other, and the sorted order of the
two depends on the order they arrive in. -/
theorem siblings_differing_in_case_tie :
    (TreeNode.mk "a.txt".toList "d/a.txt".toList "📄" false []).Path ≠
      (TreeNode.mk "A.txt".toList "d/A.txt".toList "📄" false []).Path ∧
    sortLess goRuntime (TreeNode.mk "a.txt".toList "d/a.txt".toList "📄" false [])
      (TreeNode.mk "A.txt".toList "d/A.txt".toList "📄" false []) = false ∧
    sortLess goRuntime (TreeNode.mk "A.txt".toList "d/A.txt".toList "📄" false [])
      (TreeNode.mk "a.txt".toList "d/a.txt".toList "📄" false []) = false ∧
    nodeNames (sortNodes goRuntime
      [TreeNode.mk "a.txt".toList "d/a.txt".toList "📄" false [],
       TreeNode.mk "A.txt".toList "d/A.txt".toList "📄" false []]) =
      ["a.txt".toList, "A.txt".toList] ∧
    nodeNames (sortNodes goRuntime
      [TreeNode.mk "A.txt".toList "d/A.txt".toList "📄" false [],
       TreeNode.mk "a.txt".toList "d/a.txt".toList "📄" false []]) =
      ["A.txt".toList, "a.txt".toList] := by
  decide

/-- C10 (amended): two siblings that differ in kind or in lower-cased name
are strictly ordered, exactly one before the other; and when no two
distinct siblings agree in kind and lower-cased name, sorting any two
arrangements of them gives the same list. -/
theorem sibling_order_total_up_to_case (rt : Runtime) (hrt : rt.SortsCorrectly)
    (a b : TreeNode) (l1 l2 : List TreeNode)
    (hdiff : a.IsDir ≠ b.IsDir ∨ rt.ToLower a.Name ≠ rt.ToLower b.Name)
    (hperm : l1.Perm l2)
    (hties : ∀ x ∈ l1, ∀ y ∈ l1,
      x.IsDir = y.IsDir → rt.ToLower x.Name = rt.ToLower y.Name → x = y) :
    ((sortLess rt a b = true ∧ sortLess rt b a = false) ∨
      (sortLess rt a b = false ∧ sortLess rt b a = true)) ∧
    rt.sortSlice (sortLess rt) l1 = rt.sortSlice (sortLess rt) l2 := by
  constructor
  · have hasym := (sortLess_strictWeakOrder rt).1
    have htie := sortLess_tie_iff rt a b
    cases hab : sortLess rt a b with
    | true => exact Or.inl ⟨rfl, hasym a b hab⟩
    | false =>
      right
      refine ⟨rfl, ?_⟩
      cases hba : sortLess rt b a with
      | true => rfl
      | false =>
        have := htie.1 ⟨hab, hba⟩
        rcases hdiff with hd | hd
        · exact absurd this.1 hd
        · exact absurd this.2 hd
  · apply sortSlice_perm_unique rt hrt l1 l2 hperm
    intro x hx y hy hxy hyx
    have := (sortLess_tie_iff rt x y).1 ⟨hxy, hyx⟩
    exact hties x hx y hy this.1 this.2

/-- Witness for C10 (amended): the directory `A` and the files `a.txt` and
`b.txt`, in two arrangements. -/
theorem sibling_order_total_up_to_case_witness :
    goRuntime.SortsCorrectly ∧
    ((sortLess goRuntime (TreeNode.mk "A".toList "d/A".toList "📁" true [])
        (TreeNode.mk "a.txt".toList "d/a.txt".toList "📄" false []) = true ∧
      sortLess goRuntime (TreeNode.mk "a.txt".toList "d/a.txt".toList "📄" false [])
        (TreeNode.mk "A".toList "d/A".toList "📁" true []) = false) ∨
     (sortLess goRuntime (TreeNode.mk "A".toList "d/A".toList "📁" true [])
        (TreeNode.mk "a.txt".toList "d/a.txt".toList "📄" false []) = false ∧
      sortLess goRuntime (TreeNode.mk "a.txt".toList "d/a.txt".toList "📄" false [])
        (TreeNode.mk "A".toList "d/A".toList "📁" true []) = true)) ∧
    goRuntime.sortSlice (sortLess goRuntime)
      [TreeNode.mk "b.txt".toList "d/b.txt".toList "📄" false [],
       TreeNode.mk "A".toList "d/A".toList "📁" true []] =
    goRuntime.sortSlice (sortLess goRuntime)
      [TreeNode.mk "A".toList "d/A".toList "📁" true [],
       TreeNode.mk "b.txt".toList "d/b.txt".toList "📄" false []] :=
  ⟨goRuntime_sortsCorrectly,
    sibling_order_total_up_to_case goRuntime goRuntime_sortsCorrectly
      (TreeNode.mk "A".toList "d/A".toList "📁" true [])
      (TreeNode.mk "a.txt".toList "d/a.txt".toList "📄" false [])
      [TreeNode.mk "b.txt".toList "d/b.txt".toList "📄" false [],
       TreeNode.mk "A".toList "d/A".toList "📁" true []]
      [TreeNode.mk "A".toList "d/A".toList "📁" true [],
       TreeNode.mk "b.txt".toList "d/b.txt".toList "📄" false []]
      (Or.inl (by decide)) (List.Perm.swap _ _ _)
      (by
        intro x hx y hy hk hn
        simp only [List.mem_cons, List.mem_singleton, List.not_mem_nil, or_false] at hx hy
        rcases hx with rfl | rfl <;> rcases hy with rfl | rfl
        · rfl
        · exact absurd hk (by decide)
        · exact absurd hk (by decide)
        · rfl)⟩

/-! ### The change notifier -/

/-- What the broadcast loop does to each entry of a map whose channels are
all open. -/
theorem broadcastLoop_ok (change : FileChange) :
    ∀ (clients : List (Conn × Queue)), (∀ e ∈ clients, e.2.closed = false) →
      FileChangeNotifier.broadcastLoop change clients =
        .ok ((clients.filter (fun e => decide (e.2.pending.length < queueCapacity))).map
              (fun e => (e.1, { e.2 with pending := e.2.pending ++ [change] })),
             (clients.filter (fun e => !decide (e.2.pending.length < queueCapacity))).map
              (fun e => (e.1, { e.2 with closed := true })))
  | [], _ => rfl
  | (client, ch) :: rest, h => by
    have hopen : ch.closed = false := h (client, ch) (List.mem_cons_self _ _)
    have ih := broadcastLoop_ok change rest (fun e he => h e (List.mem_cons_of_mem _ he))
    unfold FileChangeNotifier.broadcastLoop
    rw [ih]
    by_cases hroom : ch.pending.length < queueCapacity
    · simp [hopen, hroom, List.filter_cons]
    · simp [hopen, hroom, List.filter_cons]

theorem broadcast_ok (n : FileChangeNotifier) (change : FileChange)
    (h : ∀ e ∈ n.clients, e.2.closed = false) :
    n.broadcast change =
      .ok { clients := (n.clients.filter
              (fun e => decide (e.2.pending.length < queueCapacity))).map
              (fun e => (e.1, { e.2 with pending := e.2.pending ++ [change] }))
            detached := n.detached ++
              (n.clients.filter (fun e => !decide (e.2.pending.length < queueCapacity))).map
                (fun e => (e.1, { e.2 with closed := true })) } := by
  unfold FileChangeNotifier.broadcast
  rw [broadcastLoop_ok change n.clients h]

/-- In a map with one entry for each client, the entry of a client is the
one that `channelOf` finds. -/
theorem find_entry_of_mem {c : Conn} {q : Queue} :
    ∀ (l : List (Conn × Queue)), (l.map (fun e => e.1)).Nodup → (c, q) ∈ l →
      l.find? (fun e => decide (e.1 = c)) = some (c, q)
  | [], _, h => by simp at h
  | e :: rest, hnd, h => by
    rw [List.map_cons, List.nodup_cons] at hnd
    rcases List.mem_cons.mp h with heq | hmem
    · subst heq
      simp [List.find?_cons]
    · have hne : e.1 ≠ c := by
        intro hec
        apply hnd.1
        rw [hec]
        exact List.mem_map.mpr ⟨(c, q), hmem, rfl⟩
      simp only [List.find?_cons, hne, decide_False]
      exact find_entry_of_mem rest hnd.2 hmem

theorem find_entry_none_of_not_mem {c : Conn} :
    ∀ (l : List (Conn × Queue)), c ∉ l.map (fun e => e.1) →
      l.find? (fun e => decide (e.1 = c)) = none := by
  intro l h
  rw [List.find?_eq_none]
  intro e he hc
  apply h
  simp only [decide_eq_true_eq] at hc
  exact List.mem_map.mpr ⟨e, he, hc⟩

/-- The keys of the map after the broadcast loop are among the keys before. -/
theorem keys_after_broadcast (change : FileChange) (l : List (Conn × Queue)) :
    (((l.filter (fun e => decide (e.2.pending.length < queueCapacity))).map
        (fun e => (e.1, ({ e.2 with pending := e.2.pending ++ [change] } : Queue)))).map
      (fun e => e.1)).Sublist (l.map (fun e => e.1)) := by
  rw [List.map_map]
  exact (List.filter_sublist l).map _

/-- After `unregister`, the map has no entry for the client. -/
theorem channelOf_after_delete (n : FileChangeNotifier) (c : Conn) (d : List (Conn × Queue)) :
    FileChangeNotifier.channelOf
      { clients := n.clients.filter (fun e => decide (e.1 ≠ c)), detached := d } c = none := by
  unfold FileChangeNotifier.channelOf
  rw [find_entry_none_of_not_mem]
  · rfl
  · intro h
    obtain ⟨e, he, hc⟩ := List.mem_map.mp h
    have := (List.mem_filter.mp he).2
    simp only [decide_eq_true_eq] at this
    exact this hc

/-- Every case of the dispatcher keeps the map well formed. -/
theorem step_wellFormed (n n1 : FileChangeNotifier) (event : NotifierEvent)
    (hwf : n.WellFormed) (h : n.step event = .ok n1) : n1.WellFormed := by
  cases event with
  | register client =>
    simp only [FileChangeNotifier.step, FileChangeNotifier.register, Except.ok.injEq] at h
    subst h
    constructor
    · simp only [List.map_append, List.map_cons, List.map_nil]
      refine List.Nodup.append (hwf.1.sublist ((List.filter_sublist _).map _))
        (List.nodup_singleton _) ?_
      rw [List.disjoint_singleton]
      intro hc
      obtain ⟨e, he, hec⟩ := List.mem_map.mp hc
      have := (List.mem_filter.mp he).2
      simp only [decide_eq_true_eq] at this
      exact this hec
    · intro e he
      rcases List.mem_append.mp he with h1 | h1
      · exact hwf.2 e (List.mem_filter.mp h1).1
      · simp only [List.mem_singleton] at h1
        rw [h1]
  | unregister client =>
    simp only [FileChangeNotifier.step, FileChangeNotifier.unregister] at h
    cases hch : n.channelOf client with
    | none =>
      rw [hch] at h
      simp only [Except.ok.injEq] at h
      rw [← h]
      exact hwf
    | some ch =>
      rw [hch] at h
      by_cases hclosed : ch.closed = true
      · simp [hclosed] at h
      · have hopen : ch.closed = false := by simpa using hclosed
        simp only [hopen, Bool.false_eq_true, if_false, Except.ok.injEq] at h
        subst h
        exact ⟨hwf.1.sublist ((List.filter_sublist _).map _),
          fun e he => hwf.2 e (List.mem_filter.mp he).1⟩
  | broadcast change =>
    simp only [FileChangeNotifier.step] at h
    rw [broadcast_ok n change hwf.2] at h
    simp only [Except.ok.injEq] at h
    subst h
    refine ⟨hwf.1.sublist (keys_after_broadcast change n.clients), ?_⟩
    intro e he
    obtain ⟨e0, he0, rfl⟩ := List.mem_map.mp he
    exact hwf.2 e0 (List.mem_filter.mp he0).1

/-- Every state that the dispatcher reaches from the empty map is well
formed. -/
theorem run_wellFormed :
    ∀ (events : List NotifierEvent) (n n1 : FileChangeNotifier),
      n.WellFormed → n.run events = .ok n1 → n1.WellFormed
  | [], n, n1, hwf, h => by
    simp only [FileChangeNotifier.run, Except.ok.injEq] at h
    rw [← h]
    exact hwf
  | event :: rest, n, n1, hwf, h => by
    simp only [FileChangeNotifier.run] at h
    cases hstep : n.step event with
    | error p => rw [hstep] at h; simp at h
    | ok n2 =>
      rw [hstep] at h
      exact run_wellFormed rest n2 n1 (step_wellFormed n n2 event hwf hstep) h

theorem empty_wellFormed : FileChangeNotifier.empty.WellFormed :=
  ⟨List.nodup_nil, fun _ he => by simp [FileChangeNotifier.empty] at he⟩

/-- C11: in every state of the notifier (one map entry for each client, the
channels in the map open) and for every change `x`, the broadcast case of
the dispatcher ends, and every client whose channel held fewer than 10
pending events is still in the map, its channel open and holding what it
held before followed by one `x`. -/
theorem broadcast_delivers_to_queues_with_room (n : FileChangeNotifier) (x : FileChange)
    (hwf : n.WellFormed) :
    ∃ n1, n.broadcast x = .ok n1 ∧
      ∀ c q, (c, q) ∈ n.clients → q.pending.length < 10 →
        n1.channelOf c = some { pending := q.pending ++ [x], closed := false } := by
  refine ⟨_, broadcast_ok n x hwf.2, ?_⟩
  intro c q hmem hroom
  have hopen : q.closed = false := hwf.2 (c, q) hmem
  unfold FileChangeNotifier.channelOf
  rw [find_entry_of_mem (q := { pending := q.pending ++ [x], closed := false }) _
    (hwf.1.sublist (keys_after_broadcast x n.clients))]
  · rfl
  · refine List.mem_map.mpr ⟨(c, q), List.mem_filter.mpr ⟨hmem, ?_⟩, ?_⟩
    · simpa [queueCapacity] using hroom
    · simp [hopen]

/-- Witness for C11: a broadcast to three clients, one of them with a full
channel. -/
theorem broadcast_delivers_to_queues_with_room_witness :
    ∃ n1, exampleNotifier.broadcast exampleChange = .ok n1 ∧
      ∀ c q, (c, q) ∈ exampleNotifier.clients → q.pending.length < 10 →
        n1.channelOf c = some { pending := q.pending ++ [exampleChange], closed := false } :=
  broadcast_delivers_to_queues_with_room exampleNotifier exampleChange ⟨by decide, by decide⟩

/-- C12: in every state of the notifier and for every change `x`, the
broadcast case of the dispatcher ends (the `select` has a `default`, so a
full channel is not waited for), and every client whose channel held 10
pending events has no entry in the map afterwards; its channel is closed and
holds what it held before, without `x`. -/
theorem broadcast_drops_full_queues (n : FileChangeNotifier) (x : FileChange)
    (hwf : n.WellFormed) :
    ∃ n1, n.broadcast x = .ok n1 ∧
      ∀ c q, (c, q) ∈ n.clients → 10 ≤ q.pending.length →
        n1.channelOf c = none ∧ c ∉ n1.clients.map (fun e => e.1) ∧
        (c, { pending := q.pending, closed := true }) ∈ n1.detached := by
  refine ⟨_, broadcast_ok n x hwf.2, ?_⟩
  intro c q hmem hfull
  have habsent : c ∉ ((n.clients.filter
      (fun e => decide (e.2.pending.length < queueCapacity))).map
      (fun e => (e.1, ({ e.2 with pending := e.2.pending ++ [x] } : Queue)))).map
      (fun e => e.1) := by
    intro h
    rw [List.map_map] at h
    obtain ⟨e, he, hc⟩ := List.mem_map.mp h
    obtain ⟨he1, he2⟩ := List.mem_filter.mp he
    have hfound := find_entry_of_mem n.clients hwf.1 hmem
    have hfound2 := find_entry_of_mem (c := e.1) (q := e.2) n.clients hwf.1 he1
    simp only [Function.comp] at hc
    rw [hc] at hfound2
    rw [hfound] at hfound2
    have hq : q = e.2 := by
      have := Option.some.inj hfound2
      exact congrArg Prod.snd this
    rw [← hq] at he2
    simp only [queueCapacity, decide_eq_true_eq] at he2
    omega
  refine ⟨?_, habsent, ?_⟩
  · unfold FileChangeNotifier.channelOf
    rw [find_entry_none_of_not_mem _ habsent]
    rfl
  · apply List.mem_append_right
    refine List.mem_map.mpr ⟨(c, q), List.mem_filter.mpr ⟨hmem, ?_⟩, rfl⟩
    simp only [queueCapacity, Bool.not_eq_true', decide_eq_false_iff_not]
    omega

/-- Witness for C12: a broadcast to three clients, one of them with a full
channel. -/
theorem broadcast_drops_full_queues_witness :
    ∃ n1, exampleNotifier.broadcast exampleChange = .ok n1 ∧
      ∀ c q, (c, q) ∈ exampleNotifier.clients → 10 ≤ q.pending.length →
        n1.channelOf c = none ∧ c ∉ n1.clients.map (fun e => e.1) ∧
        (c, { pending := q.pending, closed := true }) ∈ n1.detached :=
  broadcast_drops_full_queues exampleNotifier exampleChange ⟨by decide, by decide⟩

/-- C13: the unregister case of the dispatcher for a client that has no
entry in the map returns the state as it was (the map, the pending events
and the closed flags), without a panic; and for every state, handling
`unregister c` twice gives what handling it once gives. -/
theorem unregister_absent_is_noop (n : FileChangeNotifier) (c : Conn) :
    (c ∉ n.clients.map (fun e => e.1) → n.unregister c = .ok n) ∧
    (n.unregister c).bind (fun n1 => n1.unregister c) = n.unregister c := by
  constructor
  · intro h
    unfold FileChangeNotifier.unregister FileChangeNotifier.channelOf
    rw [find_entry_none_of_not_mem _ h]
    rfl
  · unfold FileChangeNotifier.unregister
    cases hch : n.channelOf c with
    | none =>
      simp only [Except.bind]
      rw [hch]
    | some ch =>
      by_cases hclosed : ch.closed = true
      · simp only [hclosed, if_true, Except.bind]
      · have hopen : ch.closed = false := by simpa using hclosed
        simp only [hopen, Bool.false_eq_true, if_false, Except.bind]
        rw [channelOf_after_delete]

/-- Witness for C13: client 7 has no entry in the map of the example. -/
theorem unregister_absent_is_noop_witness :
    exampleNotifier.unregister 7 = .ok exampleNotifier :=
  (unregister_absent_is_noop exampleNotifier 7).1 (by decide)

/-! ### Change events of the handlers -/

/-- C14: `handleFileUpload` and `handleDirectoryCreate` send no change to
the notifier, whatever the request; in particular an upload that writes
`a.txt` into the tree of `alice` and answers 200, and a directory creation
that makes `docs` there and answers 200, push no `FileChange`. -/
theorem upload_and_mkdir_push_no_change :
    (∀ basePath fs username form, (handleFileUpload basePath fs username form).broadcast = []) ∧
    (∀ basePath fs username form,
      (handleDirectoryCreate basePath fs username form).broadcast = []) ∧
    ((handleFileUpload "/data".toList exampleFS "alice".toList
        { parses := true, file := some ("a.txt".toList, bytesOf "hi"),
          relativePath := [] }).response.status = 200 ∧
      (handleFileUpload "/data".toList exampleFS "alice".toList
        { parses := true, file := some ("a.txt".toList, bytesOf "hi"),
          relativePath := [] }).fs.ReadFile "/data/alice/a.txt".toList = .ok (bytesOf "hi") ∧
      exampleFS.ReadFile "/data/alice/a.txt".toList = .error Errno.ENOENT) ∧
    ((handleDirectoryCreate "/data".toList exampleFS "alice".toList
        (some "docs".toList)).response.status = 200 ∧
      (handleDirectoryCreate "/data".toList exampleFS "alice".toList
        (some "docs".toList)).fs.Stat "/data/alice/docs".toList =
          .ok { size := 4096, isDir := true } ∧
      exampleFS.Stat "/data/alice/docs".toList = .error Errno.ENOENT) := by
  refine ⟨?_, ?_, ⟨by rfl, by rfl, by rfl⟩, ⟨by rfl, by rfl, by rfl⟩⟩
  · intro basePath fs username form
    unfold handleFileUpload httpError
    repeat' first | rfl | split | dsimp only
  · intro basePath fs username form
    unfold handleDirectoryCreate httpError
    repeat' first | rfl | split | dsimp only

/-- A save and a delete that succeed push one change each. -/
theorem save_and_delete_push_one_change :
    ((handleFileSave "/data".toList exampleFS "alice".toList "a.txt".toList
        (some (bytesOf "hi"))).response.status = 200 ∧
      ((handleFileSave "/data".toList exampleFS "alice".toList "a.txt".toList
        (some (bytesOf "hi"))).broadcast.map (fun e => (e.type, e.file.Path))) =
        [("update", "a.txt".toList)]) ∧
    ((handleFileDelete "/data".toList exampleFS "bob".toList "x".toList).response.status = 200 ∧
      ((handleFileDelete "/data".toList exampleFS "bob".toList "x".toList).broadcast.map
        (fun e => (e.type, e.file.Path))) = [("delete", "x".toList)]) :=
  ⟨⟨by rfl, by rfl⟩, ⟨by rfl, by rfl⟩⟩

/-! ### The directory walk of the file list -/

/-- The metadata made for a relative path carries that path. -/
theorem NewFileMetadata_Path (fs : FS) (basePath relativePath : Str) (m : FileMetadata)
    (h : NewFileMetadata fs basePath relativePath = .ok m) : m.Path = relativePath := by
  unfold NewFileMetadata at h
  simp only at h
  split at h
  · exact absurd h (by simp)
  · split at h
    · exact absurd h (by simp)
    · simp only [Except.ok.injEq] at h
      rw [← h]

/-- What the walk of `handleFileList` leaves out: every file it collects has
a relative path other than `.`, not starting with `.` and without
`/.versions/` inside. -/
theorem listWalk_skips (fs : FS) (userBasePath : Str) :
    ∀ (entries : List (List Str × Option Errno)) (files result : List FileMetadata),
      (∀ f ∈ files, f.Path ≠ ['.'] ∧ strings.HasPrefix f.Path ['.'] = false ∧
        strings.Contains f.Path "/.versions/".toList = false) →
      listWalk fs userBasePath entries files = .ok result →
      ∀ f ∈ result, f.Path ≠ ['.'] ∧ strings.HasPrefix f.Path ['.'] = false ∧
        strings.Contains f.Path "/.versions/".toList = false
  | [], files, result, hfiles, h => by
    simp only [listWalk, Except.ok.injEq] at h
    rw [← h]
    exact hfiles
  | (rel, err) :: rest, files, result, hfiles, h => by
    simp only [listWalk] at h
    cases hvisit : listVisit fs userBasePath files rel err with
    | error e => rw [hvisit] at h; simp at h
    | ok files1 =>
      rw [hvisit] at h
      refine listWalk_skips fs userBasePath rest files1 result ?_ h
      unfold listVisit at hvisit
      cases err with
      | some e => simp at hvisit
      | none =>
        simp only at hvisit
        split at hvisit
        · simp only [Except.ok.injEq] at hvisit
          rw [← hvisit]
          exact hfiles
        · rename_i hcond
          split at hvisit
          · simp at hvisit
          · rename_i metadata hmeta
            simp only [Except.ok.injEq] at hvisit
            rw [← hvisit]
            intro f hf
            rcases List.mem_append.mp hf with h1 | h1
            · exact hfiles f h1
            · simp only [List.mem_singleton] at h1
              rw [h1, NewFileMetadata_Path fs userBasePath _ metadata hmeta]
              simp only [Bool.or_eq_true, decide_eq_true_eq, not_or, Bool.not_eq_true] at hcond
              exact ⟨hcond.1.1.1, hcond.1.1.2, hcond.1.2⟩

/-- No key of the table is longer than `depth`. -/
theorem FS.length_le_depth (fs : FS) : ∀ e ∈ fs.nodes, e.1.length ≤ fs.depth := by
  unfold FS.depth
  induction fs.nodes with
  | nil => intro e he; simp at he
  | cons a l ih =>
    intro e he
    simp only [List.map_cons, List.foldr_cons]
    rcases List.mem_cons.mp he with h | h
    · rw [h]; exact le_max_left _ _
    · exact le_trans (ih e h) (le_max_right _ _)

/-- A key as long as the longest key of the table has no children. -/
theorem FS.childNames_of_deep (fs : FS) (key : List Str) (h : fs.depth ≤ key.length) :
    fs.childNames key = [] := by
  unfold FS.childNames
  have : fs.nodes.filterMap (fun e =>
      if e.1 ≠ [] ∧ e.1.dropLast = key then e.1.getLast? else none) = [] := by
    rw [List.filterMap_eq_nil_iff]
    intro e he
    have hlen := fs.length_le_depth e he
    by_cases hc : e.1 ≠ [] ∧ e.1.dropLast = key
    · exfalso
      have h1 : e.1.dropLast.length = key.length := by rw [hc.2]
      rw [List.length_dropLast] at h1
      have h2 : 0 < e.1.length := List.length_pos.mpr hc.1
      omega
    · rw [if_neg hc]
  rw [this]
  rfl

/-- The walk has fuel enough: more fuel gives the same visits. -/
theorem FS.walkBelow_fuel (fs : FS) :
    ∀ (fuel : Nat) (key rel : List Str), 1 ≤ fuel → fs.depth + 1 ≤ fuel + key.length →
      fs.walkBelow (fuel + 1) key rel = fs.walkBelow fuel key rel
  | 0, _, _, h, _ => by omega
  | 1, key, rel, _, h => by
    have hnone := fs.childNames_of_deep key (by omega)
    simp only [FS.walkBelow, hnone, List.insertionSort, List.flatMap_nil]
  | fuel + 2, key, rel, _, h => by
    rw [FS.walkBelow, FS.walkBelow]
    cases fs.get key with
    | none => rfl
    | some node =>
      cases node with
      | file content => rfl
      | dir =>
        simp only
        by_cases hno : key ∈ fs.noRead
        · rw [if_pos hno, if_pos hno]
        · rw [if_neg hno, if_neg hno]
          congr 2
          funext name
          exact FS.walkBelow_fuel fs (fuel + 1) (key ++ [name]) (rel ++ [name]) (by omega)
            (by rw [List.length_append, List.length_singleton]; omega)

/-- The visits of `Walk` are those of the recursion with any greater fuel. -/
theorem FS.Walk_fuel (fs : FS) (rootKey : List Str) :
    ∀ (extra : Nat), fs.walkBelow (fs.depth + 1 + extra) rootKey [] = fs.Walk rootKey
  | 0 => rfl
  | extra + 1 => by
    rw [← Nat.add_assoc, FS.walkBelow_fuel fs (fs.depth + 1 + extra) rootKey [] (by omega)
      (by omega)]
    exact FS.Walk_fuel fs rootKey extra

/-- C15: in a tree with a `.versions` directory inside the directory `docs`,
the file list of `handleFileList` holds the entry `docs/.versions` (what lies
inside that directory, the hidden file and the `.versions` directory at the
top are left out). -/
theorem handleFileList_returns_nested_versions_directory :
    (handleFileList "/data".toList walkFS (some "alice".toList) "web".toList).status = 200 ∧
    (handleFileList "/data".toList walkFS (some "alice".toList) "web".toList).body.paths =
      ["a.txt".toList, "docs".toList, "docs/.versions".toList] ∧
    walkFS.Stat "/data/alice/docs/.versions".toList = .ok { size := 4096, isDir := true } :=
  ⟨by rfl, by rfl, by rfl⟩

/-! ### `Storage.List` -/

/-- The names in a directory are those of the table entries one component
below it. -/
theorem FS.mem_childNames (fs : FS) (key : List Str) (name : Str) :
    name ∈ fs.childNames key ↔ ∃ node, fs.get (key ++ [name]) = some node := by
  unfold FS.childNames FS.get
  rw [List.mem_dedup, List.mem_filterMap]
  have hne : key ++ [name] ≠ [] := by simp
  simp only [hne, if_false]
  constructor
  · rintro ⟨e, he, hname⟩
    by_cases hc : e.1 ≠ [] ∧ e.1.dropLast = key
    · rw [if_pos hc] at hname
      have hkey : e.1 = key ++ [name] := by
        have := List.dropLast_append_getLast? name (Option.mem_def.mpr hname)
        rw [← this, hc.2]
      cases hfind : fs.nodes.find? (fun e => decide (e.1 = key ++ [name])) with
      | none =>
        rw [List.find?_eq_none] at hfind
        exact absurd (by simpa using hkey) (hfind e he)
      | some found => exact ⟨found.2, rfl⟩
    · rw [if_neg hc] at hname
      simp at hname
  · rintro ⟨node, hnode⟩
    cases hfind : fs.nodes.find? (fun e => decide (e.1 = key ++ [name])) with
    | none => rw [hfind] at hnode; simp at hnode
    | some found =>
      have hmem := List.mem_of_find?_eq_some hfind
      have hkey := List.find?_some hfind
      simp only [decide_eq_true_eq] at hkey
      refine ⟨found, hmem, ?_⟩
      rw [hkey]
      simp

/-- C17: `protocol.GenerateHash` returns the empty string for every
content, which is never the hexadecimal SHA-256 digest of the bytes of the
content (64 characters); for the content `abc` the store records
`ba7816bf…15ad`, and `GenerateHash` gives the empty string. -/
theorem GenerateHash_is_empty :
    (∀ c : Str, protocol.GenerateHash c = [] ∧
      protocol.GenerateHash c ≠ hex.EncodeToString (sha256.Sum256 (utf8Bytes c))) ∧
    protocol.GenerateHash "abc".toList = [] ∧
    hex.EncodeToString (sha256.Sum256 (utf8Bytes "abc".toList)) =
      "ba7816bf8f01cfea414140de5dae2223b00361a396177a9cb410ff61f20015ad".toList ∧
    (exampleStorage.Store exampleFS 7 "a.txt".toList (utf8Bytes "abc".toList)).1 =
      .ok { Path := "a.txt".toList, Size := 3,
            Hash := hex.EncodeToString (sha256.Sum256 (utf8Bytes "abc".toList)),
            IsDirectory := false } := by
  refine ⟨fun c => ⟨rfl, ?_⟩, rfl, ?_, by rfl⟩
  · intro h
    have hlen := hexDigest_length (utf8Bytes c)
    rw [← h] at hlen
    simp [protocol.GenerateHash] at hlen
  · have hbytes : utf8Bytes "abc".toList = bytesOf "abc" := by decide
    rw [hbytes]
    exact sha256_abc

/-- C18: `protocol.ValidateHash` returns true for every content and every
hash; for the content `abc` it accepts the hash `00`, which is not the
SHA-256 digest of `abc`. -/
theorem ValidateHash_accepts_any_hash :
    (∀ c h : Str, protocol.ValidateHash c h = true) ∧
    protocol.ValidateHash "abc".toList "00".toList = true ∧
    "00".toList ≠ hex.EncodeToString (sha256.Sum256 (utf8Bytes "abc".toList)) := by
  refine ⟨fun _ _ => rfl, rfl, ?_⟩
  intro h
  have hlen := hexDigest_length (utf8Bytes "abc".toList)
  rw [← h] at hlen
  exact absurd hlen (by decide)

/-- C19: for a sync message, whatever its payload, `readPump` puts one `ack`
without payload on the channel of the connection and does nothing else: the
paths of the payload are not classified and none is recorded as a conflict.
So it is for a sync message whose payload holds, for `a.txt`, a hash other
than that of the content the store has. -/
theorem readPump_only_acknowledges_sync :
    (∀ payload error, websocket.readPumpReply
        { type := websocket.TypeSync, Payload := payload, Error := error } =
      [{ type := websocket.TypeAck, Payload := none, Error := "" }]) ∧
    websocket.readPump [some conflictingSync] =
      [{ type := "ack", Payload := none, Error := "" }] := by
  refine ⟨fun _ _ => rfl, by rfl⟩

/-! ### Removal -/

theorem FS.get_erase_ne (fs : FS) (key other : List Str) (h : other ≠ key) :
    (fs.erase key).get other = fs.get other := by
  unfold FS.get FS.erase
  by_cases ho : other = []
  · simp [ho]
  · simp only [ho, if_false]
    congr 1
    induction fs.nodes with
    | nil => rfl
    | cons e rest ih =>
      by_cases hek : e.1 = key
      · have hne : e.1 ≠ other := fun hh => h (hh ▸ hek)
        simp only [List.filter_cons, hek, ne_eq, not_true_eq_false, decide_False,
          Bool.false_eq_true, if_false]
        rw [List.find?_cons]
        simp only [hne, decide_False]
        simpa [hek] using ih
      · simp only [List.filter_cons, ne_eq, hek, not_false_eq_true, decide_True, if_true]
        rw [List.find?_cons, List.find?_cons]
        cases decide (e.1 = other) with
        | true => rfl
        | false => simpa using ih

/-- A walk through a path, in terms of the walk to a prefix of it. -/
theorem FS.walkFrom_append (fs : FS) (a b pre : List Str) :
    fs.walkFrom pre (a ++ b) =
      match fs.walkFrom pre a with
      | .ok Node.dir => fs.walkFrom (pre ++ a) b
      | .ok (Node.file content) => if b = [] then .ok (Node.file content) else .error Errno.ENOTDIR
      | .error e => .error e := by
  induction a generalizing pre with
  | nil =>
    simp only [List.nil_append, List.append_nil, FS.walkFrom]
    cases hg : fs.get pre with
    | none =>
      cases b with
      | nil => simp [FS.walkFrom, hg]
      | cons c rest => simp [FS.walkFrom, hg]
    | some node =>
      cases node with
      | file content =>
        cases b with
        | nil => simp [FS.walkFrom, hg]
        | cons c rest => simp [FS.walkFrom, hg]
      | dir => rfl
  | cons d rest ih =>
    simp only [List.cons_append, FS.walkFrom]
    cases fs.get pre with
    | none => rfl
    | some node =>
      cases node with
      | file content => rfl
      | dir =>
        simp only [List.append_eq]
        rw [ih]
        simp

/-- The removal of a node leaves the read permission of every other path. -/
theorem FS.mem_noRead_erase (fs : FS) (key other : List Str) (h : other ≠ key) :
    other ∈ (fs.erase key).noRead ↔ other ∈ fs.noRead := by
  unfold FS.erase
  simp only [List.mem_filter, decide_eq_true_eq]
  exact ⟨fun hh => hh.1, fun hh => ⟨hh, h⟩⟩

/-- `Get` and `GetInfo` see the filesystem through path resolution, lookup,
the read permission of the path and the size of a directory only. -/
theorem Get_GetInfo_congr (s : Storage) (fs fs2 : FS) (userID : Int) (path : Str)
    (hcwd : fs2.cwd = fs.cwd) (hsize : fs2.dirSize = fs.dirSize)
    (h : ∀ key, fs.resolve (s.getFullPath userID path) = .ok key →
      fs2.lookup key = fs.lookup key)
    (hno : ∀ key, fs.resolve (s.getFullPath userID path) = .ok key →
      (key ∈ fs2.noRead ↔ key ∈ fs.noRead)) :
    s.Get fs2 userID path = s.Get fs userID path ∧
      s.GetInfo fs2 userID path = s.GetInfo fs userID path := by
  have hres : fs2.resolve (s.getFullPath userID path) =
      fs.resolve (s.getFullPath userID path) := by
    unfold FS.resolve
    rw [hcwd]
  have hread : fs2.ReadFile (s.getFullPath userID path) =
      fs.ReadFile (s.getFullPath userID path) := by
    unfold FS.ReadFile
    rw [hres]
    cases hr : fs.resolve (s.getFullPath userID path) with
    | error e => rfl
    | ok key =>
      have hiff : (key ∈ fs2.noRead) = (key ∈ fs.noRead) := propext (hno key hr)
      simp only [h key hr, hiff]
  have hstat : fs2.Stat (s.getFullPath userID path) =
      fs.Stat (s.getFullPath userID path) := by
    unfold FS.Stat
    rw [hres]
    cases hr : fs.resolve (s.getFullPath userID path) with
    | error e => rfl
    | ok key => simp only [h key hr, hsize]
  constructor
  · unfold Storage.Get
    simp only [hread]
  · unfold Storage.GetInfo Storage.calculateHash
    simp only [hread, hstat]

/-- In a well-formed state every case of the dispatcher ends without a
panic, and channels of at most 10 pending events stay so. -/
theorem step_bounded (n : FileChangeNotifier) (event : NotifierEvent) (hwf : n.WellFormed)
    (hb : ∀ e ∈ n.clients, e.2.pending.length ≤ 10) :
    ∃ n1, n.step event = .ok n1 ∧ ∀ e ∈ n1.clients, e.2.pending.length ≤ 10 := by
  cases event with
  | register client =>
    refine ⟨n.register client, rfl, ?_⟩
    intro e he
    simp only [FileChangeNotifier.register, List.mem_append, List.mem_singleton] at he
    rcases he with h | h
    · exact hb e (List.mem_filter.mp h).1
    · rw [h]; simp
  | unregister client =>
    simp only [FileChangeNotifier.step, FileChangeNotifier.unregister]
    cases hch : n.channelOf client with
    | none => exact ⟨n, rfl, hb⟩
    | some ch =>
      have hopen : ch.closed = false := by
        unfold FileChangeNotifier.channelOf at hch
        cases hf : n.clients.find? (fun e => decide (e.1 = client)) with
        | none => rw [hf] at hch; simp at hch
        | some found =>
          rw [hf] at hch
          simp only [Option.map_some', Option.some.injEq] at hch
          rw [← hch]
          exact hwf.2 found (List.mem_of_find?_eq_some hf)
      simp only [hopen, Bool.false_eq_true, if_false]
      exact ⟨_, rfl, fun e he => hb e (List.mem_filter.mp he).1⟩
  | broadcast change =>
    simp only [FileChangeNotifier.step]
    rw [broadcast_ok n change hwf.2]
    refine ⟨_, rfl, ?_⟩
    intro e he
    obtain ⟨e0, he0, rfl⟩ := List.mem_map.mp he
    have hroom := (List.mem_filter.mp he0).2
    simp only [queueCapacity, decide_eq_true_eq] at hroom
    simp only [List.length_append, List.length_singleton]
    omega

/-! ### The validator, once more -/

/-- The segments of the cleaned form of a relative path without `..`
segment are its segments other than the empty one and `.`, or `.` alone. -/
theorem filepath.Split_Clean_relative (p : Str)
    (hrel : strings.HasPrefix p [filepath.Separator] = false)
    (hdd : ['.', '.'] ∉ strings.Split p filepath.Separator) :
    strings.Split (filepath.Clean p) filepath.Separator =
      if (strings.Split p filepath.Separator).filter filepath.keepElem = [] then [['.']]
      else (strings.Split p filepath.Separator).filter filepath.keepElem := by
  by_cases hp : p = []
  · subst hp
    decide
  · have hparts : ∀ part ∈ (strings.Split p filepath.Separator).filter filepath.keepElem,
        filepath.Separator ∉ part ∧ part ≠ [] := by
      intro part hpart
      obtain ⟨h1, h2⟩ := List.mem_filter.mp hpart
      refine ⟨strings.not_mem_of_mem_Split _ p part h1, ?_⟩
      intro hh
      rw [hh] at h2
      simp [filepath.keepElem] at h2
    unfold filepath.Clean
    simp only [hp, if_false, hrel, Bool.false_eq_true]
    rw [filepath.foldl_cleanStep_no_dotdot false _ hdd [], List.append_nil, List.reverse_reverse]
    by_cases hnil : (strings.Split p filepath.Separator).filter filepath.keepElem = []
    · simp only [hnil, strings.Join, if_true]
      decide
    · have hne : strings.Join ((strings.Split p filepath.Separator).filter filepath.keepElem)
          [filepath.Separator] ≠ [] :=
        strings.Join_ne_nil _ _ hnil (fun part hpart => (hparts part hpart).2)
      simp only [hne, hnil, if_false]
      exact strings.Split_Join _ _ hnil (fun part hpart => (hparts part hpart).1)

/-! ### `filepath.Base` and `filepath.Dir` on the segments of a path -/

theorem takeWhile_append_stop {α : Type} (p : α → Bool) (a : List α) (b : α) (c : List α)
    (ha : ∀ x ∈ a, p x = true) (hb : p b = false) : (a ++ b :: c).takeWhile p = a := by
  induction a with
  | nil => simp [List.takeWhile, hb]
  | cons x a ih =>
    rw [List.cons_append, List.takeWhile_cons, if_pos (ha x (List.mem_cons_self _ _)),
      ih (fun y hy => ha y (List.mem_cons_of_mem _ hy))]

theorem takeWhile_all {α : Type} (p : α → Bool) (a : List α) (ha : ∀ x ∈ a, p x = true) :
    a.takeWhile p = a := by
  induction a with
  | nil => rfl
  | cons x a ih =>
    rw [List.takeWhile_cons, if_pos (ha x (List.mem_cons_self _ _)),
      ih (fun y hy => ha y (List.mem_cons_of_mem _ hy))]

theorem dropWhile_append_stop {α : Type} (p : α → Bool) (a : List α) (b : α) (c : List α)
    (ha : ∀ x ∈ a, p x = true) (hb : p b = false) : (a ++ b :: c).dropWhile p = b :: c := by
  induction a with
  | nil => simp [List.dropWhile, hb]
  | cons x a ih =>
    rw [List.cons_append, List.dropWhile_cons, if_pos (ha x (List.mem_cons_self _ _))]
    exact ih (fun y hy => ha y (List.mem_cons_of_mem _ hy))

theorem dropWhile_all {α : Type} (p : α → Bool) (a : List α) (ha : ∀ x ∈ a, p x = true) :
    a.dropWhile p = [] := by
  induction a with
  | nil => rfl
  | cons x a ih =>
    rw [List.dropWhile_cons, if_pos (ha x (List.mem_cons_self _ _))]
    exact ih (fun y hy => ha y (List.mem_cons_of_mem _ hy))

/-- A path in terms of its segments: what stands before the last segment,
and the last segment. -/
theorem strings.path_of_Split (p : Str) (init : List Str) (last : Str)
    (h : strings.Split p filepath.Separator = init ++ [last]) :
    filepath.Separator ∉ last ∧
      p = (if init = [] then [] else strings.Join init [filepath.Separator] ++
        [filepath.Separator]) ++ last := by
  have hlast : filepath.Separator ∉ last :=
    strings.not_mem_of_mem_Split _ p last (by rw [h]; simp)
  refine ⟨hlast, ?_⟩
  have hj := strings.Join_Split filepath.Separator p
  rw [h] at hj
  by_cases hi : init = []
  · subst hi
    simp only [List.nil_append, strings.Join] at hj
    simp [hj]
  · rw [strings.Join_snoc init last _ hi] at hj
    simp only [hi, if_false]
    exact hj.symm

/-- The base of a path whose last segment is not empty is that segment. -/
theorem filepath.Base_of_Split (p : Str) (init : List Str) (last : Str)
    (h : strings.Split p filepath.Separator = init ++ [last]) (hne : last ≠ []) :
    filepath.Base p = last := by
  obtain ⟨hsep, hp⟩ := strings.path_of_Split p init last h
  have hpne : p ≠ [] := by
    rw [hp]
    simp [hne]
  have hrev : ∀ x ∈ last.reverse, (x != filepath.Separator) = true := by
    intro x hx
    simp only [bne_iff_ne, ne_eq]
    intro hxs
    rw [hxs] at hx
    exact hsep (List.mem_reverse.mp hx)
  obtain ⟨c, rest, hlr⟩ : ∃ c rest, last.reverse = c :: rest := by
    cases hl : last.reverse with
    | nil => exact absurd (List.reverse_eq_nil_iff.mp hl) hne
    | cons c rest => exact ⟨c, rest, rfl⟩
  have hc : (c == filepath.Separator) = false := by
    have := hrev c (by rw [hlr]; exact List.mem_cons_self _ _)
    simpa using this
  have hdrop : ∀ tail : List Char,
      (last.reverse ++ tail).dropWhile (fun c => c == filepath.Separator) =
        last.reverse ++ tail := by
    intro tail
    rw [hlr, List.cons_append, List.dropWhile_cons, if_neg (by simp [hc])]
  unfold filepath.Base
  simp only [hpne, if_false]
  by_cases hi : init = []
  · simp only [hi, if_true, List.nil_append] at hp
    have := hdrop []
    rw [List.append_nil] at this
    rw [hp, this, takeWhile_all _ _ hrev, List.reverse_reverse]
    simp [hne]
  · simp only [hi, if_false] at hp
    have hprev : p.reverse = last.reverse ++ filepath.Separator ::
        (strings.Join init [filepath.Separator]).reverse := by
      rw [hp]
      simp
    rw [hprev, hdrop, takeWhile_append_stop _ _ _ _ hrev (by simp), List.reverse_reverse]
    simp [hne]

/-! ### The path of a `FileMetadata` -/

/-- C21 as stated fails: `NewFileMetadata` copies the relative path it is
given.  The paths `docs//a.txt` and `docs/` are accepted by `isPathSafe`;
the metadata for the first has the path `docs//a.txt`, with an empty
segment, and `handleDirectoryCreate` answers the second with metadata whose
path is `docs/`, which ends in a separator and whose last segment is empty
while the name is `docs`. -/
theorem NewFileMetadata_path_not_normalized :
    isPathSafe "docs//a.txt".toList = true ∧
    (NewFileMetadata storedFS "/data/1".toList "docs//a.txt".toList).toOption.map
      (fun m => (m.Name, m.Path)) = some ("a.txt".toList, "docs//a.txt".toList) ∧
    [] ∈ strings.Split "docs//a.txt".toList filepath.Separator ∧
    isPathSafe "docs/".toList = true ∧
    (handleDirectoryCreate "/data".toList storedFS "1".toList (some "docs/".toList)).response =
      { status := 200,
        body := Body.metadata { Name := "docs".toList, Path := "docs/".toList, Size := 4096,
                                IsDir := true, Hash := [] } } ∧
    strings.Split "docs/".toList filepath.Separator = ["docs".toList, []] :=
  ⟨by decide, by rfl, by decide, by decide, by rfl, by decide⟩

/-- C21, amended: the metadata that `NewFileMetadata` makes has the relative
path it was given, unchanged, and the base of that path as name.  When the
path is accepted by `isPathSafe`, is its own cleaned form and is not `.`, it
has no empty segment, no `.` segment, no `..` segment and no separator at
its end, and the name is its last segment. -/
theorem NewFileMetadata_path (fs : FS) (basePath relativePath : Str) (m : FileMetadata)
    (h : NewFileMetadata fs basePath relativePath = .ok m) :
    m.Path = relativePath ∧ m.Name = filepath.Base relativePath ∧
    (isPathSafe relativePath = true → filepath.Clean relativePath = relativePath →
      relativePath ≠ ['.'] →
      [] ∉ strings.Split relativePath filepath.Separator ∧
      ['.'] ∉ strings.Split relativePath filepath.Separator ∧
      ['.', '.'] ∉ strings.Split relativePath filepath.Separator ∧
      relativePath.getLast? ≠ some filepath.Separator ∧
      (strings.Split relativePath filepath.Separator).getLast? = some m.Name) := by
  have hname : m.Name = filepath.Base relativePath := by
    unfold NewFileMetadata at h
    simp only at h
    split at h
    · exact absurd h (by simp)
    · split at h
      · exact absurd h (by simp)
      · simp only [Except.ok.injEq] at h
        rw [← h]
  refine ⟨NewFileMetadata_Path fs basePath relativePath m h, hname, ?_⟩
  intro hsafe hclean hdot
  have hdd := isPathSafe_no_dotdot_segment relativePath hsafe
  have hrel : strings.HasPrefix relativePath [filepath.Separator] = false := by
    by_cases hr : strings.HasPrefix relativePath ['/'] = true
    · unfold isPathSafe at hsafe
      simp [hr] at hsafe
    · simpa using hr
  have hsplit := filepath.Split_Clean_relative relativePath hrel hdd
  rw [hclean] at hsplit
  have hkeep : ∀ seg ∈ strings.Split relativePath filepath.Separator,
      filepath.keepElem seg = true := by
    by_cases hnil : (strings.Split relativePath filepath.Separator).filter filepath.keepElem = []
    · rw [if_pos hnil] at hsplit
      have hj := strings.Join_Split filepath.Separator relativePath
      rw [hsplit] at hj
      exact absurd hj.symm hdot
    · rw [if_neg hnil] at hsplit
      intro seg hseg
      rw [hsplit] at hseg
      exact (List.mem_filter.mp hseg).2
  have hempty : [] ∉ strings.Split relativePath filepath.Separator := by
    intro hmem
    have := hkeep [] hmem
    simp [filepath.keepElem] at this
  refine ⟨hempty, ?_, hdd, ?_, ?_⟩
  · intro hmem
    have := hkeep ['.'] hmem
    simp [filepath.keepElem] at this
  · intro hlast
    obtain ⟨front, hfront⟩ : ∃ front, relativePath = front ++ [filepath.Separator] := by
      have hne : relativePath ≠ [] := by
        intro hh
        rw [hh] at hlast
        simp at hlast
      refine ⟨relativePath.dropLast, ?_⟩
      have := List.dropLast_append_getLast hne
      rw [List.getLast?_eq_getLast _ hne] at hlast
      simp only [Option.some.injEq] at hlast
      rw [hlast] at this
      exact this.symm
    apply hempty
    rw [hfront, strings.Split_append_sep]
    simp [strings.Split]
  · have hne := strings.Split_ne_nil relativePath filepath.Separator
    have hdl := List.dropLast_append_getLast hne
    have hlastne : (strings.Split relativePath filepath.Separator).getLast hne ≠ [] := by
      intro hh
      apply hempty
      rw [← hh]
      exact List.getLast_mem hne
    rw [hname, filepath.Base_of_Split relativePath _ _ hdl.symm hlastne,
      List.getLast?_eq_getLast _ hne]

/-- Witness for C21: the metadata of `docs/a.txt` in the tree of user 1. -/
theorem NewFileMetadata_path_witness :
    (NewFileMetadata storedFS "/data/1".toList "docs/a.txt".toList).toOption.map
      (fun m => (m.Name, m.Path)) = some ("a.txt".toList, "docs/a.txt".toList) ∧
    [] ∉ strings.Split "docs/a.txt".toList filepath.Separator ∧
    ['.'] ∉ strings.Split "docs/a.txt".toList filepath.Separator ∧
    ['.', '.'] ∉ strings.Split "docs/a.txt".toList filepath.Separator ∧
    "docs/a.txt".toList.getLast? ≠ some filepath.Separator ∧
    (strings.Split "docs/a.txt".toList filepath.Separator).getLast? = some "a.txt".toList :=
  ⟨by rfl,
    (NewFileMetadata_path storedFS "/data/1".toList "docs/a.txt".toList
      { Name := "a.txt".toList, Path := "docs/a.txt".toList, Size := 1, IsDir := false,
        Hash := hex.EncodeToString (sha256.Sum256 (bytesOf "a")) }
      (by rfl)).2.2 (by decide) (by decide) (by decide)⟩

/-! ### The websocket handler -/

/-- C22: two connections are registered through the endpoint `/ws`, which
gives both the user id 0, and none is unregistered.  The map then holds the
second connection only, and `Broadcast` returns with the message on the
channel of the second connection and nothing on the channel of the first,
which is open and empty. -/
theorem Broadcast_misses_connection_of_same_user :
    websocket.NewHandler.wsEndpoint.wsEndpoint.made =
      [{ userID := 0, send := [], closed := false }, { userID := 0, send := [], closed := false }] ∧
    websocket.NewHandler.wsEndpoint.wsEndpoint.connections = [(0, 1)] ∧
    (websocket.NewHandler.wsEndpoint.wsEndpoint.Broadcast exampleMessage).handler?.map
      (fun h => (h.pending 0, h.pending 1)) = some (some [], some [exampleMessage]) := by
  decide

/-! ### The map of the tree builder, for paths with one parent each -/

/-- A pass for a key that the map already has leaves the invariant in place,
when the pass names the parent that the key was created with. -/
theorem rootInv_step_old_shape (rt : Runtime) (done : List Step)
    (root : List (Str × NodeCell)) (e : Step) (hinv : RootInv rt done root)
    (hcoh : ShapeCoherent (done ++ [e])) (hold : e.key ∈ keysOf root) :
    RootInv rt (done ++ [e]) root := by
  obtain ⟨e0, he0, hk0⟩ := (hinv.keys e.key).1 hold
  have hpar : e0.parent = e.parent :=
    hcoh e0 (List.mem_append_left _ he0) e (by simp) hk0
  exact
    { nodup := hinv.nodup
      keys := fun k => by
        rw [hinv.keys k]
        constructor
        · rintro ⟨e2, h2, hk⟩
          exact ⟨e2, List.mem_append_left _ h2, hk⟩
        · rintro ⟨e2, h2, hk⟩
          rcases List.mem_append.mp h2 with h2 | h2
          · exact ⟨e2, h2, hk⟩
          · simp only [List.mem_singleton] at h2
            exact ⟨e0, he0, by rw [hk0, ← h2, hk]⟩
      cells := fun k c h => by
        obtain ⟨e2, h2, hr⟩ := hinv.cells k c h
        exact ⟨e2, List.mem_append_left _ h2, hr⟩
      childNodup := hinv.childNodup
      children := fun k c h x => by
        rw [hinv.children k c h x]
        constructor
        · rintro ⟨e2, h2, hk⟩
          exact ⟨e2, List.mem_append_left _ h2, hk⟩
        · rintro ⟨e2, h2, hk, hp⟩
          rcases List.mem_append.mp h2 with h2 | h2
          · exact ⟨e2, h2, hk, hp⟩
          · simp only [List.mem_singleton] at h2
            exact ⟨e0, he0, by rw [hk0, ← h2, hk], by rw [hpar, ← h2, hp]⟩
      parents := fun e2 h2 p hp => by
        rcases List.mem_append.mp h2 with h2 | h2
        · exact hinv.parents e2 h2 p hp
        · simp only [List.mem_singleton] at h2
          exact hinv.parents e0 he0 p (by rw [hpar, ← h2, hp])
      later := hinv.later }

theorem shapeCoherent_initial (done rest : List Step) (h : ShapeCoherent (done ++ rest))
    (e : Step) (rest2 : List Step) (hr : rest = e :: rest2) : ShapeCoherent (done ++ [e]) := by
  intro a ha b hb hk
  apply h a _ b _ hk
  · simp only [List.mem_append, List.mem_singleton] at ha ⊢
    rcases ha with ha | ha
    · exact Or.inl ha
    · right; rw [hr, ha]; exact List.mem_cons_self _ _
  · simp only [List.mem_append, List.mem_singleton] at hb ⊢
    rcases hb with hb | hb
    · exact Or.inl hb
    · right; rw [hr, hb]; exact List.mem_cons_self _ _

/-- The invariant after all passes. -/
theorem rootInv_foldl_shape (rt : Runtime) :
    ∀ (rest done : List Step) (seen : List Str) (root : List (Str × NodeCell)),
      RootInv rt done root → ShapeCoherent (done ++ rest) → ParentsFirst seen rest →
      (∀ k ∈ seen, k ∈ keysOf root) →
      RootInv rt (done ++ rest) (rest.foldl (ensureNode rt) root)
  | [], done, _, root, hinv, _, _, _ => by simpa using hinv
  | e :: rest, done, seen, root, hinv, hcoh, hpf, hseen => by
    have hpar : ∀ p, e.parent = some p → p ∈ keysOf root :=
      fun p hp => hseen p (hpf.1 p hp)
    have hcoh1 := shapeCoherent_initial done (e :: rest) hcoh e rest rfl
    have hstep : RootInv rt (done ++ [e]) (ensureNode rt root e) ∧
        ∀ k ∈ keysOf root, k ∈ keysOf (ensureNode rt root e) := by
      cases hf : findCell root e.key with
      | none =>
        rw [ensureNode_new rt root e hf]
        refine ⟨rootInv_step_new rt done root e hinv hpar ((findCell_eq_none _ _).1 hf), ?_⟩
        intro k hk
        rw [keysOf_linkChild]
        simp only [keysOf, List.map_append, List.mem_append]
        exact Or.inl hk
      | some c =>
        have hold : e.key ∈ keysOf root := by
          by_contra hh
          rw [(findCell_eq_none _ _).2 hh] at hf
          cases hf
        have : ensureNode rt root e = root := by simp [ensureNode, hf]
        rw [this]
        exact ⟨rootInv_step_old_shape rt done root e hinv hcoh1 hold, fun k hk => hk⟩
    have hrec := rootInv_foldl_shape rt rest (done ++ [e]) (e.key :: seen)
      (ensureNode rt root e) hstep.1 (by simpa using hcoh) hpf.2
      (by
        intro k hk
        rcases List.mem_cons.1 hk with hk | hk
        · exact (hstep.1.keys k).2 ⟨e, by simp, hk.symm⟩
        · exact hstep.2 k (hseen k hk))
    simpa using hrec

/-- The map that `buildFileTree` builds satisfies the invariant. -/
theorem rootInv_build_shape (rt : Runtime) (files : List FileMetadata)
    (hcoh : ShapeCoherent (treeSteps files)) :
    RootInv rt (treeSteps files) (files.foldl (addFile rt) []) := by
  rw [foldl_addFile]
  have := rootInv_foldl_shape rt (treeSteps files) [] [] [] (rootInv_nil rt)
    (by simpa using hcoh) (parentsFirst_treeSteps files []) (by simp)
  simpa using this

/-! ### The passes of a clean input -/

/-- The cumulative path of a pass. -/
theorem stepKey_eq (pre : List Str) (part cur : Str)
    (hparts : ∀ p ∈ pre ++ [part],
      p ≠ [] ∧ p ≠ ['.'] ∧ p ≠ ['.', '.'] ∧ filepath.Separator ∉ p)
    (hcur : cur = strings.Join pre [filepath.Separator]) :
    (if cur ≠ [] then filepath.Join [cur, part] else part) =
      strings.Join (pre ++ [part]) [filepath.Separator] := by
  by_cases hpre : pre = []
  · subst hpre
    simp [hcur, strings.Join]
  · have hcne : cur ≠ [] := by
      rw [hcur]
      exact strings.Join_ne_nil _ pre hpre
        (fun p hp => (hparts p (List.mem_append_left _ hp)).1)
    simp only [hcne, ne_eq, not_false_eq_true, if_true, filepath.Join, if_false]
    have hj : strings.Join [cur, part] [filepath.Separator] =
        strings.Join (pre ++ [part]) [filepath.Separator] := by
      rw [strings.Join_snoc pre part _ hpre, ← hcur]
      simp [strings.Join]
    rw [hj]
    exact filepath.Clean_Join _ (by simp) hparts

/-- Every cumulative path of a clean path is asked for by a pass. -/
theorem stepsFrom_complete (file : FileMetadata) :
    ∀ (rest pre : List Str) (nparts : Nat) (cur : Str) (node : Option Str),
      (∀ part ∈ pre ++ rest,
        part ≠ [] ∧ part ≠ ['.'] ∧ part ≠ ['.', '.'] ∧ filepath.Separator ∉ part) →
      cur = strings.Join pre [filepath.Separator] →
      ∀ a part b, rest = a ++ part :: b →
        ∃ e ∈ stepsFrom file nparts cur node (List.enumFrom pre.length rest),
          e.key = strings.Join (pre ++ a ++ [part]) [filepath.Separator]
  | [], _, _, _, _, _, _, a, part, b, h => by simp at h
  | r :: rest, pre, nparts, cur, node, hparts, hcur, a, part, b, h => by
    have hr := hparts r (by simp)
    have hkey := stepKey_eq pre r cur (fun p hp => hparts p (by
      simp only [List.mem_append, List.mem_singleton, List.mem_cons, List.not_mem_nil,
        or_false] at hp ⊢
      rcases hp with hp | hp
      · exact Or.inl hp
      · exact Or.inr (Or.inl hp))) hcur
    simp only [List.enumFrom_cons, stepsFrom, hr.1, if_false, hkey, List.mem_cons]
    cases a with
    | nil =>
      simp only [List.nil_append, List.cons.injEq] at h
      refine ⟨_, Or.inl rfl, ?_⟩
      simp [h.1]
    | cons a0 a =>
      simp only [List.cons_append, List.cons.injEq] at h
      have hlen : (pre ++ [r]).length = pre.length + 1 := by simp
      rw [← hlen]
      obtain ⟨e, he, hk⟩ := stepsFrom_complete file rest (pre ++ [r]) nparts
        (strings.Join (pre ++ [r]) [filepath.Separator])
        (some (strings.Join (pre ++ [r]) [filepath.Separator]))
        (by simpa using hparts) rfl a part b h.2
      refine ⟨e, Or.inr he, ?_⟩
      rw [hk, h.1]
      simp

/-- What a pass of a clean input asks for. -/
theorem mem_treeSteps (files : List FileMetadata) (hclean : CleanPaths files) (e : Step)
    (he : e ∈ treeSteps files) :
    ∃ f ∈ files, ∃ a part b, strings.Split f.Path filepath.Separator = a ++ part :: b ∧
      (∀ p ∈ a ++ part :: b, p ≠ [] ∧ filepath.Separator ∉ p) ∧
      e.key = strings.Join (a ++ [part]) [filepath.Separator] ∧
      strings.Split e.key filepath.Separator = a ++ [part] ∧
      e.name = part ∧
      e.parent = (if a = [] then none else some (strings.Join a [filepath.Separator])) ∧
      e.isDir = (decide (b ≠ []) || f.IsDir) := by
  obtain ⟨f, hf, hef⟩ := List.mem_flatMap.1 he
  obtain ⟨a, part, b, hsf, hpf, hk, hname, hpar, hdir⟩ := mem_fileSteps f (hclean f hf) e hef
  refine ⟨f, hf, a, part, b, hsf, hpf, hk, ?_, hname, hpar, hdir⟩
  rw [hk]
  exact strings.Split_Join filepath.Separator (a ++ [part]) (by simp)
    (fun p hp => (hpf p (by
      simp only [List.mem_append, List.mem_singleton, List.mem_cons, List.not_mem_nil,
        or_false] at hp ⊢
      rcases hp with hp | hp
      · exact Or.inl hp
      · exact Or.inr (Or.inl hp))).2)

/-- In a clean input every cumulative path has one parent. -/
theorem shapeCoherent_of_clean (files : List FileMetadata) (hclean : CleanPaths files) :
    ShapeCoherent (treeSteps files) := by
  intro e he e2 he2 hkey
  obtain ⟨_, _, a, part, b, _, _, _, hs, _, hpar, _⟩ := mem_treeSteps files hclean e he
  obtain ⟨_, _, a2, part2, b2, _, _, _, hs2, _, hpar2, _⟩ := mem_treeSteps files hclean e2 he2
  rw [hkey, hs2] at hs
  have ha : a2 = a := by
    have := congrArg List.dropLast hs
    simpa using this
  rw [hpar, hpar2, ha]

/-- The non-empty initial parts of a list. -/
theorem mem_inits_tail {α : Type} (x : List α) :
    ∀ (L : List α), x ∈ L.inits.tail ↔ ∃ a part b, L = a ++ part :: b ∧ x = a ++ [part]
  | [] => by simp
  | c :: L => by
    rw [List.inits_cons, List.tail_cons, List.mem_map]
    constructor
    · rintro ⟨y, hy, rfl⟩
      rw [List.mem_inits] at hy
      obtain ⟨t, ht⟩ := hy
      cases hyl : y.reverse with
      | nil =>
        have : y = [] := by simpa using hyl
        subst this
        exact ⟨[], c, L, rfl, rfl⟩
      | cons last yr =>
        have hy2 : y = yr.reverse ++ [last] := by
          have := congrArg List.reverse hyl
          simpa using this
        refine ⟨c :: yr.reverse, last, t, ?_, ?_⟩
        · rw [← ht, hy2]; simp
        · rw [hy2]; simp
    · rintro ⟨a, part, b, hL, rfl⟩
      cases a with
      | nil =>
        simp only [List.nil_append, List.cons.injEq] at hL
        exact ⟨[], by simp, by simp [hL.1]⟩
      | cons a0 a =>
        simp only [List.cons_append, List.cons.injEq] at hL
        refine ⟨a ++ [part], ?_, by simp [hL.1]⟩
        rw [List.mem_inits, hL.2]
        exact ⟨b, by simp⟩

/-- The keys that the passes of a clean input ask for are the cumulative
paths of the input. -/
theorem keys_eq_cumulativePaths (files : List FileMetadata) (hclean : CleanPaths files)
    (k : Str) :
    (∃ e ∈ treeSteps files, e.key = k) ↔ ∃ f ∈ files, k ∈ cumulativePaths f.Path := by
  constructor
  · rintro ⟨e, he, hk⟩
    obtain ⟨f, hf, a, part, b, hsf, _, hkey, _⟩ := mem_treeSteps files hclean e he
    refine ⟨f, hf, ?_⟩
    unfold cumulativePaths
    rw [List.mem_map]
    exact ⟨a ++ [part], (mem_inits_tail _ _).mpr ⟨a, part, b, hsf, rfl⟩, by rw [← hk, hkey]⟩
  · rintro ⟨f, hf, hk⟩
    unfold cumulativePaths at hk
    rw [List.mem_map] at hk
    obtain ⟨x, hx, hxk⟩ := hk
    obtain ⟨a, part, b, hsf, rfl⟩ := (mem_inits_tail _ _).mp hx
    have hparts : ∀ part ∈ ([] : List Str) ++ strings.Split f.Path filepath.Separator,
        part ≠ [] ∧ part ≠ ['.'] ∧ part ≠ ['.', '.'] ∧ filepath.Separator ∉ part := by
      intro part hp
      simp only [List.nil_append] at hp
      have := hclean f hf part hp
      exact ⟨this.1, this.2.1, this.2.2, strings.not_mem_of_mem_Split _ _ _ hp⟩
    obtain ⟨e, he, hek⟩ := stepsFrom_complete f (strings.Split f.Path filepath.Separator) []
      (strings.Split f.Path filepath.Separator).length [] none hparts rfl a part b hsf
    refine ⟨e, List.mem_flatMap.2 ⟨f, hf, ?_⟩, ?_⟩
    · simpa [fileSteps, List.enum] using he
    · rw [hek, ← hxk]
      simp

/-! ### The nodes of a tree -/

theorem TreeNode.nodes_eq (t : TreeNode) : t.nodes = t :: nodesOf t.Children := by
  cases t with
  | mk name path icon isDir children => simp [TreeNode.nodes, TreeNode.Children]

theorem mem_nodes_self (t : TreeNode) : t ∈ t.nodes := by
  rw [TreeNode.nodes_eq]
  exact List.mem_cons_self _ _

theorem mem_nodesOf_of_mem :
    ∀ (ts : List TreeNode) (t : TreeNode), t ∈ ts → ∀ n ∈ t.nodes, n ∈ nodesOf ts
  | [], _, h, _, _ => by simp at h
  | t0 :: rest, t, h, n, hn => by
    unfold nodesOf
    rcases List.mem_cons.mp h with h | h
    · rw [h] at hn
      exact List.mem_append_left _ hn
    · exact List.mem_append_right _ (mem_nodesOf_of_mem rest t h n hn)

theorem mem_nodesOf_iff :
    ∀ (ts : List TreeNode) (n : TreeNode), n ∈ nodesOf ts ↔ ∃ t ∈ ts, n ∈ t.nodes
  | [], n => by simp [nodesOf]
  | t0 :: rest, n => by
    unfold nodesOf
    rw [List.mem_append, mem_nodesOf_iff rest n]
    simp

mutual
/-- A property that passes from a node to its children holds of every node
of the tree. -/
theorem nodes_forall (P : TreeNode → Prop) (hher : ∀ t, P t → ∀ a ∈ t.Children, P a) :
    ∀ t : TreeNode, P t → ∀ n ∈ t.nodes, P n
  | TreeNode.mk name path icon isDir children, ht, n, hn => by
    unfold TreeNode.nodes at hn
    rcases List.mem_cons.mp hn with h | h
    · rw [h]; exact ht
    · exact nodesOf_forall P hher children (hher _ ht) n h
theorem nodesOf_forall (P : TreeNode → Prop) (hher : ∀ t, P t → ∀ a ∈ t.Children, P a) :
    ∀ ts : List TreeNode, (∀ t ∈ ts, P t) → ∀ n ∈ nodesOf ts, P n
  | [], _, n, hn => by simp [nodesOf] at hn
  | t :: rest, h, n, hn => by
    unfold nodesOf at hn
    rcases List.mem_append.mp hn with h1 | h1
    · exact nodes_forall P hher t (h t (List.mem_cons_self _ _)) n h1
    · exact nodesOf_forall P hher rest (fun x hx => h x (List.mem_cons_of_mem _ hx)) n h1
end

mutual
/-- The children of a node of a tree are nodes of the tree. -/
theorem nodes_child :
    ∀ (t n a : TreeNode), n ∈ t.nodes → a ∈ n.Children → a ∈ t.nodes
  | TreeNode.mk name path icon isDir children, n, a, hn, ha => by
    unfold TreeNode.nodes at hn ⊢
    rcases List.mem_cons.mp hn with h | h
    · rw [h] at ha
      exact List.mem_cons_of_mem _ (mem_nodesOf_of_mem children a ha a (mem_nodes_self a))
    · exact List.mem_cons_of_mem _ (nodesOf_child children n a h ha)
theorem nodesOf_child :
    ∀ (ts : List TreeNode) (n a : TreeNode), n ∈ nodesOf ts → a ∈ n.Children → a ∈ nodesOf ts
  | [], n, _, hn, _ => by simp [nodesOf] at hn
  | t :: rest, n, a, hn, ha => by
    unfold nodesOf at hn ⊢
    rcases List.mem_append.mp hn with h | h
    · exact List.mem_append_left _ (nodes_child t n a h ha)
    · exact List.mem_append_right _ (nodesOf_child rest n a h ha)
end

/-- Two paths that are apart have no common descendant. -/
theorem Apart.no_common {x y : Str} (h : Apart x y) (segs : List Str)
    (hx : strings.Split x filepath.Separator <+: segs)
    (hy : strings.Split y filepath.Separator <+: segs) : False := by
  rcases List.prefix_or_prefix_of_prefix hx hy with h1 | h1
  · exact h.1 h1
  · exact h.2 h1

mutual
/-- In a tree in which every child extends the path of its parent by one
segment and the children of a node have distinct paths, no two nodes have
the same path, and every node extends the path of the root of its tree. -/
theorem nodes_nodup (P : TreeNode → Prop) (hher : ∀ t, P t → ∀ a ∈ t.Children, P a)
    (hext : ∀ t, P t → ∀ a ∈ t.Children,
      strings.Split t.Path filepath.Separator <+: strings.Split a.Path filepath.Separator ∧
      (strings.Split a.Path filepath.Separator).length =
        (strings.Split t.Path filepath.Separator).length + 1)
    (hsib : ∀ t, P t → t.Children.Pairwise (fun a b => Apart a.Path b.Path)) :
    ∀ t : TreeNode, P t →
      (t.nodes.map TreeNode.Path).Nodup ∧
      ∀ n ∈ t.nodes, strings.Split t.Path filepath.Separator <+:
        strings.Split n.Path filepath.Separator
  | TreeNode.mk name path icon isDir children, ht => by
    have hrec := nodesOf_nodup P hher hext hsib children (hher _ ht) (hsib _ ht)
    have hpm : (TreeNode.mk name path icon isDir children).Path = path := rfl
    have hbelow : ∀ n ∈ nodesOf children,
        strings.Split path filepath.Separator <+: strings.Split n.Path filepath.Separator ∧
        (strings.Split path filepath.Separator).length <
          (strings.Split n.Path filepath.Separator).length := by
      intro n hn
      obtain ⟨c, hc, hcn⟩ := hrec.2 n hn
      have := hext _ ht c hc
      rw [hpm] at this
      refine ⟨this.1.trans hcn, ?_⟩
      have hlen := hcn.length_le
      have hlen2 := this.2
      omega
    unfold TreeNode.nodes
    constructor
    · rw [List.map_cons, List.nodup_cons]
      refine ⟨?_, hrec.1⟩
      intro hmem
      obtain ⟨n, hn, hp⟩ := List.mem_map.mp hmem
      have := (hbelow n hn).2
      rw [hp, hpm] at this
      omega
    · intro n hn
      rcases List.mem_cons.mp hn with h | h
      · rw [h]
      · rw [hpm]
        exact (hbelow n h).1
theorem nodesOf_nodup (P : TreeNode → Prop) (hher : ∀ t, P t → ∀ a ∈ t.Children, P a)
    (hext : ∀ t, P t → ∀ a ∈ t.Children,
      strings.Split t.Path filepath.Separator <+: strings.Split a.Path filepath.Separator ∧
      (strings.Split a.Path filepath.Separator).length =
        (strings.Split t.Path filepath.Separator).length + 1)
    (hsib : ∀ t, P t → t.Children.Pairwise (fun a b => Apart a.Path b.Path)) :
    ∀ ts : List TreeNode, (∀ t ∈ ts, P t) → ts.Pairwise (fun a b => Apart a.Path b.Path) →
      ((nodesOf ts).map TreeNode.Path).Nodup ∧
      ∀ n ∈ nodesOf ts, ∃ t ∈ ts, strings.Split t.Path filepath.Separator <+:
        strings.Split n.Path filepath.Separator
  | [], _, _ => by simp [nodesOf]
  | t :: rest, h, hpw => by
    have h1 := nodes_nodup P hher hext hsib t (h t (List.mem_cons_self _ _))
    have hpw2 := List.pairwise_cons.mp hpw
    have h2 := nodesOf_nodup P hher hext hsib rest
      (fun x hx => h x (List.mem_cons_of_mem _ hx)) hpw2.2
    unfold nodesOf
    constructor
    · rw [List.map_append]
      refine List.Nodup.append h1.1 h2.1 ?_
      intro p hp1 hp2
      obtain ⟨n1, hn1, hp1⟩ := List.mem_map.mp hp1
      obtain ⟨n2, hn2, hp2⟩ := List.mem_map.mp hp2
      obtain ⟨t2, ht2, hext2⟩ := h2.2 n2 hn2
      have hext1 := h1.2 n1 hn1
      rw [hp1] at hext1
      rw [hp2] at hext2
      exact (hpw2.1 t2 ht2).no_common _ hext1 hext2
    · intro n hn
      rcases List.mem_append.mp hn with hn | hn
      · exact ⟨t, List.mem_cons_self _ _, h1.2 n hn⟩
      · obtain ⟨t2, ht2, hx⟩ := h2.2 n hn
        exact ⟨t2, List.mem_cons_of_mem _ ht2, hx⟩
end

/-! ### The values of the nodes of the map -/

/-- The value of a key of the map. -/
theorem RootInv.value {rt : Runtime} {steps : List Step} {root : List (Str × NodeCell)}
    (hinv : RootInv rt steps root) {k : Str} (hk : k ∈ keysOf root) :
    ∃ c t, (k, c) ∈ root ∧ sortedTreeOf rt root k = some t ∧ t.Path = k ∧ t.Name = c.Name ∧
      t.IsDir = c.IsDir ∧
      t.Children = rt.sortSlice (sortLess rt) (c.Children.filterMap (sortedTreeOf rt root)) := by
  obtain ⟨c, hc⟩ := hinv.mem_of_key hk
  obtain ⟨e, _, hek, _, hpath, _⟩ := hinv.cells k c hc
  refine ⟨c, _, hc, hinv.sortedTreeOf_mem hc, ?_, rfl, rfl, rfl⟩
  simp only [TreeNode.Path]
  rw [hpath, hek]

/-- The values of a list of keys of the map have these keys as paths. -/
theorem RootInv.values_paths {rt : Runtime} {steps : List Step} {root : List (Str × NodeCell)}
    (hinv : RootInv rt steps root) :
    ∀ (l : List Str), (∀ x ∈ l, x ∈ keysOf root) →
      (l.filterMap (sortedTreeOf rt root)).map TreeNode.Path = l
  | [], _ => rfl
  | x :: l, h => by
    obtain ⟨c, t, _, hv, hp, _⟩ := hinv.value (h x (List.mem_cons_self _ _))
    rw [List.filterMap_cons, hv]
    simp only [List.map_cons, hp]
    rw [hinv.values_paths l (fun y hy => h y (List.mem_cons_of_mem _ hy))]

/-- The children of the value of a key: the values of the keys that a pass
asks for with this key as parent, each once. -/
theorem RootInv.value_children {rt : Runtime} (hrt : rt.SortsCorrectly) {steps : List Step}
    {root : List (Str × NodeCell)} (hinv : RootInv rt steps root) {k : Str} {t : TreeNode}
    (hk : k ∈ keysOf root) (hv : sortedTreeOf rt root k = some t) :
    t.Path = k ∧ (t.Children.map TreeNode.Path).Nodup ∧
    (∀ a ∈ t.Children, a.Path ∈ keysOf root ∧ sortedTreeOf rt root a.Path = some a ∧
      ∃ e ∈ steps, e.key = a.Path ∧ e.parent = some k) ∧
    (∀ e ∈ steps, e.parent = some k →
      ∃ a ∈ t.Children, a.Path = e.key ∧ sortedTreeOf rt root e.key = some a) := by
  obtain ⟨c, t2, hc, hv2, hp, _, _, hch⟩ := hinv.value hk
  rw [hv] at hv2
  simp only [Option.some.injEq] at hv2
  subst hv2
  have hkeys : ∀ x ∈ c.Children, x ∈ keysOf root :=
    fun x hx => childrenLater_mem root hinv.later k c hc x hx
  have hperm := (hrt (sortLess rt) (sortLess_strictWeakOrder rt)
    (c.Children.filterMap (sortedTreeOf rt root))).1
  rw [← hch] at hperm
  have hpaths := hinv.values_paths c.Children hkeys
  have hmem : ∀ a, a ∈ t.Children ↔
      ∃ x ∈ c.Children, sortedTreeOf rt root x = some a := by
    intro a
    rw [hperm.mem_iff, List.mem_filterMap]
  refine ⟨hp, ?_, ?_, ?_⟩
  · rw [(hperm.map TreeNode.Path).nodup_iff, hpaths]
    exact hinv.childNodup k c hc
  · intro a ha
    obtain ⟨x, hx, hxa⟩ := (hmem a).mp ha
    obtain ⟨_, t3, _, hv3, hp3, _⟩ := hinv.value (hkeys x hx)
    rw [hxa] at hv3
    simp only [Option.some.injEq] at hv3
    rw [← hv3] at hp3
    rw [hp3]
    exact ⟨hkeys x hx, hxa, (hinv.children k c hc x).mp hx⟩
  · intro e he hpar
    have hx : e.key ∈ c.Children := (hinv.children k c hc e.key).mpr ⟨e, he, rfl, hpar⟩
    obtain ⟨_, t3, _, hv3, hp3, _⟩ := hinv.value (hkeys e.key hx)
    exact ⟨t3, (hmem t3).mpr ⟨e.key, hx, hv3⟩, hp3, hv3⟩

/-! ### The shape of the tree of clean inputs -/

theorem strings.Contains_char (c : Char) :
    ∀ (s : Str), strings.Contains s [c] = true ↔ c ∈ s
  | [] => by simp [strings.Contains]
  | x :: s => by
    unfold strings.Contains
    rw [Bool.or_eq_true, strings.Contains_char c s]
    simp [List.isPrefixOf]

/-- Distinct paths with the same number of segments are apart. -/
theorem apart_of_same_length {x y : Str} (hne : x ≠ y)
    (hlen : (strings.Split x filepath.Separator).length =
      (strings.Split y filepath.Separator).length) : Apart x y := by
  have key : ∀ (u v : Str), (strings.Split u filepath.Separator).length =
      (strings.Split v filepath.Separator).length →
      strings.Split u filepath.Separator <+: strings.Split v filepath.Separator → u = v := by
    intro u v hl hp
    have := hp.eq_of_length hl
    have h2 := congrArg (fun l => strings.Join l [filepath.Separator]) this
    simpa [strings.Join_Split] using h2
  exact ⟨fun h => hne (key x y hlen h), fun h => hne (key y x hlen.symm h).symm⟩

theorem Apart.symm {x y : Str} (h : Apart x y) : Apart y x := ⟨h.2, h.1⟩

/-- Nodes with distinct paths of the same number of segments are pairwise apart. -/
theorem pairwise_apart (n : Nat) :
    ∀ (ts : List TreeNode), (ts.map TreeNode.Path).Nodup →
      (∀ t ∈ ts, (strings.Split t.Path filepath.Separator).length = n) →
      ts.Pairwise (fun a b => Apart a.Path b.Path) := by
  intro ts hnd hlen
  rw [List.Nodup, List.pairwise_map] at hnd
  refine hnd.imp_of_mem ?_
  intro a b ha hb hab
  exact apart_of_same_length hab ((hlen a ha).trans (hlen b hb).symm)

/-- The builder's list: the values of the keys without a separator, sorted. -/
theorem buildFileTree_eq_shape (rt : Runtime) (files : List FileMetadata)
    (hcoh : ShapeCoherent (treeSteps files)) :
    buildFileTree rt files =
      rt.sortSlice (sortLess rt)
        (((keysOf (files.foldl (addFile rt) [])).filterMap
          (sortedTreeOf rt (files.foldl (addFile rt) []))).filter
          (fun node => !strings.Contains node.Path [filepath.Separator])) := by
  have hinv := rootInv_build_shape rt files hcoh
  unfold buildFileTree sortNodes
  simp only []
  rw [sortChildren_eq_map, map_sortNode_filter_topLevel, materialize_values _ hinv.nodup,
    List.map_filterMap]
  rfl

/-- The children of a value are values. -/
theorem IsValue.children {rt : Runtime} (hrt : rt.SortsCorrectly) {files : List FileMetadata}
    (hclean : CleanPaths files) {t : TreeNode} (ht : IsValue rt files t) :
    ∀ a ∈ t.Children, IsValue rt files a := by
  have hinv := rootInv_build_shape rt files (shapeCoherent_of_clean files hclean)
  intro a ha
  obtain ⟨_, _, h3, _⟩ := hinv.value_children hrt ht.1 ht.2
  exact ⟨(h3 a ha).1, (h3 a ha).2.1⟩

/-- The segments of a node of the tree. -/
theorem IsValue.segments {rt : Runtime} {files : List FileMetadata}
    (hclean : CleanPaths files) {t : TreeNode} (ht : IsValue rt files t) :
    ∃ a, strings.Split t.Path filepath.Separator = a ++ [t.Name] ∧
      (∀ p ∈ a ++ [t.Name], p ≠ [] ∧ filepath.Separator ∉ p) := by
  have hinv := rootInv_build_shape rt files (shapeCoherent_of_clean files hclean)
  obtain ⟨c, t2, hc, hv, _, hname, _⟩ := hinv.value ht.1
  rw [ht.2] at hv
  simp only [Option.some.injEq] at hv
  subst hv
  obtain ⟨e, he, hek, hcn, _⟩ := hinv.cells _ c hc
  obtain ⟨_, _, a, part, b, _, hp, _, hs, hn, _⟩ := mem_treeSteps files hclean e he
  refine ⟨a, ?_, ?_⟩
  · rw [hname, hcn, hn, ← hek, hs]
  · rw [hname, hcn, hn]
    intro p hp2
    refine hp p ?_
    simp only [List.mem_append, List.mem_singleton, List.mem_cons, List.not_mem_nil,
      or_false] at hp2 ⊢
    rcases hp2 with h | h
    · exact Or.inl h
    · exact Or.inr (Or.inl h)

/-- A child extends the path of its parent by one segment, its name. -/
theorem IsValue.child_segments {rt : Runtime} (hrt : rt.SortsCorrectly)
    {files : List FileMetadata} (hclean : CleanPaths files) {t : TreeNode}
    (ht : IsValue rt files t) :
    ∀ a ∈ t.Children,
      strings.Split a.Path filepath.Separator =
        strings.Split t.Path filepath.Separator ++ [a.Name] ∧
      a.Name ≠ [] ∧ filepath.Separator ∉ a.Name := by
  have hinv := rootInv_build_shape rt files (shapeCoherent_of_clean files hclean)
  intro a ha
  obtain ⟨_, _, h3, _⟩ := hinv.value_children hrt ht.1 ht.2
  obtain ⟨hak, hav, e, he, hek, hpar⟩ := h3 a ha
  obtain ⟨pre, hs, hp⟩ := IsValue.segments hclean ⟨hak, hav⟩
  obtain ⟨_, _, a2, part, b, _, hp2, _, hs2, _, hpar2, _⟩ := mem_treeSteps files hclean e he
  rw [hek, hs] at hs2
  have hpre : a2 = pre := by
    have := congrArg List.dropLast hs2
    simpa using this.symm
  subst hpre
  have hname := hp a.Name (by simp)
  refine ⟨?_, hname.1, hname.2⟩
  rw [hs]
  congr 1
  by_cases hnil : a2 = []
  · rw [if_pos hnil] at hpar2
    rw [hpar2] at hpar
    cases hpar
  · rw [if_neg hnil, hpar] at hpar2
    simp only [Option.some.injEq] at hpar2
    rw [hpar2]
    exact (strings.Split_Join filepath.Separator a2 hnil
      (fun p hp3 => (hp p (List.mem_append_left _ hp3)).2)).symm

/-! ### Every key has one node in the tree -/

mutual
/-- A node of a tree is its root or a child of a node of the tree. -/
theorem nodes_parent :
    ∀ (t n : TreeNode), n ∈ t.nodes → n = t ∨ ∃ p ∈ t.nodes, n ∈ p.Children
  | TreeNode.mk name path icon isDir children, n, hn => by
    unfold TreeNode.nodes at hn
    rcases List.mem_cons.mp hn with h | h
    · exact Or.inl h
    · right
      rcases nodesOf_parent children n h with h2 | ⟨p, hp, hn2⟩
      · exact ⟨_, mem_nodes_self _, h2⟩
      · refine ⟨p, ?_, hn2⟩
        unfold TreeNode.nodes
        exact List.mem_cons_of_mem _ hp
theorem nodesOf_parent :
    ∀ (ts : List TreeNode) (n : TreeNode), n ∈ nodesOf ts →
      n ∈ ts ∨ ∃ p ∈ nodesOf ts, n ∈ p.Children
  | [], n, hn => by simp [nodesOf] at hn
  | t :: rest, n, hn => by
    unfold nodesOf at hn ⊢
    rcases List.mem_append.mp hn with h | h
    · rcases nodes_parent t n h with h2 | ⟨p, hp, hn2⟩
      · exact Or.inl (by rw [h2]; exact List.mem_cons_self _ _)
      · exact Or.inr ⟨p, List.mem_append_left _ hp, hn2⟩
    · rcases nodesOf_parent rest n h with h2 | ⟨p, hp, hn2⟩
      · exact Or.inl (List.mem_cons_of_mem _ h2)
      · exact Or.inr ⟨p, List.mem_append_right _ hp, hn2⟩
end

/-- The top level of the tree: the values of the keys without a separator. -/
theorem tree_top (rt : Runtime) (hrt : rt.SortsCorrectly) (files : List FileMetadata)
    (hclean : CleanPaths files) :
    (∀ t ∈ buildFileTree rt files, IsValue rt files t) ∧
    (buildFileTree rt files).Pairwise (fun a b => Apart a.Path b.Path) ∧
    (∀ t, IsValue rt files t →
      (t ∈ buildFileTree rt files ↔ strings.Contains t.Path [filepath.Separator] = false)) := by
  have hcoh := shapeCoherent_of_clean files hclean
  have hinv := rootInv_build_shape rt files hcoh
  have hperm := (hrt (sortLess rt) (sortLess_strictWeakOrder rt)
    (((keysOf (files.foldl (addFile rt) [])).filterMap
      (sortedTreeOf rt (files.foldl (addFile rt) []))).filter
      (fun node => !strings.Contains node.Path [filepath.Separator]))).1
  rw [← buildFileTree_eq_shape rt files hcoh] at hperm
  have hmem : ∀ t, t ∈ buildFileTree rt files ↔
      (∃ k ∈ keysOf (files.foldl (addFile rt) []),
        sortedTreeOf rt (files.foldl (addFile rt) []) k = some t) ∧
      strings.Contains t.Path [filepath.Separator] = false := by
    intro t
    rw [hperm.mem_iff, List.mem_filter, List.mem_filterMap]
    simp
  have hval : ∀ t ∈ buildFileTree rt files, IsValue rt files t := by
    intro t ht
    obtain ⟨⟨k, hk, hv⟩, _⟩ := (hmem t).mp ht
    obtain ⟨_, t2, _, hv2, hp, _⟩ := hinv.value hk
    rw [hv] at hv2
    simp only [Option.some.injEq] at hv2
    subst hv2
    unfold IsValue
    rw [hp]
    exact ⟨hk, hv⟩
  refine ⟨hval, ?_, ?_⟩
  · have hsym : ∀ (a b : TreeNode), Apart a.Path b.Path → Apart b.Path a.Path :=
      fun a b h => h.symm
    have hpw : (((keysOf (files.foldl (addFile rt) [])).filterMap
        (sortedTreeOf rt (files.foldl (addFile rt) []))).filter
        (fun node => !strings.Contains node.Path [filepath.Separator])).Pairwise
        (fun a b => Apart a.Path b.Path) := by
      apply pairwise_apart 1
      · have hsub : ((((keysOf (files.foldl (addFile rt) [])).filterMap
            (sortedTreeOf rt (files.foldl (addFile rt) []))).filter
            (fun node => !strings.Contains node.Path [filepath.Separator])).map
            TreeNode.Path).Sublist
            (((keysOf (files.foldl (addFile rt) [])).filterMap
            (sortedTreeOf rt (files.foldl (addFile rt) []))).map TreeNode.Path) :=
          (List.filter_sublist _).map _
        rw [hinv.values_paths _ (fun x hx => hx)] at hsub
        exact hsub.nodup hinv.nodup
      · intro t ht
        rw [List.mem_filter] at ht
        have hc : strings.Contains t.Path [filepath.Separator] = false := by
          simpa using ht.2
        have hnot : filepath.Separator ∉ t.Path := by
          intro hin
          rw [(strings.Contains_char _ _).mpr hin] at hc
          cases hc
        rw [strings.Split_of_not_mem _ _ hnot]
        rfl
    exact (hperm.pairwise_iff (fun {a b} h => hsym a b h)).mpr hpw
  · intro t ht
    rw [hmem t]
    exact ⟨fun h => h.2, fun h => ⟨⟨t.Path, ht.1, ht.2⟩, h⟩⟩

/-- Every node of the tree is the value of its path. -/
theorem tree_nodes_values (rt : Runtime) (hrt : rt.SortsCorrectly) (files : List FileMetadata)
    (hclean : CleanPaths files) :
    ∀ n ∈ nodesOf (buildFileTree rt files), IsValue rt files n :=
  nodesOf_forall (IsValue rt files) (fun _ ht => IsValue.children hrt hclean ht) _
    (tree_top rt hrt files hclean).1

/-- No two nodes of the tree have the same path. -/
theorem tree_nodup (rt : Runtime) (hrt : rt.SortsCorrectly) (files : List FileMetadata)
    (hclean : CleanPaths files) :
    ((nodesOf (buildFileTree rt files)).map TreeNode.Path).Nodup := by
  refine (nodesOf_nodup (IsValue rt files) (fun _ ht => IsValue.children hrt hclean ht)
    ?_ ?_ _ (tree_top rt hrt files hclean).1 (tree_top rt hrt files hclean).2.1).1
  · intro t ht a ha
    have h := (IsValue.child_segments hrt hclean ht a ha).1
    rw [h]
    exact ⟨List.prefix_append _ _, by simp⟩
  · intro t ht
    have hinv := rootInv_build_shape rt files (shapeCoherent_of_clean files hclean)
    apply pairwise_apart ((strings.Split t.Path filepath.Separator).length + 1)
    · exact (hinv.value_children hrt ht.1 ht.2).2.1
    · intro a ha
      rw [(IsValue.child_segments hrt hclean ht a ha).1]
      simp

/-- Every key of the map has a node in the tree. -/
theorem tree_cover (rt : Runtime) (hrt : rt.SortsCorrectly) (files : List FileMetadata)
    (hclean : CleanPaths files) :
    ∀ (n : Nat) (k : Str), (strings.Split k filepath.Separator).length = n →
      k ∈ keysOf (files.foldl (addFile rt) []) →
      ∃ t ∈ nodesOf (buildFileTree rt files), t.Path = k ∧ IsValue rt files t := by
  have hinv := rootInv_build_shape rt files (shapeCoherent_of_clean files hclean)
  intro n
  induction n using Nat.strong_induction_on with
  | _ n ih =>
    intro k hlen hk
    obtain ⟨e, he, hek⟩ := (hinv.keys k).mp hk
    obtain ⟨_, _, a, part, b, _, hp, hkey, hs, _, hpar, _⟩ := mem_treeSteps files hclean e he
    obtain ⟨_, t, _, hv, hpath, _⟩ := hinv.value hk
    have hval : IsValue rt files t := by
      unfold IsValue
      rw [hpath]
      exact ⟨hk, hv⟩
    by_cases hnil : a = []
    · subst hnil
      refine ⟨t, ?_, hpath, hval⟩
      apply mem_nodesOf_of_mem _ t _ t (mem_nodes_self t)
      rw [(tree_top rt hrt files hclean).2.2 t hval, hpath, ← hek, hkey]
      have hnot : filepath.Separator ∉ part := (hp part (by simp)).2
      cases hc : strings.Contains (strings.Join ([] ++ [part]) [filepath.Separator])
          [filepath.Separator] with
      | false => rfl
      | true =>
        exfalso
        apply hnot
        have := (strings.Contains_char _ _).mp hc
        simpa [strings.Join] using this
    · rw [if_neg hnil] at hpar
      have hpk := hinv.parents e he _ hpar
      have hsp : strings.Split (strings.Join a [filepath.Separator]) filepath.Separator = a :=
        strings.Split_Join filepath.Separator a hnil
          (fun p hp3 => (hp p (List.mem_append_left _ hp3)).2)
      have hlt : (strings.Split (strings.Join a [filepath.Separator])
          filepath.Separator).length < n := by
        rw [hsp, ← hlen, ← hek, hs]
        simp
      obtain ⟨p, hpT, hpp, hpv⟩ := ih _ hlt _ rfl hpk
      rw [← hpp] at hpar
      obtain ⟨c, hc, hcp, hcv⟩ := (hinv.value_children hrt hpv.1 hpv.2).2.2.2 e he hpar
      refine ⟨c, nodesOf_child _ p c hpT hc, by rw [hcp, hek], ?_⟩
      unfold IsValue
      rw [hcp]
      exact ⟨(hinv.keys _).mpr ⟨e, he, rfl⟩, hcv⟩

/-- C23 as stated fails.  For the input `./a`, `a` the first path asks for
the node `.` and, below it, for the node with the joined path `a`; the
second path finds that node in the map.  The node `a` is a child of `.`
and, having no separator in its path, is in the top-level list too: the
tree has two nodes with the path `a`, and none for the cumulative path
`./a`. -/
theorem buildFileTree_node_twice :
    (nodesOf (buildFileTree goRuntime [fileEntry "./a", fileEntry "a"])).map TreeNode.Path =
      [".".toList, "a".toList, "a".toList] ∧
    cumulativePaths (fileEntry "./a").Path = [".".toList, "./a".toList] ∧
    ¬ OneNodePerPath [fileEntry "./a", fileEntry "a"]
      (buildFileTree goRuntime [fileEntry "./a", fileEntry "a"]) :=
  ⟨by decide, by decide, fun h => absurd h.1 (by decide)⟩

/-- C23 (amended): when the paths of the input are clean relative paths (no
segment is empty, `.` or `..`), every cumulative path of the input is the
path of exactly one node of the tree that `buildFileTree` returns, a child
has the path of its parent followed by a separator and its name and is a
child of that node only, every node with a separator in its path is a
child of a node of the tree, and the top-level list holds exactly the nodes
without a separator in their path. -/
theorem buildFileTree_one_node_per_path (rt : Runtime) (hrt : rt.SortsCorrectly)
    (files : List FileMetadata) (hclean : CleanPaths files) :
    OneNodePerPath files (buildFileTree rt files) := by
  have hinv := rootInv_build_shape rt files (shapeCoherent_of_clean files hclean)
  have hval := tree_nodes_values rt hrt files hclean
  have hnd := tree_nodup rt hrt files hclean
  have htop := (tree_top rt hrt files hclean).2.2
  have hedge : ∀ parent ∈ nodesOf (buildFileTree rt files), ∀ child ∈ parent.Children,
      child.Path = parent.Path ++ filepath.Separator :: child.Name ∧
      filepath.Separator ∉ child.Name := by
    intro parent hp child hc
    obtain ⟨hs, _, hsep⟩ := IsValue.child_segments hrt hclean (hval parent hp) child hc
    obtain ⟨a, hsa, _⟩ := IsValue.segments hclean (hval parent hp)
    refine ⟨?_, hsep⟩
    have h1 := strings.Join_Split filepath.Separator child.Path
    rw [hs, strings.Join_snoc _ _ _ (by rw [hsa]; simp),
      strings.Join_Split filepath.Separator parent.Path] at h1
    rw [← h1]
    simp
  refine ⟨hnd, ?_, ?_, ?_, ?_⟩
  · intro p
    rw [← keys_eq_cumulativePaths files hclean p, ← hinv.keys p, List.mem_map]
    constructor
    · rintro ⟨n, hn, rfl⟩
      exact (hval n hn).1
    · intro hk
      obtain ⟨t, ht, hp, _⟩ := tree_cover rt hrt files hclean _ p rfl hk
      exact ⟨t, ht, hp⟩
  · intro parent hp child hc
    refine ⟨(hedge parent hp child hc).1, (hedge parent hp child hc).2, ?_⟩
    intro other ho hc2
    have h1 := (hedge parent hp child hc).1
    rw [(hedge other ho child hc2).1] at h1
    exact List.inj_on_of_nodup_map hnd ho hp (List.append_cancel_right h1)
  · intro node hn hsep
    rcases nodesOf_parent _ node hn with h | h
    · rw [(htop node (hval node hn)).mp h] at hsep
      cases hsep
    · exact h
  · intro node hn
    exact htop node (hval node hn)

/-- Witness for C23 (amended): the files `d/b.txt` and `d/a.txt` and the
directory `d/A`. -/
theorem buildFileTree_one_node_per_path_witness :
    (goRuntime.SortsCorrectly ∧
      CleanPaths [fileEntry "d/b.txt", dirEntry "d/A", fileEntry "d/a.txt"]) ∧
    OneNodePerPath [fileEntry "d/b.txt", dirEntry "d/A", fileEntry "d/a.txt"]
      (buildFileTree goRuntime [fileEntry "d/b.txt", dirEntry "d/A", fileEntry "d/a.txt"]) :=
  ⟨⟨goRuntime_sortsCorrectly, by unfold CleanPaths; decide⟩,
    buildFileTree_one_node_per_path goRuntime goRuntime_sortsCorrectly _
      (by unfold CleanPaths; decide)⟩

/-- C24 as stated fails.  For the input `a` (a file), `a/b` the first entry
creates the node `a` as a file; the pass for `a/b` finds that node in the
map and leaves it as it is.  The proper ancestor `a` of `a/b` has a node
that is not a directory. -/
theorem buildFileTree_ancestor_not_dir :
    (nodesOf (buildFileTree goRuntime [fileEntry "a", fileEntry "a/b"])).map
      (fun node => (node.Path, node.IsDir)) = [("a".toList, false), ("a/b".toList, false)] ∧
    ¬ AncestorNodesAreDirs [fileEntry "a", fileEntry "a/b"]
      (buildFileTree goRuntime [fileEntry "a", fileEntry "a/b"]) :=
  ⟨by decide, fun h =>
    absurd (h (fileEntry "a/b") (List.mem_cons_of_mem _ (List.mem_cons_self _ _))
      ["a".toList] ["b".toList] (by decide) (by decide) (by decide)) (by decide)⟩

/-- C24 (amended): when the paths of the input are clean relative paths and
every entry of the input whose path is a proper ancestor of the path of
another entry is a directory, the tree that `buildFileTree` returns has,
for every proper ancestor path of an input path, a node with that path,
and this node is a directory, whether or not the ancestor is an entry of
the input and wherever it stands in the input. -/
theorem buildFileTree_ancestors_are_dirs (rt : Runtime) (hrt : rt.SortsCorrectly)
    (files : List FileMetadata) (hclean : CleanPaths files) (hanc : AncestorsAreDirs files) :
    AncestorNodesAreDirs files (buildFileTree rt files) := by
  have hinv := rootInv_build_shape rt files (shapeCoherent_of_clean files hclean)
  intro f hf first rest hsplit hfirst hrest
  have hk : strings.Join first [filepath.Separator] ∈ keysOf (files.foldl (addFile rt) []) := by
    rw [hinv.keys, keys_eq_cumulativePaths files hclean]
    refine ⟨f, hf, ?_⟩
    unfold cumulativePaths
    rw [List.mem_map]
    refine ⟨first, (mem_inits_tail _ _).mpr ⟨first.dropLast, first.getLast hfirst, rest, ?_, ?_⟩,
      rfl⟩
    · rw [hsplit]
      conv_lhs => rw [← List.dropLast_append_getLast hfirst]
      simp
    · exact (List.dropLast_append_getLast hfirst).symm
  obtain ⟨t, ht, hpath, hval⟩ := tree_cover rt hrt files hclean _ _ rfl hk
  refine ⟨t, ht, hpath, ?_⟩
  obtain ⟨c, t2, hc, hv, _, _, hdir, _⟩ := hinv.value hk
  have ht2 : t2 = t := by
    have := hval.2
    rw [hpath, hv] at this
    simpa using this
  subst ht2
  obtain ⟨e, he, hek, _, _, hcd, _⟩ := hinv.cells _ c hc
  obtain ⟨g, hg, a, part, b, hsg, _, _, hse, _, _, hed⟩ := mem_treeSteps files hclean e he
  rw [hdir, hcd, hed]
  cases b with
  | cons b0 b => simp
  | nil =>
    have hgp : g.Path = strings.Join first [filepath.Separator] := by
      rw [← strings.Join_Split filepath.Separator g.Path, hsg, ← hse, strings.Join_Split, hek]
    have hpre : g.Path ++ [filepath.Separator] <+: f.Path := by
      rw [← strings.Join_Split filepath.Separator f.Path, hsplit,
        strings.Join_append first rest _ hfirst hrest, hgp]
      exact List.prefix_append _ _
    simp [hanc g hg f hf hpre]

/-- Witness for C24 (amended): the file `d/A/b.txt`, then its ancestor `d` as
a directory entry, then the file `d/a.txt`. -/
theorem buildFileTree_ancestors_are_dirs_witness :
    (goRuntime.SortsCorrectly ∧
      CleanPaths [fileEntry "d/A/b.txt", dirEntry "d", fileEntry "d/a.txt"] ∧
      AncestorsAreDirs [fileEntry "d/A/b.txt", dirEntry "d", fileEntry "d/a.txt"]) ∧
    AncestorNodesAreDirs [fileEntry "d/A/b.txt", dirEntry "d", fileEntry "d/a.txt"]
      (buildFileTree goRuntime [fileEntry "d/A/b.txt", dirEntry "d", fileEntry "d/a.txt"]) :=
  ⟨⟨goRuntime_sortsCorrectly, by unfold CleanPaths; decide,
      by unfold AncestorsAreDirs; decide⟩,
    buildFileTree_ancestors_are_dirs goRuntime goRuntime_sortsCorrectly _
      (by unfold CleanPaths; decide) (by unfold AncestorsAreDirs; decide)⟩

/-- C26: `GenerateDiff` returns the empty diff without error for every pair
of contents, and `ApplyDiff` returns the content it was given, whatever the
diff; so for `old = a` and `new = b` the diff of `GenerateDiff` applied to
`old` gives `a`, not `b`.  The round trip gives `new` only when `new` is
`old`. -/
theorem diff_round_trip_returns_old :
    (∀ old new : Str, protocol.GenerateDiff old new = .ok []) ∧
    (∀ content diff : Str, protocol.ApplyDiff content diff = .ok content) ∧
    protocol.GenerateDiff "a".toList "b".toList = .ok [] ∧
    protocol.ApplyDiff "a".toList [] = .ok "a".toList ∧
    protocol.ApplyDiff "a".toList [] ≠ .ok "b".toList := by
  refine ⟨fun _ _ => rfl, fun _ _ => rfl, rfl, rfl, ?_⟩
  intro h
  simp only [protocol.ApplyDiff, Except.ok.injEq] at h
  exact absurd h (by decide)

/-- When the target does not exist, `handleFileDelete` sends nothing to the
notifier. -/
theorem handleFileDelete_silent_when_missing (basePath : Str) (fs : FS)
    (username relativePath : Str) (e : Errno)
    (hstat : fs.Stat (filepath.Join [filepath.Join [basePath, username], relativePath]) =
      .error e) :
    (handleFileDelete basePath fs username relativePath).broadcast = [] := by
  unfold handleFileDelete NewFileMetadata
  simp only [hstat]
  split <;> rfl

/-- C27: for the directory `docs` of user `1`, which holds a file,
`handleFileDelete` fails to remove it (status 500, the filesystem as it was)
and still sends a `delete` change for `docs` to the notifier. -/
theorem handleFileDelete_broadcasts_failed_delete :
    (handleFileDelete "/data".toList storedFS "1".toList "docs".toList).response.status = 500 ∧
    (handleFileDelete "/data".toList storedFS "1".toList "docs".toList).fs = storedFS ∧
    storedFS.Remove "/data/1/docs".toList = .error Errno.ENOTEMPTY ∧
    (handleFileDelete "/data".toList storedFS "1".toList "docs".toList).broadcast.map
      (fun e => (e.type, e.file.Path, e.file.IsDir)) = [("delete", "docs".toList, true)] :=
  ⟨by rfl, by rfl, by rfl, by rfl⟩

/-! ### Path resolution and `filepath.Clean` -/

/-- What `Clean` keeps on its stack: no empty element, no `.`, no element
with a separator, and for a rooted path no `..`. -/
theorem filepath.cleanStep_inv (rooted : Bool) (out : List Str) (elem : Str)
    (hout : ∀ e ∈ out, e ≠ [] ∧ e ≠ ['.'] ∧ filepath.Separator ∉ e)
    (hroot : rooted = true → ['.', '.'] ∉ out) (helem : filepath.Separator ∉ elem) :
    (∀ e ∈ filepath.cleanStep rooted out elem,
      e ≠ [] ∧ e ≠ ['.'] ∧ filepath.Separator ∉ e) ∧
    (rooted = true → ['.', '.'] ∉ filepath.cleanStep rooted out elem) := by
  unfold filepath.cleanStep
  by_cases h1 : elem = [] ∨ elem = ['.']
  · simp only [h1, if_true]
    exact ⟨hout, hroot⟩
  · simp only [h1, if_false]
    by_cases h2 : elem = ['.', '.']
    · simp only [h2, if_true]
      cases out with
      | nil =>
        cases rooted with
        | true => simp
        | false => simp [filepath.Separator]
      | cons top rest =>
        simp only
        by_cases h3 : top = ['.', '.'] ∧ rooted = false
        · obtain ⟨rfl, rfl⟩ := h3
          simp only [and_self, if_true]
          constructor
          · intro e he
            rcases List.mem_cons.mp he with h | h
            · rw [h]; simp [filepath.Separator]
            · exact hout e h
          · intro hr
            cases hr
        · rw [if_neg h3]
          exact ⟨fun e he => hout e (List.mem_cons_of_mem _ he),
            fun hr hmem => hroot hr (List.mem_cons_of_mem _ hmem)⟩
    · simp only [h2, if_false]
      constructor
      · intro e he
        rcases List.mem_cons.mp he with h | h
        · rw [h]
          exact ⟨fun hh => h1 (Or.inl hh), fun hh => h1 (Or.inr hh), helem⟩
        · exact hout e h
      · intro hr hmem
        rcases List.mem_cons.mp hmem with h | h
        · exact h2 h.symm
        · exact hroot hr h

/-- One step of `Clean` and one step of path resolution do the same to the
resolved key. -/
theorem filepath.resolve_cleanStep (rooted : Bool) (out : List Str) (elem : Str)
    (start : List Str)
    (hout : ∀ e ∈ out, e ≠ [] ∧ e ≠ ['.'] ∧ filepath.Separator ∉ e)
    (hroot : rooted = true → ['.', '.'] ∉ out ∧ start = []) :
    (filepath.cleanStep rooted out elem).reverse.foldl FS.resolveStep start =
      FS.resolveStep (out.reverse.foldl FS.resolveStep start) elem := by
  unfold filepath.cleanStep
  by_cases h1 : elem = [] ∨ elem = ['.']
  · simp only [h1, if_true]
    simp [FS.resolveStep, h1]
  · simp only [h1, if_false]
    by_cases h2 : elem = ['.', '.']
    · simp only [h2, if_true]
      cases out with
      | nil =>
        cases rooted with
        | true =>
          have := (hroot rfl).2
          subst this
          simp [FS.resolveStep]
        | false => simp [FS.resolveStep]
      | cons top rest =>
        simp only
        by_cases h3 : top = ['.', '.'] ∧ rooted = false
        · obtain ⟨rfl, rfl⟩ := h3
          simp only [and_self, if_true]
          simp [List.foldl_append, FS.resolveStep]
        · rw [if_neg h3]
          have htop := hout top (List.mem_cons_self _ _)
          have hnd : top ≠ ['.', '.'] := by
            intro hh
            cases rooted with
            | true => exact (hroot rfl).1 (by rw [hh]; exact List.mem_cons_self _ _)
            | false => exact h3 ⟨hh, rfl⟩
          simp only [List.reverse_cons, List.foldl_append, List.foldl_cons, List.foldl_nil]
          have : FS.resolveStep (rest.reverse.foldl FS.resolveStep start) top =
              rest.reverse.foldl FS.resolveStep start ++ [top] := by
            simp [FS.resolveStep, htop.1, htop.2.1, hnd]
          rw [this]
          simp [FS.resolveStep]
    · simp only [h2, if_false]
      simp [List.foldl_append]

/-- The scan of `Clean` and path resolution do the same to the resolved
key. -/
theorem filepath.resolve_foldl_cleanStep (rooted : Bool) (start : List Str) :
    ∀ (segs out : List Str),
      (∀ e ∈ out, e ≠ [] ∧ e ≠ ['.'] ∧ filepath.Separator ∉ e) →
      (rooted = true → ['.', '.'] ∉ out ∧ start = []) →
      (∀ e ∈ segs, filepath.Separator ∉ e) →
      (segs.foldl (filepath.cleanStep rooted) out).reverse.foldl FS.resolveStep start =
        segs.foldl FS.resolveStep (out.reverse.foldl FS.resolveStep start) ∧
      (∀ e ∈ segs.foldl (filepath.cleanStep rooted) out,
        e ≠ [] ∧ e ≠ ['.'] ∧ filepath.Separator ∉ e)
  | [], out, hout, _, _ => ⟨rfl, hout⟩
  | elem :: segs, out, hout, hroot, hsegs => by
    have hinv := filepath.cleanStep_inv rooted out elem hout (fun hr => (hroot hr).1)
      (hsegs elem (List.mem_cons_self _ _))
    have ih := filepath.resolve_foldl_cleanStep rooted start segs
      (filepath.cleanStep rooted out elem) hinv.1
      (fun hr => ⟨hinv.2 hr, (hroot hr).2⟩)
      (fun e he => hsegs e (List.mem_cons_of_mem _ he))
    simp only [List.foldl_cons]
    rw [ih.1, filepath.resolve_cleanStep rooted out elem start hout hroot]
    exact ⟨rfl, ih.2⟩

/-- The segments of a cleaned path: for a rooted path the empty segment
and then the stack of the scan, for another path the stack of the scan, or
`.` when the stack is empty. -/
theorem filepath.Split_Clean (y : Str) (hy : y ≠ []) :
    strings.HasPrefix (filepath.Clean y) [filepath.Separator] =
      strings.HasPrefix y [filepath.Separator] ∧
    filepath.Clean y ≠ [] ∧
    strings.Split (filepath.Clean y) filepath.Separator =
      (if strings.HasPrefix y [filepath.Separator] = true then
        [] :: (if (strings.Split y filepath.Separator).foldl (filepath.cleanStep true) [] = []
          then [[]]
          else ((strings.Split y filepath.Separator).foldl (filepath.cleanStep true) []).reverse)
      else
        (if (strings.Split y filepath.Separator).foldl (filepath.cleanStep false) [] = []
          then [['.']]
          else
            ((strings.Split y filepath.Separator).foldl (filepath.cleanStep false) []).reverse)) := by
  have hsegs : ∀ e ∈ strings.Split y filepath.Separator, filepath.Separator ∉ e :=
    fun e he => strings.not_mem_of_mem_Split _ y e he
  have hinv : ∀ rooted : Bool,
      ∀ e ∈ (strings.Split y filepath.Separator).foldl (filepath.cleanStep rooted) [],
        e ≠ [] ∧ e ≠ ['.'] ∧ filepath.Separator ∉ e := fun rooted =>
    (filepath.resolve_foldl_cleanStep rooted [] (strings.Split y filepath.Separator) []
      (by simp) (fun _ => ⟨by simp, rfl⟩) hsegs).2
  have hjoin : ∀ out : List Str, out ≠ [] →
      (∀ e ∈ out, e ≠ [] ∧ e ≠ ['.'] ∧ filepath.Separator ∉ e) →
      strings.Join out.reverse [filepath.Separator] ≠ [] ∧
      strings.HasPrefix (strings.Join out.reverse [filepath.Separator])
        [filepath.Separator] = false ∧
      strings.Split (strings.Join out.reverse [filepath.Separator]) filepath.Separator =
        out.reverse := by
    intro out hne hout
    have hrne : out.reverse ≠ [] := by simpa using hne
    have hr : ∀ e ∈ out.reverse, e ≠ [] ∧ e ≠ ['.'] ∧ filepath.Separator ∉ e :=
      fun e he => hout e (List.mem_reverse.mp he)
    refine ⟨strings.Join_ne_nil _ _ hrne (fun e he => (hr e he).1), ?_,
      strings.Split_Join _ _ hrne (fun e he => (hr e he).2.2)⟩
    cases hrev : out.reverse with
    | nil => exact absurd hrev hrne
    | cons a rest =>
      have ha := hr a (by rw [hrev]; exact List.mem_cons_self _ _)
      cases a with
      | nil => exact absurd rfl ha.1
      | cons c a =>
        have hc : c ≠ filepath.Separator := by
          intro hh
          apply ha.2.2
          rw [hh]
          exact List.mem_cons_self _ _
        have hc2 : ¬ filepath.Separator = c := fun hh => hc hh.symm
        cases rest with
        | nil => simp [strings.Join, strings.HasPrefix, List.isPrefixOf, hc2]
        | cons b rest => simp [strings.Join, strings.HasPrefix, List.isPrefixOf, hc2]
  unfold filepath.Clean
  simp only [hy, if_false]
  by_cases hroot : strings.HasPrefix y [filepath.Separator] = true
  · simp only [hroot, if_true]
    refine ⟨?_, by simp, ?_⟩
    · simp [strings.HasPrefix, List.isPrefixOf]
    · have hsplit : ∀ body : Str,
          strings.Split (filepath.Separator :: body) filepath.Separator =
            [] :: strings.Split body filepath.Separator := by
        intro body
        simp [strings.Split]
      rw [hsplit]
      by_cases hout : (strings.Split y filepath.Separator).foldl (filepath.cleanStep true) [] = []
      · simp only [hout, if_true, List.reverse_nil, strings.Join]
        rfl
      · simp only [hout, if_false]
        rw [(hjoin _ hout (hinv true)).2.2]
  · have hroot2 : strings.HasPrefix y [filepath.Separator] = false := by simpa using hroot
    simp only [hroot2, Bool.false_eq_true, if_false]
    by_cases hout : (strings.Split y filepath.Separator).foldl (filepath.cleanStep false) [] = []
    · simp only [hout, List.reverse_nil, strings.Join, if_true]
      refine ⟨by decide, by simp, by decide⟩
    · obtain ⟨h1, h2, h3⟩ := hjoin _ hout (hinv false)
      simp only [h1, hout, if_false]
      exact ⟨h2, h1, h3⟩

/-- Resolving a cleaned path gives the key of the path itself. -/
theorem FS.resolve_Clean (fs : FS) (y : Str) :
    fs.resolve (filepath.Clean y) = .ok (fs.resolveKey y) := by
  by_cases hy : y = []
  · subst hy
    simp [FS.resolve, FS.resolveKey, filepath.Clean, strings.Split, strings.HasPrefix,
      List.isPrefixOf, FS.resolveStep, filepath.Separator]
  · obtain ⟨hpre, hne, hsplit⟩ := filepath.Split_Clean y hy
    have hsegs : ∀ e ∈ strings.Split y filepath.Separator, filepath.Separator ∉ e :=
      fun e he => strings.not_mem_of_mem_Split _ y e he
    unfold FS.resolve FS.resolveKey
    simp only [hne, if_false, hpre, hsplit]
    by_cases hroot : strings.HasPrefix y [filepath.Separator] = true
    · simp only [hroot, if_true]
      have hsim := (filepath.resolve_foldl_cleanStep true [] (strings.Split y filepath.Separator)
        [] (by simp) (fun _ => ⟨by simp, rfl⟩) hsegs).1
      simp only [List.reverse_nil, List.foldl_nil] at hsim
      rw [← hsim]
      by_cases hout : (strings.Split y filepath.Separator).foldl (filepath.cleanStep true) [] = []
      · simp [hout, FS.resolveStep]
      · simp only [hout, if_false, List.foldl_cons]
        simp [FS.resolveStep]
    · have hroot2 : strings.HasPrefix y [filepath.Separator] = false := by simpa using hroot
      simp only [hroot2, Bool.false_eq_true, if_false]
      have hsim := (filepath.resolve_foldl_cleanStep false fs.cwd
        (strings.Split y filepath.Separator) [] (by simp) (fun h => by cases h) hsegs).1
      simp only [List.reverse_nil, List.foldl_nil] at hsim
      rw [← hsim]
      by_cases hout : (strings.Split y filepath.Separator).foldl (filepath.cleanStep false) [] = []
      · simp [hout, FS.resolveStep]
      · simp only [hout, if_false]

/-- Resolving the segments of the cleaned form of a relative path from any
directory gives what resolving the segments of the path gives. -/
theorem filepath.resolve_Clean_relative (y : Str) (start : List Str)
    (hrel : strings.HasPrefix y [filepath.Separator] = false) :
    (strings.Split (filepath.Clean y) filepath.Separator).foldl FS.resolveStep start =
      (strings.Split y filepath.Separator).foldl FS.resolveStep start := by
  by_cases hy : y = []
  · subst hy
    simp [filepath.Clean, strings.Split, FS.resolveStep, filepath.Separator]
  · obtain ⟨_, _, hsplit⟩ := filepath.Split_Clean y hy
    have hsegs : ∀ e ∈ strings.Split y filepath.Separator, filepath.Separator ∉ e :=
      fun e he => strings.not_mem_of_mem_Split _ y e he
    rw [hsplit]
    simp only [hrel, Bool.false_eq_true, if_false]
    have hsim := (filepath.resolve_foldl_cleanStep false start
      (strings.Split y filepath.Separator) [] (by simp) (fun h => by cases h) hsegs).1
    simp only [List.reverse_nil, List.foldl_nil] at hsim
    rw [← hsim]
    by_cases hout : (strings.Split y filepath.Separator).foldl (filepath.cleanStep false) [] = []
    · simp [hout, FS.resolveStep]
    · simp only [hout, if_false]

/-! ### The decimal form of a user id -/

/-- The number a string of decimal digits stands for. -/
theorem decimalDigits_spec :
    ∀ (fuel n : Nat), n < fuel →
      (decimalDigits fuel n).foldl (fun acc c => acc * 10 + (c.toNat - 48)) 0 = n ∧
      decimalDigits fuel n ≠ [] ∧
      ∀ c ∈ decimalDigits fuel n, 48 ≤ c.toNat ∧ c.toNat ≤ 57
  | 0, n, h => by omega
  | fuel + 1, n, h => by
    unfold decimalDigits
    have hdigit : ∀ d : Nat, d < 10 →
        (Char.ofNat (48 + d)).toNat - 48 = d ∧ 48 ≤ (Char.ofNat (48 + d)).toNat ∧
          (Char.ofNat (48 + d)).toNat ≤ 57 := by
      intro d hd
      interval_cases d <;> decide
    by_cases hn : n < 10
    · simp only [hn, if_true, List.foldl_cons, List.foldl_nil, Nat.zero_mul, Nat.zero_add]
      refine ⟨(hdigit n hn).1, by simp, ?_⟩
      intro c hc
      simp only [List.mem_singleton] at hc
      rw [hc]
      exact (hdigit n hn).2
    · simp only [hn, if_false]
      have hlt : n / 10 < fuel := by omega
      obtain ⟨h1, h2, h3⟩ := decimalDigits_spec fuel (n / 10) hlt
      have hmod : n % 10 < 10 := Nat.mod_lt _ (by decide)
      refine ⟨?_, by simp, ?_⟩
      · rw [List.foldl_append, h1]
        simp only [List.foldl_cons, List.foldl_nil]
        rw [(hdigit (n % 10) hmod).1]
        omega
      · intro c hc
        rcases List.mem_append.mp hc with hc | hc
        · exact h3 c hc
        · simp only [List.mem_singleton] at hc
          rw [hc]
          exact (hdigit (n % 10) hmod).2

/-- The decimal form of an integer is a valid name. -/
theorem fmtInt_validName (n : Int) : filepath.validName (fmtInt n) = true := by
  obtain ⟨_, hne, hdig⟩ := decimalDigits_spec (n.natAbs + 1) n.natAbs (by omega)
  have hchars : ∀ c ∈ fmtInt n, c ≠ '.' ∧ c ≠ filepath.Separator := by
    intro c hc
    unfold fmtInt at hc
    have hd : ∀ c ∈ decimalDigits (n.natAbs + 1) n.natAbs, c ≠ '.' ∧ c ≠ filepath.Separator := by
      intro c hc
      have := hdig c hc
      constructor
      · intro hh; rw [hh] at this; exact absurd this.1 (by decide)
      · intro hh; rw [hh] at this; exact absurd this.1 (by decide)
    split at hc
    · rcases List.mem_cons.mp hc with h | h
      · rw [h]; decide
      · exact hd c h
    · exact hd c hc
  have hnonempty : fmtInt n ≠ [] := by
    unfold fmtInt
    split
    · simp
    · exact hne
  unfold filepath.validName
  have h1 : fmtInt n ≠ ['.'] := by
    intro hh
    exact (hchars '.' (by rw [hh]; simp)).1 rfl
  have h2 : fmtInt n ≠ ['.', '.'] := by
    intro hh
    exact (hchars '.' (by rw [hh]; simp)).1 rfl
  have h3 : filepath.Separator ∉ fmtInt n := fun hh => (hchars _ hh).2 rfl
  simp [hnonempty, h1, h2, h3]

/-- Two integers with the same decimal form are equal. -/
theorem fmtInt_injective (a b : Int) (h : fmtInt a = fmtInt b) : a = b := by
  obtain ⟨ha1, ha2, ha3⟩ := decimalDigits_spec (a.natAbs + 1) a.natAbs (by omega)
  obtain ⟨hb1, hb2, hb3⟩ := decimalDigits_spec (b.natAbs + 1) b.natAbs (by omega)
  have hhead : ∀ (n : Nat) (fuel : Nat) (rest : Str), (∀ c ∈ decimalDigits fuel n,
      48 ≤ c.toNat ∧ c.toNat ≤ 57) → decimalDigits fuel n ≠ '-' :: rest := by
    intro n fuel rest hd hh
    have := hd '-' (by rw [hh]; exact List.mem_cons_self _ _)
    exact absurd this.1 (by decide)
  unfold fmtInt at h
  by_cases hsa : a < 0
  · by_cases hsb : b < 0
    · simp only [hsa, hsb, if_true, List.cons.injEq, true_and] at h
      have : a.natAbs = b.natAbs := by rw [← ha1, ← hb1, h]
      omega
    · simp only [hsa, hsb, if_true, if_false] at h
      exact absurd h.symm (hhead _ _ _ hb3)
  · by_cases hsb : b < 0
    · simp only [hsa, hsb, if_true, if_false] at h
      exact absurd h (hhead _ _ _ ha3)
    · simp only [hsa, hsb, if_false] at h
      have : a.natAbs = b.natAbs := by rw [← ha1, ← hb1, h]
      omega

/-! ### The key of a full path of the store -/

theorem FS.resolveStep_valid (key : List Str) (name : Str)
    (h : filepath.validName name = true) : FS.resolveStep key name = key ++ [name] := by
  unfold filepath.validName at h
  simp only [Bool.not_eq_true', Bool.or_eq_false_iff, decide_eq_false_iff_not] at h
  simp [FS.resolveStep, h.1.1.1, h.1.1.2, h.1.2]

theorem filepath.validName_iff (name : Str) :
    filepath.validName name = true ↔
      name ≠ [] ∧ name ≠ ['.'] ∧ name ≠ ['.', '.'] ∧ filepath.Separator ∉ name := by
  unfold filepath.validName
  simp only [Bool.not_eq_true', Bool.or_eq_false_iff, decide_eq_false_iff_not]
  tauto

/-- Resolving segments among which none is `..` appends the segments that
`Clean` keeps. -/
theorem FS.foldl_resolveStep_parts :
    ∀ (segs key : List Str), ['.', '.'] ∉ segs →
      segs.foldl FS.resolveStep key = key ++ segs.filter filepath.keepElem
  | [], key, _ => by simp
  | seg :: segs, key, h => by
    have hseg : seg ≠ ['.', '.'] := fun hh => h (by rw [hh]; exact List.mem_cons_self _ _)
    have ih := fun k => FS.foldl_resolveStep_parts segs k
      (fun hh => h (List.mem_cons_of_mem _ hh))
    simp only [List.foldl_cons, List.filter_cons]
    by_cases hk : seg = [] ∨ seg = ['.']
    · have : filepath.keepElem seg = false := by
        unfold filepath.keepElem
        rcases hk with hk | hk <;> simp [hk]
      rw [ih]
      simp [FS.resolveStep, hk, this]
    · have hkeep : filepath.keepElem seg = true := by
        unfold filepath.keepElem
        simp only [not_or] at hk
        simp [hk.1, hk.2]
      rw [ih]
      simp [FS.resolveStep, hk, hseg, hkeep]

/-- The parts of a path without `..` segment are valid names. -/
theorem filepath.parts_valid (p : Str) (hdd : ['.', '.'] ∉ strings.Split p filepath.Separator) :
    ∀ part ∈ filepath.parts p, filepath.validName part = true := by
  intro part hpart
  obtain ⟨hmem, hkeep⟩ := List.mem_filter.mp hpart
  rw [filepath.validName_iff]
  unfold filepath.keepElem at hkeep
  simp only [Bool.not_eq_true', Bool.or_eq_false_iff, decide_eq_false_iff_not] at hkeep
  exact ⟨hkeep.1, hkeep.2, fun hh => hdd (hh ▸ hmem), strings.not_mem_of_mem_Split _ p part hmem⟩

/-- The string that `getFullPath` cleans. -/
theorem getFullPath_eq (s : Storage) (userID : Int) (p : Str) (hb : s.basePath ≠ []) :
    s.getFullPath userID p =
      filepath.Clean (s.basePath ++ filepath.Separator ::
        (fmtInt userID ++ filepath.Separator :: p)) := by
  unfold Storage.getFullPath filepath.Join
  simp [hb, strings.Join]

/-- The key of a full path: the key of the directory of the user, and from
there the segments of the path. -/
theorem resolve_getFullPath (s : Storage) (fs : FS) (userID : Int) (p : Str)
    (hb : s.basePath ≠ []) :
    fs.resolve (s.getFullPath userID p) =
      .ok ((strings.Split p filepath.Separator).foldl FS.resolveStep (userKey s fs userID)) := by
  rw [getFullPath_eq s userID p hb, FS.resolve_Clean]
  unfold FS.resolveKey userKey
  have hpre : strings.HasPrefix (s.basePath ++ filepath.Separator ::
      (fmtInt userID ++ filepath.Separator :: p)) [filepath.Separator] =
      strings.HasPrefix s.basePath [filepath.Separator] := by
    cases hbase : s.basePath with
    | nil => exact absurd hbase hb
    | cons c rest => simp [strings.HasPrefix, List.isPrefixOf]
  have hid := fmtInt_validName userID
  rw [hpre, strings.Split_append_sep, strings.Split_append_sep, List.foldl_append,
    List.foldl_append, strings.Split_of_not_mem _ _ ((filepath.validName_iff _).mp hid).2.2.2]
  simp only [List.foldl_cons, List.foldl_nil]
  rw [FS.resolveStep_valid _ _ hid]
  rfl

/-- The key of a full path for a path without `..` segment. -/
theorem resolve_getFullPath_parts (s : Storage) (fs : FS) (userID : Int) (p : Str)
    (hb : s.basePath ≠ []) (hdd : ['.', '.'] ∉ strings.Split p filepath.Separator) :
    fs.resolve (s.getFullPath userID p) = .ok (userKey s fs userID ++ filepath.parts p) := by
  rw [resolve_getFullPath s fs userID p hb, FS.foldl_resolveStep_parts _ _ hdd]
  rfl

/-- The key of the full path of an entry `name` of the directory `q`. -/
theorem resolve_getFullPath_child (s : Storage) (fs : FS) (userID : Int) (q name : Str)
    (hb : s.basePath ≠ []) (hrel : strings.HasPrefix q [filepath.Separator] = false)
    (hdd : ['.', '.'] ∉ strings.Split q filepath.Separator)
    (hname : filepath.validName name = true) :
    fs.resolve (s.getFullPath userID (filepath.Join [q, name])) =
      .ok (userKey s fs userID ++ filepath.parts q ++ [name]) := by
  have hn := (filepath.validName_iff name).mp hname
  rw [resolve_getFullPath s fs userID _ hb]
  have hsplit : strings.Split name filepath.Separator = [name] :=
    strings.Split_of_not_mem _ _ hn.2.2.2
  by_cases hq : q = []
  · subst hq
    have hj : filepath.Join [[], name] = filepath.Clean name := by
      simp [filepath.Join, hn.1, strings.Join]
    have hrn : strings.HasPrefix name [filepath.Separator] = false := by
      cases hname2 : name with
      | nil => exact absurd hname2 hn.1
      | cons c rest =>
        have : c ≠ filepath.Separator := by
          intro hh
          apply hn.2.2.2
          rw [hname2, hh]
          exact List.mem_cons_self _ _
        have h2 : ¬ filepath.Separator = c := fun hh => this hh.symm
        simp [strings.HasPrefix, List.isPrefixOf, h2]
    rw [hj, filepath.resolve_Clean_relative name _ hrn, hsplit]
    simp only [List.foldl_cons, List.foldl_nil]
    rw [FS.resolveStep_valid _ _ hname]
    simp [filepath.parts, strings.Split, filepath.keepElem]
  · have hj : filepath.Join [q, name] = filepath.Clean (q ++ filepath.Separator :: name) := by
      simp [filepath.Join, hq, strings.Join]
    have hrq : strings.HasPrefix (q ++ filepath.Separator :: name) [filepath.Separator] =
        false := by
      cases hq2 : q with
      | nil => exact absurd hq2 hq
      | cons c rest =>
        rw [hq2] at hrel
        simpa [strings.HasPrefix, List.isPrefixOf] using hrel
    rw [hj, filepath.resolve_Clean_relative _ _ hrq, strings.Split_append_sep, List.foldl_append,
      hsplit, FS.foldl_resolveStep_parts _ _ hdd]
    simp only [List.foldl_cons, List.foldl_nil]
    rw [FS.resolveStep_valid _ _ hname]
    rfl

/-! ### The parent of a full path -/

/-- The key of the parent directory (`filepath.Dir`) of a path whose last
segment is a valid name: the key of the path without its last component. -/
theorem FS.resolve_Dir (fs : FS) (z : Str) (init : List Str) (last : Str)
    (h : strings.Split z filepath.Separator = init ++ [last])
    (hv : filepath.validName last = true) :
    fs.resolve (filepath.Dir z) = .ok (fs.resolveKey z).dropLast := by
  obtain ⟨hsep, hz⟩ := strings.path_of_Split z init last h
  have hn := (filepath.validName_iff last).mp hv
  have hrev : ∀ x ∈ last.reverse, (x != filepath.Separator) = true := by
    intro x hx
    simp only [bne_iff_ne, ne_eq]
    intro hxs
    rw [hxs] at hx
    exact hsep (List.mem_reverse.mp hx)
  have hkey : fs.resolveKey z =
      init.foldl FS.resolveStep
        (if strings.HasPrefix z [filepath.Separator] then [] else fs.cwd) ++ [last] := by
    unfold FS.resolveKey
    rw [h, List.foldl_append]
    simp only [List.foldl_cons, List.foldl_nil]
    exact FS.resolveStep_valid _ _ hv
  unfold filepath.Dir
  rw [FS.resolve_Clean, hkey, List.dropLast_concat]
  by_cases hi : init = []
  · subst hi
    simp only [if_true, List.nil_append] at hz
    have hdrop : (z.reverse.dropWhile (fun c => c != filepath.Separator)).reverse = [] := by
      rw [hz, dropWhile_all _ _ hrev]
      rfl
    have hzrel : strings.HasPrefix z [filepath.Separator] = false := by
      rw [hz]
      cases hl : last with
      | nil => exact absurd hl hn.1
      | cons c rest =>
        have : ¬ filepath.Separator = c := by
          intro hh
          apply hsep
          rw [hl, hh]
          exact List.mem_cons_self _ _
        simp [strings.HasPrefix, List.isPrefixOf, this]
    rw [hdrop, hzrel]
    simp [FS.resolveKey, strings.Split, strings.HasPrefix, List.isPrefixOf, FS.resolveStep]
  · simp only [hi, if_false] at hz
    have hdrop : (z.reverse.dropWhile (fun c => c != filepath.Separator)).reverse =
        strings.Join init [filepath.Separator] ++ [filepath.Separator] := by
      have hzr : z.reverse = last.reverse ++ filepath.Separator ::
          (strings.Join init [filepath.Separator]).reverse := by
        rw [hz]
        simp
      rw [hzr, dropWhile_append_stop _ _ _ _ hrev (by simp)]
      simp
    have hinit : ∀ part ∈ init, filepath.Separator ∉ part := fun part hp =>
      strings.not_mem_of_mem_Split _ z part (by rw [h]; exact List.mem_append_left _ hp)
    have hpre : strings.HasPrefix (strings.Join init [filepath.Separator] ++
        [filepath.Separator]) [filepath.Separator] =
        strings.HasPrefix z [filepath.Separator] := by
      rw [hz]
      cases hj : strings.Join init [filepath.Separator] ++ [filepath.Separator] with
      | nil => simp at hj
      | cons c rest => simp [strings.HasPrefix, List.isPrefixOf]
    rw [hdrop]
    unfold FS.resolveKey
    rw [hpre]
    have hsplit : strings.Split (strings.Join init [filepath.Separator] ++ [filepath.Separator])
        filepath.Separator = init ++ [[]] := by
      rw [strings.Split_append_sep, strings.Split_Join _ _ hi hinit]
      rfl
    rw [hsplit, List.foldl_append]
    simp [FS.resolveStep]

/-- The last segment of a full path for a path without `..` segment is a
valid name. -/
theorem Split_getFullPath (s : Storage) (userID : Int) (p : Str) (hb : s.basePath ≠ [])
    (hdd : ['.', '.'] ∉ strings.Split p filepath.Separator) :
    ∃ init last, strings.Split (s.getFullPath userID p) filepath.Separator = init ++ [last] ∧
      filepath.validName last = true := by
  have hid := fmtInt_validName userID
  have hidn := (filepath.validName_iff _).mp hid
  rw [getFullPath_eq s userID p hb]
  have hne : s.basePath ++ filepath.Separator ::
      (fmtInt userID ++ filepath.Separator :: p) ≠ [] := by simp
  obtain ⟨_, _, hsplit⟩ := filepath.Split_Clean _ hne
  have hout : ∀ rooted : Bool,
      (strings.Split (s.basePath ++ filepath.Separator ::
        (fmtInt userID ++ filepath.Separator :: p)) filepath.Separator).foldl
        (filepath.cleanStep rooted) [] =
      (filepath.parts p).reverse ++ fmtInt userID ::
        (strings.Split s.basePath filepath.Separator).foldl (filepath.cleanStep rooted) [] := by
    intro rooted
    rw [strings.Split_append_sep, strings.Split_append_sep, List.foldl_append,
      strings.Split_of_not_mem _ _ hidn.2.2.2]
    have hdd2 : ['.', '.'] ∉ [fmtInt userID] ++ strings.Split p filepath.Separator := by
      intro hh
      rcases List.mem_append.mp hh with h1 | h1
      · simp only [List.mem_singleton] at h1
        exact hidn.2.2.1 h1.symm
      · exact hdd h1
    rw [filepath.foldl_cleanStep_no_dotdot rooted _ hdd2]
    have hkeep : filepath.keepElem (fmtInt userID) = true := by
      unfold filepath.keepElem
      simp [hidn.1, hidn.2.1]
    simp [List.filter_cons, hkeep, filepath.parts]
  have hlast : ∀ rest : List Str,
      ∃ init last, (rest ++ fmtInt userID :: filepath.parts p) = init ++ [last] ∧
        filepath.validName last = true := by
    intro rest
    by_cases hp : filepath.parts p = []
    · exact ⟨rest, fmtInt userID, by rw [hp], hid⟩
    · refine ⟨rest ++ fmtInt userID :: (filepath.parts p).dropLast,
        (filepath.parts p).getLast hp, ?_,
        filepath.parts_valid p hdd _ (List.getLast_mem hp)⟩
      rw [List.append_assoc, List.cons_append, List.dropLast_append_getLast hp]
  rw [hsplit]
  by_cases hroot : strings.HasPrefix (s.basePath ++ filepath.Separator ::
      (fmtInt userID ++ filepath.Separator :: p)) [filepath.Separator] = true
  · simp only [hroot, if_true, hout true]
    simp only [List.append_eq_nil, List.reverse_eq_nil_iff, and_false, if_false,
      List.reverse_append, List.reverse_cons, List.reverse_reverse, reduceCtorEq]
    obtain ⟨init, last, h1, h2⟩ := hlast
      (((strings.Split s.basePath filepath.Separator).foldl (filepath.cleanStep true)
        []).reverse)
    refine ⟨[] :: init, last, ?_, h2⟩
    rw [List.cons_append, ← h1]
    simp
  · simp only [hroot, Bool.false_eq_true, if_false, hout false]
    simp only [List.append_eq_nil, List.reverse_eq_nil_iff, and_false, if_false,
      List.reverse_append, List.reverse_cons, List.reverse_reverse, reduceCtorEq]
    obtain ⟨init, last, h1, h2⟩ := hlast
      (((strings.Split s.basePath filepath.Separator).foldl (filepath.cleanStep false)
        []).reverse)
    refine ⟨init, last, ?_, h2⟩
    rw [← h1]
    simp

/-- The key of the parent directory of a full path. -/
theorem resolve_Dir_getFullPath (s : Storage) (fs : FS) (userID : Int) (p : Str)
    (hb : s.basePath ≠ []) (hdd : ['.', '.'] ∉ strings.Split p filepath.Separator) :
    fs.resolve (filepath.Dir (s.getFullPath userID p)) =
      .ok (userKey s fs userID ++ filepath.parts p).dropLast := by
  obtain ⟨init, last, hsplit, hv⟩ := Split_getFullPath s userID p hb hdd
  rw [FS.resolve_Dir fs _ init last hsplit hv]
  have hres := resolve_getFullPath_parts s fs userID p hb hdd
  have hne : s.getFullPath userID p ≠ [] := by
    intro hh
    rw [hh] at hsplit
    have hn := (filepath.validName_iff last).mp hv
    cases init with
    | nil =>
      simp only [strings.Split, List.nil_append, List.cons.injEq, and_true] at hsplit
      exact hn.1 hsplit.symm
    | cons a init =>
      simp only [strings.Split, List.cons_append, List.cons.injEq] at hsplit
      have := hsplit.2
      simp at this
  have hkey : fs.resolve (s.getFullPath userID p) = .ok (fs.resolveKey (s.getFullPath userID p)) := by
    unfold FS.resolve FS.resolveKey
    simp only [hne, if_false]
  rw [hkey] at hres
  simp only [Except.ok.injEq] at hres
  rw [hres]

/-! ### Changes below one directory -/

theorem FS.AgreeOutside.refl (U : List Str) (fs : FS) : FS.AgreeOutside U fs fs :=
  ⟨rfl, rfl, fun _ _ => rfl, fun _ _ => Iff.rfl⟩

theorem FS.AgreeOutside.trans {U : List Str} {fs fs1 fs2 : FS}
    (h1 : FS.AgreeOutside U fs fs1) (h2 : FS.AgreeOutside U fs1 fs2) :
    FS.AgreeOutside U fs fs2 :=
  ⟨h2.1.trans h1.1, h2.2.1.trans h1.2.1,
    fun key hk => (h2.2.2.1 key hk).trans (h1.2.2.1 key hk),
    fun key hk => (h2.2.2.2 key hk).trans (h1.2.2.2 key hk)⟩

theorem FS.agree_set (fs : FS) (U key : List Str) (node : Node) (h : U <+: key) :
    FS.AgreeOutside U fs (fs.set key node) :=
  ⟨rfl, rfl, fun other hk => FS.get_set_ne fs key other node (fun hh => hk (hh ▸ h)),
    fun _ _ => Iff.rfl⟩

theorem FS.agree_erase (fs : FS) (U key : List Str) (h : U <+: key) :
    FS.AgreeOutside U fs (fs.erase key) :=
  ⟨rfl, rfl, fun other hk => FS.get_erase_ne fs key other (fun hh => hk (hh ▸ h)),
    fun other hk => FS.mem_noRead_erase fs key other (fun hh => hk (hh ▸ h))⟩

/-- A move below `U` leaves the read permission of every path outside `U`. -/
theorem FS.mem_movedNoRead (fs : FS) (U oldKey newKey key : List Str) (hold : U <+: oldKey)
    (hnew : U <+: newKey) (hk : ¬ U <+: key) :
    key ∈ fs.movedNoRead oldKey newKey ↔ key ∈ fs.noRead := by
  unfold FS.movedNoRead
  rw [List.mem_map]
  constructor
  · rintro ⟨k, hmem, hmap⟩
    rw [List.mem_filter] at hmem
    by_cases hpre : oldKey.isPrefixOf k = true
    · exfalso
      rw [if_pos hpre] at hmap
      apply hk
      rw [← hmap]
      exact hnew.trans (List.prefix_append _ _)
    · rw [if_neg hpre] at hmap
      rw [← hmap]
      exact hmem.1
  · intro hmem
    refine ⟨key, ?_, ?_⟩
    · rw [List.mem_filter]
      refine ⟨hmem, ?_⟩
      simp only [decide_eq_true_eq]
      intro hh
      exact hk (hh ▸ hnew)
    · have hpre : ¬ oldKey.isPrefixOf key = true := by
        intro hh
        exact hk (hold.trans (List.isPrefixOf_iff_prefix.mp hh))
      rw [if_neg hpre]

theorem FS.agree_moveFile (fs : FS) (U oldKey newKey : List Str) (content : List Byte)
    (hold : U <+: oldKey) (hnew : U <+: newKey) :
    FS.AgreeOutside U fs (fs.moveFile oldKey newKey content) := by
  have h := (FS.agree_erase fs U oldKey hold).trans
    (FS.agree_set _ U newKey (Node.file content) hnew)
  exact ⟨h.1, h.2.1, h.2.2.1, fun key hk => FS.mem_movedNoRead fs U oldKey newKey key hold hnew hk⟩

theorem FS.agree_moveSubtree (fs : FS) (U oldKey newKey : List Str) (hold : U <+: oldKey)
    (hnew : U <+: newKey) : FS.AgreeOutside U fs (fs.moveSubtree oldKey newKey) := by
  refine ⟨rfl, rfl, ?_, fun key hk => FS.mem_movedNoRead fs U oldKey newKey key hold hnew hk⟩
  intro key hk
  rw [← FS.get_erase_ne fs newKey key (fun hh => hk (hh ▸ hnew))]
  unfold FS.moveSubtree FS.get
  by_cases hkey : key = []
  · simp [hkey]
  · simp only [hkey, if_false]
    congr 1
    induction (fs.erase newKey).nodes with
    | nil => rfl
    | cons e rest ih =>
      rw [List.map_cons, List.find?_cons, List.find?_cons, ih]
      by_cases hpre : oldKey.isPrefixOf e.1 = true
      · have h1 : ¬ e.1 = key := by
          intro hh
          apply hk
          rw [← hh]
          exact hold.trans (List.isPrefixOf_iff_prefix.mp hpre)
        have h2 : ¬ newKey ++ e.1.drop oldKey.length = key := by
          intro hh
          apply hk
          rw [← hh]
          exact hnew.trans (List.prefix_append _ _)
        simp only [hpre, if_true, h1, h2, decide_False]
      · have hpre2 : oldKey.isPrefixOf e.1 = false := Bool.eq_false_iff.mpr hpre
        simp only [hpre2, Bool.false_eq_true, if_false]

/-- A proper prefix of the path of a node is the path of a directory. -/
theorem FS.lookup_prefix_dir (fs : FS) (k rest : List Str) (node : Node) (hrest : rest ≠ [])
    (h : fs.lookup (k ++ rest) = .ok node) : fs.lookup k = .ok Node.dir := by
  unfold FS.lookup at h ⊢
  rw [FS.walkFrom_append] at h
  cases hk : fs.walkFrom [] k with
  | error e => rw [hk] at h; simp at h
  | ok n =>
    cases n with
    | dir => rfl
    | file content => rw [hk] at h; simp [hrest] at h

/-- `MkdirAll` changes nothing outside `U` when every directory on the way
that is not below `U` exists. -/
theorem FS.mkdirAllKey_agree (U : List Str) :
    ∀ (rkey : List Str) (fs fs1 : FS),
      (∀ k, k <+: rkey.reverse → ¬ U <+: k → fs.lookup k = .ok Node.dir) →
      fs.mkdirAllKey rkey = .ok fs1 → FS.AgreeOutside U fs fs1
  | [], fs, fs1, _, h => by
    simp only [FS.mkdirAllKey, Except.ok.injEq] at h
    rw [← h]
    exact FS.AgreeOutside.refl U fs
  | comp :: rparent, fs, fs1, hdirs, h => by
    unfold FS.mkdirAllKey at h
    cases hl : fs.lookup (comp :: rparent).reverse with
    | ok node =>
      rw [hl] at h
      cases node with
      | dir =>
        simp only [Except.ok.injEq] at h
        rw [← h]
        exact FS.AgreeOutside.refl U fs
      | file content => simp at h
    | error e =>
      rw [hl] at h
      simp only at h
      cases hp : fs.mkdirAllKey rparent with
      | error e2 => rw [hp] at h; simp at h
      | ok fs0 =>
        rw [hp] at h
        simp only at h
        have hpre : rparent.reverse <+: (comp :: rparent).reverse := by
          rw [List.reverse_cons]
          exact List.prefix_append _ _
        have h0 := FS.mkdirAllKey_agree U rparent fs fs0
          (fun k hk hu => hdirs k (hk.trans hpre) hu) hp
        have hunder : U <+: (comp :: rparent).reverse := by
          by_contra hu
          have := hdirs _ (List.prefix_refl _) hu
          rw [this] at hl
          cases hl
        have hset : fs1 = fs0.set (comp :: rparent).reverse Node.dir := by
          unfold FS.mkdirKey at h
          split at h
          · simp at h
          · simp at h
          · split at h
            · simp at h
            · simp only [Except.ok.injEq] at h
              exact h.symm
        rw [hset]
        exact h0.trans (FS.agree_set fs0 U _ Node.dir hunder)

theorem FS.MkdirAll_agree (U : List Str) (fs fs1 : FS) (path : Str) (key : List Str)
    (hres : fs.resolve path = .ok key)
    (hdirs : ∀ k, k <+: key → ¬ U <+: k → fs.lookup k = .ok Node.dir)
    (h : fs.MkdirAll path = .ok fs1) : FS.AgreeOutside U fs fs1 := by
  unfold FS.MkdirAll at h
  rw [hres] at h
  exact FS.mkdirAllKey_agree U key.reverse fs fs1 (by rw [List.reverse_reverse]; exact hdirs) h

theorem FS.WriteFile_agree (U : List Str) (fs fs1 : FS) (name : Str) (data : List Byte)
    (key : List Str) (hres : fs.resolve name = .ok key) (hU : U <+: key)
    (h : fs.WriteFile name data = .ok fs1) : FS.AgreeOutside U fs fs1 := by
  unfold FS.WriteFile at h
  rw [hres] at h
  simp only at h
  split at h
  · simp at h
  · split at h
    · simp at h
    · simp at h
    · split at h
      · simp at h
      · simp only [Except.ok.injEq] at h
        rw [← h]
        exact FS.agree_set fs U key _ hU

theorem FS.Remove_agree (U : List Str) (fs fs1 : FS) (name : Str) (key : List Str)
    (hres : fs.resolve name = .ok key) (hU : U <+: key) (h : fs.Remove name = .ok fs1) :
    FS.AgreeOutside U fs fs1 := by
  unfold FS.Remove at h
  rw [hres] at h
  simp only at h
  split at h
  · simp at h
  · split at h
    · simp at h
    · simp only [Except.ok.injEq] at h
      rw [← h]
      exact FS.agree_erase fs U key hU
    · split at h
      · simp only [Except.ok.injEq] at h
        rw [← h]
        exact FS.agree_erase fs U key hU
      · simp at h

theorem FS.Rename_agree (U : List Str) (fs fs1 : FS) (oldpath newpath : Str)
    (oldKey newKey : List Str) (hold : fs.resolve oldpath = .ok oldKey)
    (hnew : fs.resolve newpath = .ok newKey) (hUold : U <+: oldKey) (hUnew : U <+: newKey)
    (h : fs.Rename oldpath newpath = .ok fs1) : FS.AgreeOutside U fs fs1 := by
  unfold FS.Rename at h
  rw [hold, hnew] at h
  simp only at h
  have hset : ∀ content, FS.AgreeOutside U fs (fs.moveFile oldKey newKey content) :=
    fun content => FS.agree_moveFile fs U oldKey newKey content hUold hUnew
  have hmove := FS.agree_moveSubtree fs U oldKey newKey hUold hUnew
  repeat' split at h
  all_goals first
    | (simp at h; done)
    | (simp only [Except.ok.injEq] at h; rw [← h]; first
        | exact FS.AgreeOutside.refl U fs
        | exact hset _
        | exact hmove)

/-! ### The store changes the directory of one user only -/

/-- What it means that the storage root exists. -/
theorem base_of_Stat (s : Storage) (fs : FS)
    (hbase : fs.Stat s.basePath = .ok { size := fs.dirSize, isDir := true }) :
    s.basePath ≠ [] ∧ fs.lookup (fs.resolveKey s.basePath) = .ok Node.dir := by
  have hne : s.basePath ≠ [] := by
    intro hh
    rw [hh] at hbase
    simp [FS.Stat, FS.resolve] at hbase
  refine ⟨hne, ?_⟩
  unfold FS.Stat FS.resolve at hbase
  simp only [hne, if_false] at hbase
  unfold FS.resolveKey
  cases hl : fs.lookup ((strings.Split s.basePath filepath.Separator).foldl FS.resolveStep
      (if strings.HasPrefix s.basePath [filepath.Separator] = true then [] else fs.cwd)) with
  | error e => rw [hl] at hbase; simp at hbase
  | ok node =>
    rw [hl] at hbase
    cases node with
    | dir => rfl
    | file content => simp at hbase

/-- On the way to a path of a user, every directory that is not below the
directory of the user is the storage root or above it, and exists. -/
theorem dirs_outside_userKey (s : Storage) (fs : FS) (userID : Int) (rest k : List Str)
    (hroot : fs.lookup (fs.resolveKey s.basePath) = .ok Node.dir)
    (hk : k <+: userKey s fs userID ++ rest) (hu : ¬ userKey s fs userID <+: k) :
    fs.lookup k = .ok Node.dir := by
  have hk2 : k <+: userKey s fs userID := by
    rcases List.prefix_or_prefix_of_prefix hk (List.prefix_append _ _) with h | h
    · exact h
    · exact absurd h hu
  unfold userKey at hk2 hu
  rw [List.prefix_concat_iff] at hk2
  rcases hk2 with h | h
  · exact absurd (h ▸ List.prefix_refl _) hu
  · obtain ⟨t, ht⟩ := h
    by_cases htn : t = []
    · rw [htn, List.append_nil] at ht
      rw [ht]
      exact hroot
    · rw [← ht] at hroot
      exact FS.lookup_prefix_dir fs k t Node.dir htn hroot

theorem dropLast_initial {α : Type} (l : List α) : l.dropLast <+: l := by
  induction l with
  | nil => exact List.prefix_refl _
  | cons a l ih =>
    cases l with
    | nil => exact List.nil_prefix
    | cons b l =>
      rw [List.dropLast_cons₂]
      exact (List.prefix_cons_inj a).mpr ih

theorem Store_agree (s : Storage) (fs : FS) (userID : Int) (p : Str) (c : List Byte)
    (hbase : fs.Stat s.basePath = .ok { size := fs.dirSize, isDir := true })
    (hdd : ['.', '.'] ∉ strings.Split p filepath.Separator) :
    FS.AgreeOutside (userKey s fs userID) fs (s.Store fs userID p c).2 := by
  obtain ⟨hb, hroot⟩ := base_of_Stat s fs hbase
  unfold Storage.Store
  simp only
  cases hm : fs.MkdirAll (filepath.Dir (s.getFullPath userID p)) with
  | error e => exact FS.AgreeOutside.refl _ fs
  | ok fs1 =>
    have h1 : FS.AgreeOutside (userKey s fs userID) fs fs1 :=
      FS.MkdirAll_agree _ fs fs1 _ _ (resolve_Dir_getFullPath s fs userID p hb hdd)
        (fun k hk hu => dirs_outside_userKey s fs userID (filepath.parts p) k hroot
          (hk.trans (dropLast_initial _)) hu) hm
    simp only
    have hkey1 : userKey s fs1 userID = userKey s fs userID := by
      unfold userKey FS.resolveKey
      rw [h1.1]
    cases hw : fs1.WriteFile (s.getFullPath userID p) c with
    | error e => exact h1
    | ok fs2 =>
      have h2 : FS.AgreeOutside (userKey s fs userID) fs1 fs2 := by
        have := FS.WriteFile_agree (userKey s fs1 userID) fs1 fs2 _ c _
          (resolve_getFullPath_parts s fs1 userID p hb hdd) (List.prefix_append _ _) hw
        rw [hkey1] at this
        exact this
      simp only
      cases s.GetInfo fs2 userID p with
      | error e => exact h1.trans h2
      | ok info => exact h1.trans h2

theorem Delete_agree (s : Storage) (fs : FS) (userID : Int) (p : Str)
    (hbase : fs.Stat s.basePath = .ok { size := fs.dirSize, isDir := true })
    (hdd : ['.', '.'] ∉ strings.Split p filepath.Separator) :
    FS.AgreeOutside (userKey s fs userID) fs (s.Delete fs userID p).2 := by
  obtain ⟨hb, _⟩ := base_of_Stat s fs hbase
  unfold Storage.Delete
  simp only
  cases hr : fs.Remove (s.getFullPath userID p) with
  | error e =>
    simp only
    split <;> exact FS.AgreeOutside.refl _ fs
  | ok fs1 =>
    exact FS.Remove_agree _ fs fs1 _ _ (resolve_getFullPath_parts s fs userID p hb hdd)
      (List.prefix_append _ _) hr

theorem Move_agree (s : Storage) (fs : FS) (userID : Int) (p p2 : Str)
    (hbase : fs.Stat s.basePath = .ok { size := fs.dirSize, isDir := true })
    (hdd : ['.', '.'] ∉ strings.Split p filepath.Separator)
    (hdd2 : ['.', '.'] ∉ strings.Split p2 filepath.Separator) :
    FS.AgreeOutside (userKey s fs userID) fs (s.Move fs userID p p2).2 := by
  obtain ⟨hb, hroot⟩ := base_of_Stat s fs hbase
  unfold Storage.Move
  simp only
  cases hm : fs.MkdirAll (filepath.Dir (s.getFullPath userID p2)) with
  | error e => exact FS.AgreeOutside.refl _ fs
  | ok fs1 =>
    have h1 : FS.AgreeOutside (userKey s fs userID) fs fs1 :=
      FS.MkdirAll_agree _ fs fs1 _ _ (resolve_Dir_getFullPath s fs userID p2 hb hdd2)
        (fun k hk hu => dirs_outside_userKey s fs userID (filepath.parts p2) k hroot
          (hk.trans (dropLast_initial _)) hu) hm
    have hkey1 : userKey s fs1 userID = userKey s fs userID := by
      unfold userKey FS.resolveKey
      rw [h1.1]
    simp only
    cases hr : fs1.Rename (s.getFullPath userID p) (s.getFullPath userID p2) with
    | error e => exact h1
    | ok fs2 =>
      have h2 := FS.Rename_agree (userKey s fs1 userID) fs1 fs2 _ _ _ _
        (resolve_getFullPath_parts s fs1 userID p hb hdd)
        (resolve_getFullPath_parts s fs1 userID p2 hb hdd2)
        (List.prefix_append _ _) (List.prefix_append _ _) hr
      rw [hkey1] at h2
      exact h1.trans h2

/-! ### What another user sees -/

/-- The directories of two users lie side by side: no path of one user is
below the directory of the other. -/
theorem userKey_apart (s : Storage) (fs : FS) (u1 u2 : Int) (hne : u1 ≠ u2)
    (rest : List Str) : ¬ userKey s fs u1 <+: userKey s fs u2 ++ rest := by
  unfold userKey
  intro h
  rw [List.append_assoc, List.prefix_append_right_inj] at h
  obtain ⟨t, ht⟩ := h
  simp only [List.singleton_append, List.cons_append, List.nil_append, List.cons.injEq] at ht
  exact hne (fmtInt_injective _ _ ht.1)

/-- The lookup of a path that is not below `U` gives the same in two
filesystems that agree outside `U`. -/
theorem FS.lookup_agree (U : List Str) (fs fs2 : FS) (h : FS.AgreeOutside U fs fs2)
    (key : List Str) (hk : ¬ U <+: key) : fs2.lookup key = fs.lookup key := by
  unfold FS.lookup
  apply FS.walkFrom_congr
  intro k hkp
  simp only [List.nil_append]
  exact h.2.2.1 k (fun hu => hk (hu.trans hkp))

/-- The entries of a directory are the same in two filesystems that agree
outside `U`, when no entry of the directory is `U` or below it. -/
theorem FS.childNames_agree (U : List Str) (fs fs2 : FS) (h : FS.AgreeOutside U fs fs2)
    (key : List Str) (hk : ∀ name, ¬ U <+: key ++ [name]) :
    (fs2.childNames key).insertionSort (fun a b => a ≤ b) =
      (fs.childNames key).insertionSort (fun a b => a ≤ b) := by
  have hmem : ∀ name, name ∈ fs2.childNames key ↔ name ∈ fs.childNames key := by
    intro name
    rw [FS.mem_childNames, FS.mem_childNames, h.2.2.1 (key ++ [name]) (hk name)]
  have hperm : (fs2.childNames key).Perm (fs.childNames key) :=
    (List.perm_ext_iff_of_nodup (List.nodup_dedup _) (List.nodup_dedup _)).mpr hmem
  exact List.eq_of_perm_of_sorted
    ((List.perm_insertionSort _ _).trans (hperm.trans (List.perm_insertionSort _ _).symm))
    (List.sorted_insertionSort _ _) (List.sorted_insertionSort _ _)

/-- The names that `ReadDir` gives are valid names when the keys of the
table are made of valid names. -/
theorem FS.childNames_valid (fs : FS) (hv : fs.ValidNames) (key : List Str) :
    ∀ name ∈ fs.childNames key, filepath.validName name = true := by
  intro name hname
  unfold FS.childNames at hname
  rw [List.mem_dedup, List.mem_filterMap] at hname
  obtain ⟨e, he, hlast⟩ := hname
  split at hlast
  · exact hv e he name (List.mem_of_getLast?_eq_some hlast)
  · cases hlast

/-- The loop of `Storage.List` gives the same for the same names when
`GetInfo` gives the same for each of them. -/
theorem listEntries_congr (s : Storage) (fs fs2 : FS) (userID : Int) (path : Str) :
    ∀ (names : List Str),
      (∀ name ∈ names, s.GetInfo fs2 userID (filepath.Join [path, name]) =
        s.GetInfo fs userID (filepath.Join [path, name])) →
      s.listEntries fs2 userID path names = s.listEntries fs userID path names
  | [], _ => rfl
  | name :: rest, h => by
    unfold Storage.listEntries
    simp only
    rw [h name (List.mem_cons_self _ _),
      listEntries_congr s fs fs2 userID path rest (fun n hn => h n (List.mem_cons_of_mem _ hn))]

/-- What a user sees of the store does not change when the filesystem
changes below the directory of another user only. -/
theorem observe_agree (s : Storage) (fs fs2 : FS) (u1 u2 : Int) (q : Str) (hne : u1 ≠ u2)
    (hb : s.basePath ≠ []) (hq : isPathSafe q = true) (hv : fs.ValidNames)
    (h : FS.AgreeOutside (userKey s fs u1) fs fs2) :
    s.Get fs2 u2 q = s.Get fs u2 q ∧ s.GetInfo fs2 u2 q = s.GetInfo fs u2 q ∧
      s.List fs2 u2 q = s.List fs u2 q := by
  have hdd := isPathSafe_no_dotdot_segment q hq
  have hrel : strings.HasPrefix q [filepath.Separator] = false := by
    by_cases hr : strings.HasPrefix q ['/'] = true
    · unfold isPathSafe at hq
      simp [hr] at hq
    · simpa using hr
  have hres := resolve_getFullPath_parts s fs u2 q hb hdd
  have hres2 : fs2.resolve (s.getFullPath u2 q) = fs.resolve (s.getFullPath u2 q) := by
    unfold FS.resolve
    rw [h.1]
  have hlook : fs2.lookup (userKey s fs u2 ++ filepath.parts q) =
      fs.lookup (userKey s fs u2 ++ filepath.parts q) :=
    FS.lookup_agree _ fs fs2 h _ (userKey_apart s fs u1 u2 hne _)
  have hperm : (userKey s fs u2 ++ filepath.parts q ∈ fs2.noRead) =
      (userKey s fs u2 ++ filepath.parts q ∈ fs.noRead) :=
    propext (h.2.2.2 _ (userKey_apart s fs u1 u2 hne _))
  have hobs := Get_GetInfo_congr s fs fs2 u2 q h.1 h.2.1 (fun key hkey => by
    rw [hres] at hkey
    simp only [Except.ok.injEq] at hkey
    rw [← hkey]
    exact hlook) (fun key hkey => by
    rw [hres] at hkey
    simp only [Except.ok.injEq] at hkey
    rw [← hkey, hperm])
  refine ⟨hobs.1, hobs.2, ?_⟩
  have hread : fs2.ReadDir (s.getFullPath u2 q) = fs.ReadDir (s.getFullPath u2 q) := by
    unfold FS.ReadDir
    rw [hres2, hres]
    simp only [hlook, hperm]
    rw [FS.childNames_agree _ fs fs2 h _ (fun name => by
      rw [List.append_assoc]
      exact userKey_apart s fs u1 u2 hne _)]
  unfold Storage.List
  simp only [hread]
  cases hnames : fs.ReadDir (s.getFullPath u2 q) with
  | error e => rfl
  | ok names =>
    simp only
    congr 1
    apply listEntries_congr
    intro name hname
    have hvalid : filepath.validName name = true := by
      unfold FS.ReadDir at hnames
      rw [hres] at hnames
      simp only at hnames
      split at hnames
      · simp at hnames
      · split at hnames <;> simp at hnames
      · split at hnames
        · simp at hnames
        · simp only [Except.ok.injEq] at hnames
          rw [← hnames] at hname
          exact FS.childNames_valid fs hv _ name
            ((List.perm_insertionSort _ _).mem_iff.mp hname)
    have hchild := resolve_getFullPath_child s fs u2 q name hb hrel hdd hvalid
    exact (Get_GetInfo_congr s fs fs2 u2 _ h.1 h.2.1 (fun key hkey => by
      rw [hchild] at hkey
      simp only [Except.ok.injEq] at hkey
      rw [← hkey, List.append_assoc]
      exact FS.lookup_agree _ fs fs2 h _ (userKey_apart s fs u1 u2 hne _)) (fun key hkey => by
      rw [hchild] at hkey
      simp only [Except.ok.injEq] at hkey
      rw [← hkey, List.append_assoc]
      exact h.2.2.2 _ (userKey_apart s fs u1 u2 hne _))).2

/-- C28: `Move` with a destination that `isPathSafe` refuses crosses into the
directory of another user.  User 1 moves `b.txt`, a safe path, to `../2/x`:
the call succeeds, and `Get(2, x)` and `GetInfo(2, x)`, for the safe path
`x`, give the content and the record of the file of user 1 where they gave
those of the file of user 2.  With the destination `../2/n` the listing of
the directory of user 2 has one entry more. -/
theorem Move_to_unsafe_destination_crosses_users :
    (isPathSafe "b.txt".toList = true ∧ isPathSafe "x".toList = true ∧
      isPathSafe [] = true ∧ isPathSafe "../2/x".toList = false ∧
      isPathSafe "../2/n".toList = false) ∧
    (exampleStorage.Move usersFS 1 "b.txt".toList "../2/x".toList).1 = .ok () ∧
    (exampleStorage.Get usersFS 2 "x".toList = .ok (bytesOf "two") ∧
      exampleStorage.Get (exampleStorage.Move usersFS 1 "b.txt".toList "../2/x".toList).2 2
        "x".toList = .ok (bytesOf "b")) ∧
    (exampleStorage.GetInfo usersFS 2 "x".toList =
        .ok { Path := "x".toList, Size := 3,
              Hash := hex.EncodeToString (sha256.Sum256 (bytesOf "two")),
              IsDirectory := false } ∧
      exampleStorage.GetInfo (exampleStorage.Move usersFS 1 "b.txt".toList "../2/x".toList).2 2
        "x".toList =
        .ok { Path := "x".toList, Size := 1,
              Hash := hex.EncodeToString (sha256.Sum256 (bytesOf "b")),
              IsDirectory := false }) ∧
    (exampleStorage.Move usersFS 1 "b.txt".toList "../2/n".toList).1 = .ok () ∧
    ((exampleStorage.List usersFS 2 []).map (fun l => l.map (fun r => r.Path)) =
        .ok ["dir".toList, "x".toList] ∧
      (exampleStorage.List (exampleStorage.Move usersFS 1 "b.txt".toList "../2/n".toList).2 2
        []).map (fun l => l.map (fun r => r.Path)) =
        .ok ["dir".toList, "n".toList, "x".toList]) :=
  ⟨⟨by decide, by decide, by decide, by decide, by decide⟩, by rfl, ⟨by rfl, by rfl⟩,
    ⟨by rfl, by rfl⟩, by rfl, ⟨by rfl, by rfl⟩⟩

/-- Isolation of the users for validated paths: in a store whose root
directory exists (`NewStorage` makes it), for distinct users `u1` and `u2`
and paths `p`, `p2` and `q` that `isPathSafe` accepts, `Store(u1, p, c)`,
`Delete(u1, p)` and `Move(u1, p, p2)` leave `Get(u2, q)`, `GetInfo(u2, q)`
and `List(u2, q)` as they were, whether the operation succeeds or fails.
(The table of the filesystem holds valid file names only.) -/
theorem user_isolation (s : Storage) (fs : FS) (u1 u2 : Int) (p p2 q : Str) (c : List Byte)
    (hne : u1 ≠ u2) (hp : isPathSafe p = true) (hp2 : isPathSafe p2 = true)
    (hq : isPathSafe q = true)
    (hbase : fs.Stat s.basePath = .ok { size := fs.dirSize, isDir := true })
    (hv : fs.ValidNames) :
    (s.Get (s.Store fs u1 p c).2 u2 q = s.Get fs u2 q ∧
      s.GetInfo (s.Store fs u1 p c).2 u2 q = s.GetInfo fs u2 q ∧
      s.List (s.Store fs u1 p c).2 u2 q = s.List fs u2 q) ∧
    (s.Get (s.Delete fs u1 p).2 u2 q = s.Get fs u2 q ∧
      s.GetInfo (s.Delete fs u1 p).2 u2 q = s.GetInfo fs u2 q ∧
      s.List (s.Delete fs u1 p).2 u2 q = s.List fs u2 q) ∧
    (s.Get (s.Move fs u1 p p2).2 u2 q = s.Get fs u2 q ∧
      s.GetInfo (s.Move fs u1 p p2).2 u2 q = s.GetInfo fs u2 q ∧
      s.List (s.Move fs u1 p p2).2 u2 q = s.List fs u2 q) := by
  have hb := (base_of_Stat s fs hbase).1
  have hdd := isPathSafe_no_dotdot_segment p hp
  have hdd2 := isPathSafe_no_dotdot_segment p2 hp2
  exact ⟨observe_agree s fs _ u1 u2 q hne hb hq hv (Store_agree s fs u1 p c hbase hdd),
    observe_agree s fs _ u1 u2 q hne hb hq hv (Delete_agree s fs u1 p hbase hdd),
    observe_agree s fs _ u1 u2 q hne hb hq hv (Move_agree s fs u1 p p2 hbase hdd hdd2)⟩

/-- The isolation at work: user 1 stores `docs/a.txt` anew, deletes
`docs/a.txt` and moves `docs/a.txt` to `moved/a.txt`, each with success;
user 2 looks at the directory `dir`. -/
theorem user_isolation_witness :
    ((exampleStorage.Store usersFS 1 "docs/a.txt".toList (bytesOf "c")).1.toOption.isSome =
        true ∧
      (exampleStorage.Delete usersFS 1 "docs/a.txt".toList).1 = .ok () ∧
      (exampleStorage.Move usersFS 1 "docs/a.txt".toList "moved/a.txt".toList).1 = .ok ()) ∧
    (exampleStorage.Get (exampleStorage.Store usersFS 1 "docs/a.txt".toList (bytesOf "c")).2 2
        "dir".toList = exampleStorage.Get usersFS 2 "dir".toList ∧
      exampleStorage.GetInfo
        (exampleStorage.Store usersFS 1 "docs/a.txt".toList (bytesOf "c")).2 2
        "dir".toList = exampleStorage.GetInfo usersFS 2 "dir".toList ∧
      exampleStorage.List (exampleStorage.Store usersFS 1 "docs/a.txt".toList (bytesOf "c")).2 2
        "dir".toList = exampleStorage.List usersFS 2 "dir".toList) ∧
    (exampleStorage.Get (exampleStorage.Delete usersFS 1 "docs/a.txt".toList).2 2 "dir".toList =
        exampleStorage.Get usersFS 2 "dir".toList ∧
      exampleStorage.GetInfo (exampleStorage.Delete usersFS 1 "docs/a.txt".toList).2 2
        "dir".toList = exampleStorage.GetInfo usersFS 2 "dir".toList ∧
      exampleStorage.List (exampleStorage.Delete usersFS 1 "docs/a.txt".toList).2 2
        "dir".toList = exampleStorage.List usersFS 2 "dir".toList) ∧
    (exampleStorage.Get
        (exampleStorage.Move usersFS 1 "docs/a.txt".toList "moved/a.txt".toList).2 2
        "dir".toList = exampleStorage.Get usersFS 2 "dir".toList ∧
      exampleStorage.GetInfo
        (exampleStorage.Move usersFS 1 "docs/a.txt".toList "moved/a.txt".toList).2 2
        "dir".toList = exampleStorage.GetInfo usersFS 2 "dir".toList ∧
      exampleStorage.List
        (exampleStorage.Move usersFS 1 "docs/a.txt".toList "moved/a.txt".toList).2 2
        "dir".toList = exampleStorage.List usersFS 2 "dir".toList) :=
  ⟨⟨by rfl, by rfl, by rfl⟩,
    user_isolation exampleStorage usersFS 1 2 "docs/a.txt".toList "moved/a.txt".toList
      "dir".toList (bytesOf "c") (by decide) (by decide) (by decide) (by decide) (by rfl)
      (by unfold FS.ValidNames; decide)⟩

/-- C29: the dispatcher never panics, whatever events it handles from the
empty map on (no channel is closed twice and no send goes to a closed
channel), and in the state it reaches the map has one entry for each
client, every channel in the map is open, and every channel in the map holds
at most 10 pending events. -/
theorem notifier_never_panics (events : List NotifierEvent) :
    ∃ n, FileChangeNotifier.empty.run events = .ok n ∧
      (n.clients.map (fun e => e.1)).Nodup ∧
      (∀ e ∈ n.clients, e.2.closed = false) ∧
      (∀ e ∈ n.clients, e.2.pending.length ≤ 10) := by
  have hrun : ∀ (events : List NotifierEvent) (n : FileChangeNotifier),
      n.WellFormed → (∀ e ∈ n.clients, e.2.pending.length ≤ 10) →
      ∃ n1, n.run events = .ok n1 ∧ n1.WellFormed ∧
        ∀ e ∈ n1.clients, e.2.pending.length ≤ 10 := by
    intro events
    induction events with
    | nil => intro n hwf hb; exact ⟨n, rfl, hwf, hb⟩
    | cons event rest ih =>
      intro n hwf hb
      obtain ⟨n1, hstep, hb1⟩ := step_bounded n event hwf hb
      obtain ⟨n2, hrest, hwf2, hb2⟩ := ih n1 (step_wellFormed n n1 event hwf hstep) hb1
      refine ⟨n2, ?_, hwf2, hb2⟩
      simp only [FileChangeNotifier.run, hstep]
      exact hrest
  obtain ⟨n, hok, hwf, hb⟩ := hrun events FileChangeNotifier.empty empty_wellFormed
    (fun _ he => by simp [FileChangeNotifier.empty] at he)
  exact ⟨n, hok, hwf.1, hwf.2, hb⟩

/-- C30: `isPathSafe` gives for every path what its first two checks give:
it is true exactly when the path does not contain `..` and does not start
with `/`; the check of the segments after cleaning rejects nothing more.  The
empty path and `.` are accepted. -/
theorem isPathSafe_eq_spec :
    (∀ p : Str, isPathSafe p = isPathSafeSpec p) ∧
    (∀ p : Str, isPathSafe p = true ↔
      (strings.Contains p ['.', '.'] = false ∧ strings.HasPrefix p ['/'] = false)) ∧
    isPathSafe [] = true ∧ isPathSafe ['.'] = true := by
  have hmain : ∀ p : Str, isPathSafe p = isPathSafeSpec p := by
    intro p
    unfold isPathSafe isPathSafeSpec
    by_cases hc : strings.Contains p ['.', '.'] = true
    · simp [hc]
    · by_cases hr : strings.HasPrefix p ['/'] = true
      · simp [hc, hr]
      · have hc2 : strings.Contains p ['.', '.'] = false := by simpa using hc
        have hr2 : strings.HasPrefix p [filepath.Separator] = false := by simpa using hr
        have hdd : ['.', '.'] ∉ strings.Split p filepath.Separator := by
          intro hmem
          have := strings.Contains_of_mem_Split p _ _ hmem
          rw [hc2] at this
          cases this
        have hr3 : strings.HasPrefix p ['/'] = false := hr2
        simp only [hc2, hr3, Bool.false_eq_true, if_false, Bool.not_false, Bool.and_self]
        rw [filepath.Split_Clean_relative p hr2 hdd]
        have hany : (if (strings.Split p filepath.Separator).filter filepath.keepElem = []
            then [['.']]
            else (strings.Split p filepath.Separator).filter filepath.keepElem).any
            (fun segment => segment == ['.', '.']) = false := by
          rw [List.any_eq_false]
          intro seg hseg
          split at hseg
          · simp only [List.mem_singleton] at hseg
            rw [hseg]
            decide
          · intro heq
            simp only [beq_iff_eq] at heq
            rw [heq] at hseg
            exact hdd (List.mem_filter.mp hseg).1
        rw [hany]
        rfl
  refine ⟨hmain, ?_, by decide, by decide⟩
  intro p
  rw [hmain p]
  unfold isPathSafeSpec
  simp

end Universa
